import Mathlib

/-!
# Baton-SQL: query templating, paginated queries, provisioning and expression helpers

A shallow embedding of `pkg/bsql/query.go` (placeholder rewriting, pagination, the row loop of
`runQuery`, the transaction of `runProvisioningQueries`), of `pkg/bcel/helpers.go` and of
`pkg/bcel/functions/{slugify,php_serialize,php_deserialize}.go`, with the properties the
specification states about them.

Go strings are modelled as lists of Unicode code points (`Str`), i.e. as valid UTF-8 text.
The regular expressions of the source are character-class patterns without anchors inside
the text, so each one is modelled by a function giving the length of the match that starts
at the head of its input, and `regexp.ReplaceAllStringFunc` by one left-to-right scan.
What lies outside the repository is a parameter: the Unicode case tables (`caseTable`), the
database (`db`, `ProvisioningDriver`) and the PHP codec (`PhpSerialize`).
-/

namespace BatonSQL

/-! ## Go library helpers -/

/-- Go `string`: a list of code points. -/
abbrev Str := List Char

/-- Go `unicode.ToLower`: code points up to `MaxASCII` take the fast path (`'A'..'Z'` move by
`'a' - 'A'`, everything else is returned as is); the others go through the Unicode case
tables, which are a parameter here. -/
def unicodeToLower (caseTable : Char → Char) (r : Char) : Char :=
  if r.toNat ≤ 127 then
    if 65 ≤ r.toNat ∧ r.toNat ≤ 90 then Char.ofNat (r.toNat + 32) else r
  else caseTable r

/-- Go `strings.ToLower`: `unicode.ToLower` mapped over the code points. -/
def stringsToLower (caseTable : Char → Char) (s : Str) : Str :=
  s.map (unicodeToLower caseTable)

/-- Go `strings.HasPrefix`. -/
def stringsHasPrefix : Str → Str → Bool
  | _, [] => true
  | [], _ :: _ => false
  | c :: cs, p :: ps => c == p && stringsHasPrefix cs ps

/-- Go `strings.ReplaceAll s old new` for a non-empty `old`, as a scan: the second argument
counts the code points of a match that are still to be skipped. -/
def stringsReplaceAllFrom (old new : Str) : Str → Nat → Str
  | [], _ => []
  | _ :: cs, k + 1 => stringsReplaceAllFrom old new cs k
  | c :: cs, 0 =>
    if stringsHasPrefix (c :: cs) old then new ++ stringsReplaceAllFrom old new cs (old.length - 1)
    else c :: stringsReplaceAllFrom old new cs 0

/-- Go `strings.ReplaceAll` (non-empty `old`). -/
def stringsReplaceAll (s old new : Str) : Str :=
  stringsReplaceAllFrom old new s 0

/-- Go `strings.TrimLeft s cutset`. -/
def stringsTrimLeft (s cutset : Str) : Str :=
  s.dropWhile (fun c => decide (c ∈ cutset))

/-- Go `strings.TrimRight s cutset`. -/
def stringsTrimRight (s cutset : Str) : Str :=
  (s.reverse.dropWhile (fun c => decide (c ∈ cutset))).reverse

/-- Go `strings.Trim s cutset`: leading and trailing code points of `cutset` removed. -/
def stringsTrim (s cutset : Str) : Str :=
  stringsTrimRight (stringsTrimLeft s cutset) cutset

/-- Go `regexp.ReplaceAllStringFunc` for a pattern given by `re`, where `re t` is the length
of the match starting at the head of `t` (no match: `none`; the patterns here never match the
empty string). `repl` is the callback, with the variables it captures threaded as a state.
The `Nat` argument counts the code points of the current match still to be skipped. -/
def regexpReplaceAllStringFunc {σ : Type} (re : Str → Option Nat) (repl : σ → Str → Str × σ) :
    Str → Nat → σ → Str × σ
  | [], _, st => ([], st)
  | _ :: cs, k + 1, st => regexpReplaceAllStringFunc re repl cs k st
  | c :: cs, 0, st =>
    match re (c :: cs) with
    | some (n + 1) =>
      let r := repl st ((c :: cs).take (n + 1))
      let rest := regexpReplaceAllStringFunc re repl cs n r.2
      (r.1 ++ rest.1, rest.2)
    | _ =>
      let rest := regexpReplaceAllStringFunc re repl cs 0 st
      (c :: rest.1, rest.2)

/-- Go `regexp.ReplaceAllString` with a replacement text that has no `$` expansions. -/
def regexpReplaceAllString (re : Str → Option Nat) (s new : Str) : Str :=
  (regexpReplaceAllStringFunc re (fun (_ : Unit) _ => (new, ())) s 0 ()).1

/-- The match of a pattern `[class]+` at the head of the input: the longest non-empty run. -/
def matchRun (cls : Char → Bool) (s : Str) : Option Nat :=
  match (s.takeWhile cls).length with
  | 0 => none
  | n + 1 => some (n + 1)

/-! ## `pkg/bcel/functions/slugify.go` -/

/-- The class `[a-z0-9-]`. -/
def isSlugChar (c : Char) : Bool :=
  (97 ≤ c.toNat && c.toNat ≤ 122) || (48 ≤ c.toNat && c.toNat ≤ 57) || c == '-'

/-- The pattern `[^a-z0-9-]+`. -/
def slugifyAlphaNumRegex : Str → Option Nat :=
  matchRun (fun c => !isSlugChar c)

/-- The pattern `-+`. -/
def slugifyHyphenRegex : Str → Option Nat :=
  matchRun (fun c => c == '-')

/-- The function `Slugify` of `slugify.go`. -/
def Slugify (caseTable : Char → Char) (s : Str) : Str :=
  let slug := stringsToLower caseTable s
  let slug := stringsReplaceAll slug [' '] ['-']
  let slug := stringsReplaceAll slug ['_'] ['-']
  let slug := regexpReplaceAllString slugifyAlphaNumRegex slug []
  let slug := regexpReplaceAllString slugifyHyphenRegex slug ['-']
  stringsTrim slug ['-']

/-- Specification: a space or an underscore becomes a hyphen. -/
def spaceToHyphen (c : Char) : Char :=
  if c = ' ' ∨ c = '_' then '-' else c

/-- Specification: each run of hyphens collapsed into a single hyphen. -/
def collapseHyphens : Str → Str
  | [] => []
  | [c] => [c]
  | c :: d :: cs =>
    if c = '-' ∧ d = '-' then collapseHyphens (d :: cs) else c :: collapseHyphens (d :: cs)

/-- Specification: hyphens trimmed from both ends. -/
def trimHyphens (s : Str) : Str :=
  (s.dropWhile (fun c => c == '-')).rdropWhile (fun c => c == '-')

/-- Specification of `slugify`, in the words of the specification: lowercase; replace
space/underscore with `-`; drop all characters outside `[a-z0-9-]`; collapse runs of `-`;
trim leading/trailing `-`. -/
def slugifySpec (caseTable : Char → Char) (s : Str) : Str :=
  trimHyphens (collapseHyphens
    (((s.map (unicodeToLower caseTable)).map spaceToHyphen).filter isSlugChar))

/-- The class `[a-z0-9]`. -/
def isSlugAlnum (c : Char) : Bool :=
  (97 ≤ c.toNat && c.toNat ≤ 122) || (48 ≤ c.toNat && c.toNat ≤ 57)

/-- Shape of a slug: empty, or non-empty runs of `[a-z0-9]` separated by single hyphens. -/
def IsSlug (r : Str) : Prop :=
  r = [] ∨ ∃ words : List Str, words ≠ [] ∧
    (∀ w ∈ words, w ≠ [] ∧ ∀ c ∈ w, isSlugAlnum c = true) ∧ r = List.intercalate ['-'] words

/-- Local form of the slug shape: only `[a-z0-9-]`, no two hyphens in a row, no hyphen at
either end. -/
def SlugShape (r : Str) : Prop :=
  (∀ c ∈ r, isSlugChar c = true) ∧ r.Chain' (fun a b => ¬(a = '-' ∧ b = '-')) ∧
    r.head? ≠ some '-' ∧ r.getLast? ≠ some '-'

/-! ## `pkg/bcel/helpers.go` -/

/-- Go `strings.Index s substr` from position `i` of the scan: the index of the first
occurrence of `substr`, or `-1`. -/
def stringsIndexFrom (substr : Str) : Str → Nat → Int
  | [], i => if substr = [] then (i : Int) else -1
  | c :: cs, i =>
    if stringsHasPrefix (c :: cs) substr then (i : Int) else stringsIndexFrom substr cs (i + 1)

/-- Go `strings.Index`. -/
def stringsIndex (s substr : Str) : Int :=
  stringsIndexFrom substr s 0

/-- Go `strings.TrimPrefix`. -/
def stringsTrimPrefix (s p : Str) : Str :=
  if stringsHasPrefix s p then s.drop p.length else s

/-- The class `\w` of Go regular expressions: `[0-9A-Za-z_]`. -/
def isWordChar (c : Char) : Bool :=
  (48 ≤ c.toNat && c.toNat ≤ 57) || (65 ≤ c.toNat && c.toNat ≤ 90) || c == '_'
    || (97 ≤ c.toNat && c.toNat ≤ 122)

/-- The pattern `\.\w+` (`dotFieldRegexp`): a dot and the longest non-empty run of word
characters after it. -/
def dotFieldRegexp : Str → Option Nat
  | [] => none
  | c :: cs =>
    if c = '.' then
      match (cs.takeWhile isWordChar).length with
      | 0 => none
      | n + 1 => some (n + 2)
    else none

/-- The pattern `^[a-zA-Z_][a-zA-Z0-9_]*$` (`bareStringRegexp.MatchString`). -/
def bareStringRegexp : Str → Bool
  | [] => false
  | c :: cs =>
    ((97 ≤ c.toNat && c.toNat ≤ 122) || (65 ≤ c.toNat && c.toNat ≤ 90) || c == '_')
      && cs.all (fun x => (97 ≤ x.toNat && x.toNat ≤ 122) || (65 ≤ x.toNat && x.toNat ≤ 90)
        || (48 ≤ x.toNat && x.toNat ≤ 57) || x == '_')

/-- The function `isAlphaNumeric` of `helpers.go`. -/
def isAlphaNumeric (c : Char) : Bool :=
  (97 ≤ c.toNat && c.toNat ≤ 122) || (65 ≤ c.toNat && c.toNat ≤ 90)
    || (48 ≤ c.toNat && c.toNat ≤ 57) || c == '_'

/-- The text `cols['<field>']`. -/
def colsAccess (field : Str) : Str :=
  "cols[".toList ++ [Char.ofNat 39] ++ field ++ [Char.ofNat 39] ++ "]".toList

/-- The callback given to `ReplaceAllStringFunc` in `preprocessExpressions`; the state is the
captured variable `offset`. `expr[offset:]` and `expr[matchIndex-1]` are taken at the
natural-number value of the index. -/
def preprocessReplace (expr : Str) (offset : Int) (s : Str) : Str × Int :=
  let matchIndex := stringsIndex (expr.drop offset.toNat) s + offset
  if matchIndex > 0 ∧ (expr.get? (matchIndex - 1).toNat).any isAlphaNumeric = true then
    (s, matchIndex + s.length)
  else
    (colsAccess (stringsTrimPrefix s ['.']), matchIndex + s.length)

/-- The function `preprocessExpressions` of `helpers.go`. -/
def preprocessExpressions (expr : Str) : Str :=
  if bareStringRegexp expr then
    if expr = "true".toList ∨ expr = "false".toList then expr
    else ['"'] ++ expr ++ ['"']
  else
    (regexpReplaceAllStringFunc dotFieldRegexp (preprocessReplace expr) expr 0 0).1

/-- Specification of the rewriting of column accesses, in the words of the specification:
every occurrence of a dot followed by word characters is replaced by `cols['...']` when the
character before it is not alphanumeric/underscore (or there is none), and kept when it is;
all other text is kept. `prev` is the character before the current position and the `Nat`
counts the characters of the current occurrence still to be passed over. -/
def rewriteDotFields : Option Char → Str → Nat → Str
  | _, [], _ => []
  | _, c :: cs, k + 1 => rewriteDotFields (some c) cs k
  | prev, c :: cs, 0 =>
    if c = '.' ∧ cs.takeWhile isWordChar ≠ [] then
      (if prev.any isAlphaNumeric = true then '.' :: cs.takeWhile isWordChar
        else colsAccess (cs.takeWhile isWordChar))
        ++ rewriteDotFields (some c) cs (cs.takeWhile isWordChar).length
    else c :: rewriteDotFields (some c) cs 0

/-- An identifier: a letter or underscore followed by letters, digits and underscores. -/
def IsIdentifier (e : Str) : Prop :=
  ∃ c cs, e = c :: cs ∧ ((97 ≤ c.toNat ∧ c.toNat ≤ 122) ∨ (65 ≤ c.toNat ∧ c.toNat ≤ 90) ∨ c = '_')
    ∧ ∀ x ∈ cs, (97 ≤ x.toNat ∧ x.toNat ≤ 122) ∨ (65 ≤ x.toNat ∧ x.toNat ≤ 90)
      ∨ (48 ≤ x.toNat ∧ x.toNat ≤ 57) ∨ x = '_'

/-! ## `pkg/bsql/query.go` -/

/-- Go `strconv.Itoa` / `strconv.FormatInt(i, 10)`. -/
def strconvItoa (i : Int) : Str :=
  if i < 0 then '-' :: Nat.toDigits 10 (-i).toNat else Nat.toDigits 10 i.toNat

/-- Go `strconv.FormatUint(n, 10)`. -/
def strconvFormatUint (n : Nat) : Str :=
  Nat.toDigits 10 n

/-- A 64-bit signed result: the integer `x` wrapped into `[-2^63, 2^63)`. -/
def wrapInt64 (x : Int) : Int :=
  (x + 2 ^ 63) % 2 ^ 64 - 2 ^ 63

/-- Go `unicode.IsSpace`. -/
def unicodeIsSpace (c : Char) : Bool :=
  (9 ≤ c.toNat && c.toNat ≤ 13) || c.toNat == 32 || c.toNat == 0x85 || c.toNat == 0xA0
    || c.toNat == 0x1680 || (0x2000 ≤ c.toNat && c.toNat ≤ 0x200a) || c.toNat == 0x2028
    || c.toNat == 0x2029 || c.toNat == 0x202f || c.toNat == 0x205f || c.toNat == 0x3000

/-- Go `strings.TrimSpace`. -/
def stringsTrimSpace (s : Str) : Str :=
  ((s.dropWhile unicodeIsSpace).reverse.dropWhile unicodeIsSpace).reverse

/-- Go `strings.Split s sep` for a separator of one code point. -/
def stringsSplit (s : Str) (sep : Char) : List Str :=
  s.splitOn sep

/-- The type `database.DbEngine`. -/
inductive DbEngine where
  | Unknown | MySQL | PostgreSQL | SQLite | MSSQL | Oracle
  deriving DecidableEq, Repr

/-- A Go value of type `any`, as it occurs in `vars`, in the query arguments and in a scanned
row. A value of a type not listed is carried by the name of its type and its `%v` text. -/
inductive Value where
  | str (s : Str)
  | bytes (b : Str)
  | int64 (i : Int)
  | int (i : Int)
  | int32 (i : Int)
  | int16 (i : Int)
  | int8 (i : Int)
  | uint64 (n : Nat)
  | uint (n : Nat)
  | uint32 (n : Nat)
  | uint16 (n : Nat)
  | uint8 (n : Nat)
  | bool (b : Bool)
  | nil
  | other (goType : Str) (text : Str)
  deriving DecidableEq, Repr

/-- Go `fmt.Sprintf("%v", val)`. A byte slice prints as the list of its bytes. -/
def fmtV : Value → Str
  | .str s => s
  | .bytes b =>
    ['['] ++ List.intercalate [' ']
      ((b.flatMap (fun c => String.utf8EncodeChar c)).map (fun u => Nat.toDigits 10 u.toNat)) ++ [']']
  | .int64 i => strconvItoa i
  | .int i => strconvItoa i
  | .int32 i => strconvItoa i
  | .int16 i => strconvItoa i
  | .int8 i => strconvItoa i
  | .uint64 n => strconvFormatUint n
  | .uint n => strconvFormatUint n
  | .uint32 n => strconvFormatUint n
  | .uint16 n => strconvFormatUint n
  | .uint8 n => strconvFormatUint n
  | .bool b => if b then "true".toList else "false".toList
  | .nil => "<nil>".toList
  | .other _ text => text

def maxPageSize : Int := 1000
def minPageSize : Int := 1
def defaultPageSize : Int := 100
def offsetKey : Str := "offset".toList
def cursorKey : Str := "cursor".toList
def limitKey : Str := "limit".toList
def unquotedKey : Str := "unquoted".toList

/-- The struct `paginationContext`. -/
structure paginationContext where
  Strategy : Str
  Limit : Int
  Offset : Int
  Cursor : Str
  PrimaryKey : Str
  deriving DecidableEq, Repr

/-- The struct `queryTokenOpts`. -/
structure queryTokenOpts where
  Key : Str
  Unquoted : Bool
  deriving DecidableEq, Repr

/-- The errors built while a query template is rewritten. -/
inductive QueryError where
  /-- `invalid token format: %s` -/
  | invalidTokenFormat (token : Str)
  /-- `unknown option %s` -/
  | unknownOption (opt : Str)
  /-- `in token %s: %w` -/
  | inToken (token : Str) (err : QueryError)
  /-- `unknown token %s` -/
  | unknownToken (token : Str)
  deriving DecidableEq, Repr

/-- The error values of `query.go`. `joined` is the result of the calls of `errors.Join` on
the token errors, in the order they were joined. -/
inductive GoError where
  | joined (errs : List QueryError)
  /-- an error returned by `database/sql` or the driver -/
  | driver (msg : Str)
  /-- an error returned by the row callback -/
  | callback (msg : Str)
  /-- `primary key not found in query results` -/
  | primaryKeyNotFound
  /-- `unexpected type for primary key` -/
  | unexpectedPrimaryKeyType
  /-- `unexpected pagination strategy: %s` -/
  | unexpectedStrategy (strategy : Str)
  /-- `unknown pagination strategy %s` -/
  | unknownStrategy (strategy : Str)
  /-- `failed to parse offset token %s: %w` -/
  | parseOffsetToken (token : Str)
  /-- `query affected more than one row, ending and rolling back` -/
  | moreThanOneRow
  /-- `transactional executor required` -/
  | transactionalExecutorRequired
  deriving DecidableEq, Repr

/-- A Go call either returns or stops with a run-time panic (here: a nil pointer
dereference). -/
inductive GoResult (α : Type) where
  | returns (a : α)
  | panics
  deriving DecidableEq, Repr

/-- The pattern `\?\<([a-zA-Z0-9_]+)(?:\|([a-zA-Z0-9_]+))?\>` (`queryOptRegex`) at the head of
the input: the length of the match and its two groups (the second one empty when the option
part is absent). Neither group can stop early, as the character after it must be `|` or `>`. -/
def queryOptRegexAt : Str → Option (Nat × Str × Str)
  | '?' :: '<' :: rest =>
    let key := rest.takeWhile isWordChar
    if key = [] then none
    else
      match rest.dropWhile isWordChar with
      | '>' :: _ => some (key.length + 3, key, [])
      | '|' :: rest2 =>
        let opt := rest2.takeWhile isWordChar
        if opt = [] then none
        else
          match rest2.dropWhile isWordChar with
          | '>' :: _ => some (key.length + opt.length + 4, key, opt)
          | _ => none
      | _ => none
  | _ => none

/-- The length of the match of `queryOptRegex` at the head of the input. -/
def queryOptRegex (s : Str) : Option Nat :=
  (queryOptRegexAt s).map (fun m => m.1)

/-- Go `queryOptRegex.FindStringSubmatch`: the groups of the leftmost match. -/
def queryOptRegexFindStringSubmatch : Str → Option (Str × Str)
  | [] => none
  | c :: cs =>
    match queryOptRegexAt (c :: cs) with
    | some m => some m.2
    | none => queryOptRegexFindStringSubmatch cs

/-- The method `getNextPlaceholder`. -/
def getNextPlaceholder (dbEngine : DbEngine) (qArgs : List Value) : Str :=
  match dbEngine with
  | .MySQL => "?".toList
  | .PostgreSQL => "$".toList ++ strconvItoa qArgs.length
  | .SQLite => "?".toList
  | .MSSQL => "@p".toList ++ strconvItoa qArgs.length
  | .Oracle => ":".toList ++ strconvItoa qArgs.length
  | .Unknown => "?".toList

/-- The loop over the options in `parseToken`. -/
def parseTokenOptions (caseTable : Char → Char) : List Str → queryTokenOpts →
    Except QueryError queryTokenOpts
  | [], opts => .ok opts
  | o :: os, opts =>
    let opt := stringsTrimSpace (stringsToLower caseTable o)
    if opt = unquotedKey then parseTokenOptions caseTable os { opts with Unquoted := true }
    else .error (.unknownOption opt)

/-- The function `parseToken`. -/
def parseToken (caseTable : Char → Char) (token : Str) : Except QueryError queryTokenOpts :=
  match queryOptRegexFindStringSubmatch token with
  | none => .error (.invalidTokenFormat token)
  | some (k, o) =>
    let key := stringsToLower caseTable k
    let opts : queryTokenOpts := { Key := key, Unquoted := false }
    let optStr := stringsToLower caseTable o
    if optStr = [] then .ok opts
    else parseTokenOptions caseTable (stringsSplit optStr ',') opts

/-- The variables captured by the callback of `parseQueryOpts`; `panicked` records a nil
pointer dereference of `pCtx`, after which nothing more is done. -/
structure ParseState where
  qArgs : List Value
  parseErr : List QueryError
  paginationOptSet : Bool
  panicked : Bool
  deriving DecidableEq, Repr

/-- The end of the callback of `parseQueryOpts`: the value is interpolated when the token is
unquoted, and appended to the arguments otherwise. -/
def substituteValue (dbEngine : DbEngine) (opts : queryTokenOpts) (val : Value)
    (st : ParseState) : Str × ParseState :=
  if opts.Unquoted then (fmtV val, st)
  else
    let qArgs := st.qArgs ++ [val]
    (getNextPlaceholder dbEngine qArgs, { st with qArgs := qArgs })

/-- The callback given to `ReplaceAllStringFunc` in `parseQueryOpts`. A `vars` map is its
lookup function (`nil` and the empty map: no key is bound). -/
def parseQueryOptsReplace (caseTable : Char → Char) (dbEngine : DbEngine)
    (pCtx : Option paginationContext) (vars : Str → Option Value)
    (st : ParseState) (token : Str) : Str × ParseState :=
  if st.panicked then (token, st)
  else
    match parseToken caseTable token with
    | .error err => (token, { st with parseErr := st.parseErr ++ [.inToken token err] })
    | .ok opts =>
      if opts.Key = limitKey then
        match pCtx with
        | none => (token, { st with panicked := true })
        | some p =>
          substituteValue dbEngine opts (.int64 (wrapInt64 (p.Limit + 1)))
            { st with paginationOptSet := true }
      else if opts.Key = offsetKey then
        match pCtx with
        | none => (token, { st with panicked := true })
        | some p => substituteValue dbEngine opts (.int64 p.Offset) { st with paginationOptSet := true }
      else if opts.Key = cursorKey then
        match pCtx with
        | none => (token, { st with panicked := true })
        | some p => substituteValue dbEngine opts (.str p.Cursor) { st with paginationOptSet := true }
      else
        match vars opts.Key with
        | none => (token, { st with parseErr := st.parseErr ++ [.unknownToken token] })
        | some v => substituteValue dbEngine opts v st

/-- The four results of `parseQueryOpts`; `err = none` is the `nil` error. -/
structure ParseResult where
  query : Str
  args : List Value
  paginationUsed : Bool
  err : Option GoError
  deriving DecidableEq, Repr

/-- The method `parseQueryOpts`. -/
def parseQueryOpts (caseTable : Char → Char) (dbEngine : DbEngine)
    (pCtx : Option paginationContext) (query : Str) (vars : Str → Option Value) :
    GoResult ParseResult :=
  let r := regexpReplaceAllStringFunc queryOptRegex
    (parseQueryOptsReplace caseTable dbEngine pCtx vars) query 0
    { qArgs := [], parseErr := [], paginationOptSet := false, panicked := false }
  if r.2.panicked then .panics
  else if r.2.parseErr ≠ [] then
    .returns { query := [], args := [], paginationUsed := false, err := some (.joined r.2.parseErr) }
  else
    .returns { query := r.1, args := r.2.qArgs, paginationUsed := r.2.paginationOptSet, err := none }

/-- The function `clampPageSize`. -/
def clampPageSize (pageSize : Int) : Int :=
  if pageSize = 0 then defaultPageSize
  else if pageSize > maxPageSize then maxPageSize
  else if pageSize < minPageSize then minPageSize
  else pageSize

/-- Go `strconv.ParseInt(s, 10, 64)`; `none` stands for a non-nil error (bad syntax or a value
out of range). -/
def strconvParseInt (s : Str) : Option Int :=
  let neg := s.head? = some '-'
  let digits := if s.head? = some '+' ∨ s.head? = some '-' then s.tail else s
  if digits = [] ∨ ¬ digits.all (fun c => 48 ≤ c.toNat && c.toNat ≤ 57) then none
  else
    let un : Nat := digits.foldl (fun a c => 10 * a + (c.toNat - 48)) 0
    if ¬ neg ∧ un ≥ 2 ^ 63 then none
    else if neg ∧ un > 2 ^ 63 then none
    else some (if neg then -(un : Int) else (un : Int))

/-- The struct `pagination.Token` of the SDK. -/
structure PageToken where
  Size : Int
  Token : Str
  deriving DecidableEq, Repr

/-- The struct `Pagination` of `config.go`. -/
structure Pagination where
  Strategy : Str
  PrimaryKey : Str
  deriving DecidableEq, Repr

/-- The method `setupPagination`; it panics when `pOpts` is set and `pToken` is nil. -/
def setupPagination (pToken : Option PageToken) (pOpts : Option Pagination) :
    GoResult (Option paginationContext × Option GoError) :=
  match pOpts with
  | none => .returns (none, none)
  | some o =>
    match pToken with
    | none => .panics
    | some t =>
      let ret : paginationContext :=
        { Strategy := o.Strategy, PrimaryKey := o.PrimaryKey, Limit := clampPageSize t.Size,
          Offset := 0, Cursor := [] }
      if o.Strategy = offsetKey then
        if t.Token ≠ [] then
          match strconvParseInt t.Token with
          | none => .returns (none, some (.parseOffsetToken t.Token))
          | some offset => .returns (some { ret with Offset := offset }, none)
        else .returns (some { ret with Offset := 0 }, none)
      else if o.Strategy = cursorKey then
        .returns (some { ret with Cursor := t.Token }, none)
      else .returns (none, some (.unknownStrategy o.Strategy))

/-- The four results of `prepareQuery`. -/
structure PreparedQuery where
  query : Str
  args : List Value
  pCtx : Option paginationContext
  err : Option GoError
  deriving DecidableEq, Repr

/-- The method `prepareQuery`. -/
def prepareQuery (caseTable : Char → Char) (dbEngine : DbEngine) (pToken : Option PageToken)
    (query : Str) (pOpts : Option Pagination) (vars : Str → Option Value) :
    GoResult PreparedQuery :=
  match setupPagination pToken pOpts with
  | .panics => .panics
  | .returns (_, some err) => .returns { query := [], args := [], pCtx := none, err := some err }
  | .returns (pCtx, none) =>
    match parseQueryOpts caseTable dbEngine pCtx query vars with
    | .panics => .panics
    | .returns r =>
      match r.err with
      | some err => .returns { query := [], args := [], pCtx := none, err := some err }
      | none =>
        .returns { query := r.query, args := r.args,
                   pCtx := if r.paginationUsed then pCtx else none, err := none }

/-- The method `nextPageToken`. -/
def nextPageToken (pCtx : Option paginationContext) (lastRowID : Value) : Str × Option GoError :=
  match pCtx with
  | none => ([], none)
  | some p =>
    let pageSize := p.Limit
    if p.Strategy = offsetKey then
      (strconvItoa (wrapInt64 (p.Offset * pageSize + pageSize)), none)
    else if p.Strategy = cursorKey then
      match lastRowID with
      | .str l => (l, none)
      | .bytes l => (l, none)
      | .int64 l => (strconvItoa l, none)
      | .int l => (strconvItoa l, none)
      | .int32 l => (strconvItoa l, none)
      | .int16 l => (strconvItoa l, none)
      | .int8 l => (strconvItoa l, none)
      | .uint64 l => (strconvFormatUint l, none)
      | .uint l => (strconvFormatUint l, none)
      | .uint32 l => (strconvFormatUint l, none)
      | .uint16 l => (strconvFormatUint l, none)
      | .uint8 l => (strconvFormatUint l, none)
      | _ => ([], some .unexpectedPrimaryKeyType)
    else ([], some (.unexpectedStrategy p.Strategy))

/-- The variables captured by the callback of `prepareProvisioningQuery`. -/
structure ProvisioningParseState where
  qArgs : List Value
  parseErr : List QueryError
  deriving DecidableEq, Repr

/-- The callback given to `ReplaceAllStringFunc` in `prepareProvisioningQuery`. -/
def prepareProvisioningQueryReplace (caseTable : Char → Char) (dbEngine : DbEngine)
    (vars : Str → Option Value) (st : ProvisioningParseState) (token : Str) :
    Str × ProvisioningParseState :=
  match parseToken caseTable token with
  | .error err => (token, { st with parseErr := st.parseErr ++ [.inToken token err] })
  | .ok opts =>
    match vars opts.Key with
    | none => (token, { st with parseErr := st.parseErr ++ [.unknownToken token] })
    | some v =>
      if opts.Unquoted then (fmtV v, st)
      else
        let qArgs := st.qArgs ++ [v]
        (getNextPlaceholder dbEngine qArgs, { st with qArgs := qArgs })

/-- The method `prepareProvisioningQuery`: the rewritten query, its arguments and the error. -/
def prepareProvisioningQuery (caseTable : Char → Char) (dbEngine : DbEngine) (query : Str)
    (vars : Str → Option Value) : Str × List Value × Option GoError :=
  let r := regexpReplaceAllStringFunc queryOptRegex
    (prepareProvisioningQueryReplace caseTable dbEngine vars) query 0
    { qArgs := [], parseErr := [] }
  if r.2.parseErr ≠ [] then ([], [], some (.joined r.2.parseErr))
  else (r.1, r.2.qArgs, none)

/-- What the database answers to the calls of `runProvisioningQueries`: the error of
`BeginTx`, the outcome of the `n`-th call of `ExecContext` (an error, or the value that
`RowsAffected` reports), and the errors of `Commit` and `Rollback`. -/
structure ProvisioningDriver where
  beginTx : Option GoError
  exec : Nat → Str → List Value → Except GoError Int
  commit : Option GoError
  rollback : Option GoError

/-- A call made to the database by `runProvisioningQueries`; an `exec` carries its outcome. -/
inductive DbCall where
  | beginTx
  | exec (query : Str) (args : List Value) (outcome : Except GoError Int)
  | commit
  | rollback

/-- The loop over the queries in `runProvisioningQueries`: `n` counts the calls of
`ExecContext` made so far and `calls` is the log of the calls to the database. -/
def provisioningLoop (caseTable : Char → Char) (dbEngine : DbEngine)
    (driver : ProvisioningDriver) (vars : Str → Option Value) :
    List Str → Nat → List DbCall → List DbCall × Option GoError
  | [], _, calls => (calls, none)
  | q :: qs, n, calls =>
    let p := prepareProvisioningQuery caseTable dbEngine q vars
    match p.2.2 with
    | some err => (calls, some err)
    | none =>
      let outcome := driver.exec n p.1 p.2.1
      let calls := calls ++ [.exec p.1 p.2.1 outcome]
      match outcome with
      | .error err => (calls, some err)
      | .ok rowsAffected =>
        if rowsAffected > 1 then (calls, some .moreThanOneRow)
        else provisioningLoop caseTable dbEngine driver vars qs (n + 1) calls

/-- The method `runProvisioningQueries`: the calls made to the database, in order, and the
returned error. The deferred function rolls back whenever `committed` is still false. -/
def runProvisioningQueries (caseTable : Char → Char) (dbEngine : DbEngine)
    (driver : ProvisioningDriver) (queries : List Str) (vars : Str → Option Value)
    (useTx : Bool) : List DbCall × Option GoError :=
  if useTx then
    match driver.beginTx with
    | some err => ([.beginTx], some err)
    | none =>
      let r := provisioningLoop caseTable dbEngine driver vars queries 0 [.beginTx]
      match r.2 with
      | some err => (r.1 ++ [.rollback], some err)
      | none =>
        match driver.commit with
        | some err => (r.1 ++ [.commit, .rollback], some err)
        | none => (r.1 ++ [.commit], none)
  else provisioningLoop caseTable dbEngine driver vars queries 0 []

/-- The assignments `rowMap[colName] = values[i]` of one row, in column order. -/
abbrev RowMap := List (Str × Value)

/-- What `QueryContext` hands back on success: the column names (or the error of
`rows.Columns`), then for each `rows.Next()` that is true the outcome of `rows.Scan`, and the
value of `rows.Err()` once `rows.Next()` is false. -/
structure SqlRows where
  columns : Except GoError (List Str)
  rows : List (Except GoError (List Value))
  err : Option GoError

/-- The variables of the row loop of `runQuery`, with the state of the callback and the log of
the row maps it was called on. -/
structure RowLoopState (σ : Type) where
  rowCount : Int
  lastRowID : Value
  cbState : σ
  visited : List RowMap

/-- How the row loop of `runQuery` ends. -/
inductive RowLoopExit where
  /-- `rows.Next()` returned false -/
  | exhausted
  /-- a `break` -/
  | stopped
  /-- a `return "", err` -/
  | failed (err : GoError)
  deriving DecidableEq, Repr

/-- The inner loop over the columns: `lastRowID` and `foundPaginationKey` after it. -/
def findPaginationKey (pCtx : Option paginationContext) (rowMap : RowMap) (lastRowID : Value) :
    Value × Bool :=
  rowMap.foldl
    (fun acc cv =>
      match pCtx with
      | some p => if p.PrimaryKey = cv.1 then (cv.2, true) else acc
      | none => acc)
    (lastRowID, false)

/-- The loop `for rows.Next()` of `runQuery`. -/
def rowLoop {σ : Type} (pCtx : Option paginationContext) (columns : List Str)
    (rowCallback : σ → RowMap → Except GoError Bool × σ) :
    List (Except GoError (List Value)) → RowLoopState σ → RowLoopExit × RowLoopState σ
  | [], st => (.exhausted, st)
  | r :: rs, st =>
    let st := { st with rowCount := st.rowCount + 1 }
    if pCtx.any (fun p => decide (st.rowCount > p.Limit)) then (.stopped, st)
    else
      match r with
      | .error err => (.failed err, st)
      | .ok values =>
        let rowMap : RowMap := columns.zip values
        let found := findPaginationKey pCtx rowMap st.lastRowID
        let st := { st with lastRowID := found.1 }
        if pCtx.isSome ∧ found.2 = false then (.failed .primaryKeyNotFound, st)
        else
          let res := rowCallback st.cbState rowMap
          let st := { st with cbState := res.2, visited := st.visited ++ [rowMap] }
          match res.1 with
          | .error err => (.failed err, st)
          | .ok false => (.stopped, st)
          | .ok true => rowLoop pCtx columns rowCallback rs st

/-- The results of `runQuery`, with the final state of the callback and the row maps it was
called on, in order. -/
structure RunQueryResult (σ : Type) where
  nextPageToken : Str
  err : Option GoError
  cbState : σ
  visited : List RowMap

/-- The method `runQuery`. `db` is `s.db.QueryContext`. After a `break`, `rows.Err()` is nil. -/
def runQuery {σ : Type} (caseTable : Char → Char) (dbEngine : DbEngine)
    (db : Str → List Value → Except GoError SqlRows) (pToken : Option PageToken) (query : Str)
    (pOpts : Option Pagination) (vars : Str → Option Value)
    (rowCallback : σ → RowMap → Except GoError Bool × σ) (cbState : σ) :
    GoResult (RunQueryResult σ) :=
  match prepareQuery caseTable dbEngine pToken query pOpts vars with
  | .panics => .panics
  | .returns prep =>
    match prep.err with
    | some err => .returns { nextPageToken := [], err := some err, cbState := cbState, visited := [] }
    | none =>
      match db prep.query prep.args with
      | .error err =>
        .returns { nextPageToken := [], err := some err, cbState := cbState, visited := [] }
      | .ok rows =>
        match rows.columns with
        | .error err =>
          .returns { nextPageToken := [], err := some err, cbState := cbState, visited := [] }
        | .ok columns =>
          let res := rowLoop prep.pCtx columns rowCallback rows.rows
            { rowCount := 0, lastRowID := .nil, cbState := cbState, visited := [] }
          let st := res.2
          let rowsErr : Option GoError :=
            match res.1 with
            | .failed err => some err
            | .exhausted => rows.err
            | .stopped => none
          match rowsErr with
          | some err =>
            .returns { nextPageToken := [], err := some err, cbState := st.cbState,
                       visited := st.visited }
          | none =>
            if prep.pCtx.any (fun p => decide (st.rowCount > p.Limit)) then
              let npt := nextPageToken prep.pCtx st.lastRowID
              match npt.2 with
              | some err =>
                .returns { nextPageToken := [], err := some err, cbState := st.cbState,
                           visited := st.visited }
              | none =>
                .returns { nextPageToken := npt.1, err := none, cbState := st.cbState,
                           visited := st.visited }
            else
              .returns { nextPageToken := [], err := none, cbState := st.cbState,
                         visited := st.visited }

/-! ## Specification of the rewriting of a query template -/

/-- A piece of a template: a character outside every placeholder, or a placeholder. -/
inductive Piece where
  | lit (c : Char)
  | tok (token : Str)
  deriving DecidableEq, Repr

/-- The pieces of a text for a pattern, left to right: its matches, found as
`ReplaceAllStringFunc` finds them, and the characters between them. -/
def regexpPieces (re : Str → Option Nat) : Str → Nat → List Piece
  | [], _ => []
  | _ :: cs, k + 1 => regexpPieces re cs k
  | c :: cs, 0 =>
    match re (c :: cs) with
    | some (n + 1) => .tok ((c :: cs).take (n + 1)) :: regexpPieces re cs n
    | _ => .lit c :: regexpPieces re cs 0

/-- The placeholders of a query template, left to right. -/
def placeholders (query : Str) : List Str :=
  (regexpPieces queryOptRegex query 0).filterMap
    (fun p => match p with
      | .tok t => some t
      | .lit _ => none)

/-- What a piece of a template is replaced by: itself, the next placeholder of the dialect
with the value as an argument, or the text of the value (unquoted). -/
inductive Substitution where
  | lit (c : Char)
  | arg (v : Value)
  | text (v : Value)
  deriving DecidableEq, Repr

/-- The value bound to a key: `limit`, `offset` and `cursor` come from the pagination
context (none when there is no context), every other key from `vars`. -/
def tokenValue (pCtx : Option paginationContext) (vars : Str → Option Value) (key : Str) :
    Option Value :=
  if key = limitKey then pCtx.map (fun p => .int64 (wrapInt64 (p.Limit + 1)))
  else if key = offsetKey then pCtx.map (fun p => .int64 p.Offset)
  else if key = cursorKey then pCtx.map (fun p => .str p.Cursor)
  else vars key

/-- A piece resolves when it is a character, or a placeholder that parses and whose key is
bound. -/
def resolvePiece (caseTable : Char → Char) (pCtx : Option paginationContext)
    (vars : Str → Option Value) : Piece → Option Substitution
  | .lit c => some (.lit c)
  | .tok t =>
    match parseToken caseTable t with
    | .error _ => none
    | .ok opts =>
      (tokenValue pCtx vars opts.Key).map (fun v => if opts.Unquoted then .text v else .arg v)

/-- All the pieces resolved, or `none` when one of them does not resolve. -/
def resolvePieces (caseTable : Char → Char) (pCtx : Option paginationContext)
    (vars : Str → Option Value) : List Piece → Option (List Substitution)
  | [] => some []
  | p :: ps =>
    match resolvePiece caseTable pCtx vars p, resolvePieces caseTable pCtx vars ps with
    | some s, some ss => some (s :: ss)
    | _, _ => none

/-- The `i`-th placeholder of a dialect, counting from 1. -/
def dialectPlaceholder (d : DbEngine) (i : Nat) : Str :=
  match d with
  | .MySQL => ['?']
  | .SQLite => ['?']
  | .PostgreSQL => '$' :: Nat.toDigits 10 i
  | .MSSQL => '@' :: 'p' :: Nat.toDigits 10 i
  | .Oracle => ':' :: Nat.toDigits 10 i
  | .Unknown => ['?']

/-- The rewritten text: after `n` arguments, the next argument gets placeholder `n + 1`. -/
def emitSubstitutions (d : DbEngine) : List Substitution → Nat → Str
  | [], _ => []
  | .lit c :: ss, n => c :: emitSubstitutions d ss n
  | .arg _ :: ss, n => dialectPlaceholder d (n + 1) ++ emitSubstitutions d ss (n + 1)
  | .text v :: ss, n => fmtV v ++ emitSubstitutions d ss n

/-- The values substituted as arguments, left to right. -/
def substitutedArgs : List Substitution → List Value
  | [] => []
  | .arg v :: ss => v :: substitutedArgs ss
  | _ :: ss => substitutedArgs ss

/-- The number of placeholders emitted. -/
def emittedPlaceholders : List Substitution → Nat
  | [] => 0
  | .arg _ :: ss => emittedPlaceholders ss + 1
  | _ :: ss => emittedPlaceholders ss

/-- The key of a placeholder, compared without case, is `limit`, `offset` or `cursor`. -/
def isPaginationPlaceholder (caseTable : Char → Char) (token : Str) : Bool :=
  match queryOptRegexFindStringSubmatch token with
  | none => false
  | some (k, _) =>
    let key := stringsToLower caseTable k
    decide (key = limitKey ∨ key = offsetKey ∨ key = cursorKey)

/-- The callback of `ReplaceAllStringFunc` applied to the pieces of a text in turn. -/
def applyPieces {σ : Type} (repl : σ → Str → Str × σ) : List Piece → σ → Str × σ
  | [], st => ([], st)
  | .lit c :: ps, st =>
    let rest := applyPieces repl ps st
    (c :: rest.1, rest.2)
  | .tok t :: ps, st =>
    let r := repl st t
    let rest := applyPieces repl ps r.2
    (r.1 ++ rest.1, rest.2)

/-- The call is an `ExecContext`. -/
def DbCall.isExec : DbCall → Bool
  | .exec _ _ _ => true
  | _ => false

/-- The call is a `Commit`. -/
def DbCall.isCommit : DbCall → Bool
  | .commit => true
  | _ => false

/-- The call is a `Rollback`. -/
def DbCall.isRollback : DbCall → Bool
  | .rollback => true
  | _ => false

/-- The call is a query that reported `rows_affected > 1`. -/
def DbCall.reportsMoreThanOne : DbCall → Bool
  | .exec _ _ (.ok n) => decide (n > 1)
  | _ => false

/-- The call is a query that executed without error and reported `rows_affected <= 1`. -/
def DbCall.succeeded : DbCall → Bool
  | .exec _ _ (.ok n) => decide (n ≤ 1)
  | _ => false

/-- A database on which every query affects one row and `Commit` fails. -/
def commitFailingDriver : ProvisioningDriver :=
  { beginTx := none, exec := fun _ _ _ => .ok 1,
    commit := some (.driver "commit failed".toList), rollback := none }

/-- A database on which the first query affects two rows. -/
def twoRowsDriver : ProvisioningDriver :=
  { beginTx := none, exec := fun n _ _ => if n = 0 then .ok 2 else .ok 1,
    commit := none, rollback := none }

/-- The primary key of a row rendered as text, for the types that `nextPageToken` accepts. -/
def Value.keyText : Value → Option Str
  | .str l => some l
  | .bytes l => some l
  | .int64 l => some (strconvItoa l)
  | .int l => some (strconvItoa l)
  | .int32 l => some (strconvItoa l)
  | .int16 l => some (strconvItoa l)
  | .int8 l => some (strconvItoa l)
  | .uint64 l => some (strconvFormatUint l)
  | .uint l => some (strconvFormatUint l)
  | .uint32 l => some (strconvFormatUint l)
  | .uint16 l => some (strconvFormatUint l)
  | .uint8 l => some (strconvFormatUint l)
  | _ => none

/-- The value of `lastRowID` after the given rows were delivered. -/
def lastKey (p : paginationContext) (columns : List Str) (vals : List (List Value))
    (lastRowID : Value) : Value :=
  vals.foldl (fun acc v => (findPaginationKey (some p) (columns.zip v) acc).1) lastRowID

/-- A database that answers every query with two rows of one column `id` whose values are
floating point numbers. -/
def floatKeyDb : Str → List Value → Except GoError SqlRows :=
  fun _ _ => .ok
    { columns := .ok ["id".toList],
      rows := [.ok [.other "float64".toList "1.5".toList],
               .ok [.other "float64".toList "2.5".toList]],
      err := none }

/-- A database that answers every query with two rows of one column `id` whose values are
the integers 7 and 8. -/
def intKeyDb : Str → List Value → Except GoError SqlRows :=
  fun _ _ => .ok
    { columns := .ok ["id".toList], rows := [.ok [.int64 7], .ok [.int64 8]], err := none }

/-! ## `pkg/bcel/functions/php_serialize.go`, `php_deserialize.go` -/

/-- A key or value of a Go `map[interface{}]interface{}` handed to or returned by the PHP
codec. -/
inductive PhpValue where
  | str (s : Str)
  | bool (b : Bool)
  | int (i : Int)
  deriving DecidableEq, Repr

/-- A Go `map[interface{}]interface{}`: its entries, with distinct keys, in the order in which
the map happens to be iterated. -/
abbrev PhpMap := List (PhpValue × PhpValue)

/-- The assignment `data[k] = v`. -/
def PhpMap.set (m : PhpMap) (k v : PhpValue) : PhpMap :=
  if m.any (fun e => decide (e.1 = k)) then m.map (fun e => if e.1 = k then (k, v) else e)
  else m ++ [(k, v)]

/-- The two functions used of the external library `github.com/elliotchance/phpserialize`
(not part of the repository): `Marshal(data, nil)` and `Unmarshal(bytes, &results)`, with an
error as its message. -/
structure PhpSerialize where
  Marshal : PhpMap → Except Str Str
  Unmarshal : Str → Except Str PhpMap

/-- The map `data` built by `PHPSerializeStringArray`: each string is a key with value true. -/
def stringKeyMap (input : List Str) : PhpMap :=
  input.foldl (fun data str => data.set (.str str) (.bool true)) []

/-- The function `PHPSerializeStringArray`. -/
def PHPSerializeStringArray (lib : PhpSerialize) (input : List Str) : Except Str Str :=
  let data := stringKeyMap input
  match lib.Marshal data with
  | .error err => .error err
  | .ok serialized => .ok serialized

/-- Go `sort.Strings`: ascending in the order of Go strings, which compares bytes and hence,
on UTF-8 text, code points. -/
def sortStrings (l : List Str) : List Str :=
  l.insertionSort (fun a b => a ≤ b)

/-- The type assertion `k.(string)`. -/
def PhpValue.asString : PhpValue → Option Str
  | .str kStr => some kStr
  | _ => none

/-- The function `PHPDeserializeStringArray`. -/
def PHPDeserializeStringArray (lib : PhpSerialize) (s : Str) : Except Str (List Str) :=
  match lib.Unmarshal s with
  | .error err => .error err
  | .ok results =>
    let ret := results.filterMap (fun e => e.1.asString)
    .ok (sortStrings ret)

/-- Modelled from the spec: the text of one key or value in the external serialization format,
as in the examples `a:1:\x7bs:13:"administrator";b:1;\x7d` and `a:0:\x7b\x7d`; the length of a
string counts its UTF-8 bytes. -/
def phpEncodeValue : PhpValue → Str
  | .str s =>
    "s:".toList ++ Nat.toDigits 10 (s.map Char.utf8Size).sum ++ ":\"".toList ++ s ++ "\";".toList
  | .bool b => if b then "b:1;".toList else "b:0;".toList
  | .int i => "i:".toList ++ strconvItoa i ++ ";".toList

/-- Modelled from the spec: the external encoder on a map of strings, booleans and integers. -/
def phpMarshal (m : PhpMap) : Except Str Str :=
  .ok ("a:".toList ++ Nat.toDigits 10 m.length ++ ":\x7b".toList
    ++ (m.map (fun e => phpEncodeValue e.1 ++ phpEncodeValue e.2)).flatten ++ "\x7d".toList)

/-- A decimal number at the head of the input, and the rest of the input. -/
def phpReadNat (s : Str) : Option (Nat × Str) :=
  let digits := s.takeWhile (fun c => 48 ≤ c.toNat && c.toNat ≤ 57)
  if digits = [] then none
  else some (digits.foldl (fun a c => 10 * a + (c.toNat - 48)) 0, s.drop digits.length)

/-- The characters that make up the next `n` UTF-8 bytes of the input, and the rest. -/
def phpReadBytes : Str → Nat → Option (Str × Str)
  | s, 0 => some ([], s)
  | [], _ + 1 => none
  | c :: cs, n + 1 =>
    if c.utf8Size ≤ n + 1 then
      match phpReadBytes cs (n + 1 - c.utf8Size) with
      | some (taken, rest) => some (c :: taken, rest)
      | none => none
    else none

/-- Modelled from the spec: one key or value read from the external format. -/
def phpDecodeValue : Str → Option (PhpValue × Str)
  | 's' :: ':' :: rest =>
    match phpReadNat rest with
    | some (n, ':' :: '"' :: rest2) =>
      match phpReadBytes rest2 n with
      | some (text, '"' :: ';' :: rest3) => some (.str text, rest3)
      | _ => none
    | _ => none
  | 'b' :: ':' :: '1' :: ';' :: rest => some (.bool true, rest)
  | 'b' :: ':' :: '0' :: ';' :: rest => some (.bool false, rest)
  | 'i' :: ':' :: '-' :: rest =>
    match phpReadNat rest with
    | some (n, ';' :: rest2) => some (.int (-(n : Int)), rest2)
    | _ => none
  | 'i' :: ':' :: rest =>
    match phpReadNat rest with
    | some (n, ';' :: rest2) => some (.int (n : Int), rest2)
    | _ => none
  | _ => none

/-- The next `n` entries (a key and a value each) read from the external format. -/
def phpDecodeEntries : Nat → Str → Option (PhpMap × Str)
  | 0, s => some ([], s)
  | n + 1, s =>
    match phpDecodeValue s with
    | none => none
    | some (k, rest) =>
      match phpDecodeValue rest with
      | none => none
      | some (v, rest2) =>
        match phpDecodeEntries n rest2 with
        | none => none
        | some (m, rest3) => some ((k, v) :: m, rest3)

/-- Modelled from the spec: the external decoder of an associative array. -/
def phpUnmarshal (s : Str) : Except Str PhpMap :=
  match s with
  | 'a' :: ':' :: rest =>
    match phpReadNat rest with
    | some (n, ':' :: '\x7b' :: rest2) =>
      match phpDecodeEntries n rest2 with
      | some (m, ['\x7d']) => .ok m
      | _ => .error "invalid serialized array".toList
    | _ => .error "invalid serialized array".toList
  | _ => .error "invalid serialized array".toList

/-- Modelled from the spec: the external library, for maps of strings, booleans and
integers. -/
def phpSerializeLibrary : PhpSerialize :=
  { Marshal := phpMarshal, Unmarshal := phpUnmarshal }

/-! ## `pkg/bcel/bcel.go` -/

/-- The errors of `Evaluate` and `EvaluateBool`. -/
inductive EvalError where
  /-- an error of the CEL library (compilation, program construction or evaluation) -/
  | cel (msg : Str)
  /-- `failed to parse bool from string %s: %w` -/
  | parseBool (s : Str)
  /-- `expected bool, got %T` -/
  | expectedBool (goType : Str)
  deriving DecidableEq, Repr

/-- The name of the dynamic type of a value (`%T`). -/
def Value.goType : Value → Str
  | .str _ => "string".toList
  | .bytes _ => "[]uint8".toList
  | .int64 _ => "int64".toList
  | .int _ => "int".toList
  | .int32 _ => "int32".toList
  | .int16 _ => "int16".toList
  | .int8 _ => "int8".toList
  | .uint64 _ => "uint64".toList
  | .uint _ => "uint".toList
  | .uint32 _ => "uint32".toList
  | .uint16 _ => "uint16".toList
  | .uint8 _ => "uint8".toList
  | .bool _ => "bool".toList
  | .nil => "<nil>".toList
  | .other goType _ => goType

/-- Go `strconv.ParseBool`; `none` stands for its syntax error. -/
def strconvParseBool (s : Str) : Option Bool :=
  if s = "1".toList ∨ s = "t".toList ∨ s = "T".toList ∨ s = "TRUE".toList ∨ s = "true".toList
      ∨ s = "True".toList then some true
  else if s = "0".toList ∨ s = "f".toList ∨ s = "F".toList ∨ s = "FALSE".toList
      ∨ s = "false".toList ∨ s = "False".toList then some false
  else none

/-- The method `Evaluate`: the expression is preprocessed and handed to the CEL library,
which is the parameter `celEval` (compilation and evaluation on the given inputs). -/
def Evaluate (celEval : Str → Except EvalError Value) (expr : Str) : Except EvalError Value :=
  celEval (preprocessExpressions expr)

/-- The method `EvaluateBool`. In the case that lists the integer types, `ret` keeps the
interface type of `out`, so `ret != 0` compares `out` with the interface value `int(0)`:
two interface values are equal when their dynamic types and their values are equal. -/
def EvaluateBool (celEval : Str → Except EvalError Value) (expr : Str) :
    Bool × Option EvalError :=
  match Evaluate celEval expr with
  | .error err => (false, some err)
  | .ok out =>
    match out with
    | .bool ret => (ret, none)
    | .int64 _ => (decide (out ≠ Value.int 0), none)
    | .int32 _ => (decide (out ≠ Value.int 0), none)
    | .int _ => (decide (out ≠ Value.int 0), none)
    | .uint64 _ => (decide (out ≠ Value.int 0), none)
    | .uint32 _ => (decide (out ≠ Value.int 0), none)
    | .uint _ => (decide (out ≠ Value.int 0), none)
    | .str ret =>
      match strconvParseBool ret with
      | none => (false, some (.parseBool ret))
      | some parsed => (parsed, none)
    | _ => (false, some (.expectedBool out.goType))

/-- The failure the callback of `parseQueryOpts` joins to `parseErr` for a placeholder, if
any: the error of `parseToken` wrapped as `in token`, or `unknown token` for a key that is
not `limit`, `offset` or `cursor` and is not in `vars`. -/
def placeholderFailure (caseTable : Char → Char) (vars : Str → Option Value) (token : Str) :
    Option QueryError :=
  match parseToken caseTable token with
  | .error err => some (.inToken token err)
  | .ok opts =>
    if opts.Key = limitKey ∨ opts.Key = offsetKey ∨ opts.Key = cursorKey then none
    else
      match vars opts.Key with
      | none => some (.unknownToken token)
      | some _ => none

/-- The failures of the placeholders of a query, left to right. -/
def placeholderFailures (caseTable : Char → Char) (vars : Str → Option Value) (query : Str) :
    List QueryError :=
  (placeholders query).filterMap (placeholderFailure caseTable vars)

/-! ### Entitlement ids, entitlement mappings and user status (`helpers.go`,
`entitlements.go`, `provisioning.go`, `resources.go`) -/

/-- Go `strings.SplitN(s, sep, n)` for a one-character separator and `n ≥ 0`: at most `n`
pieces, the last one being the unsplit remainder. -/
def stringsSplitN (s : Str) (sep : Char) : Nat → List Str
  | 0 => []
  | 1 => [s]
  | n + 2 =>
    match s.span (fun c => c ≠ sep) with
    | (_, []) => [s]
    | (a, _ :: rest) => a :: stringsSplitN rest sep (n + 1)

/-- The fields of `v2.Resource` that the connector reads: `Id.ResourceType`, `Id.Resource`
and `DisplayName`. -/
structure V2Resource where
  ResourceType : Str
  Resource : Str
  DisplayName : Str
  deriving DecidableEq, Repr

/-- The traits of `v2.ResourceType`. -/
inductive ResourceTypeTrait where
  | TRAIT_USER | TRAIT_GROUP | TRAIT_ROLE | TRAIT_APP
  deriving DecidableEq, Repr

/-- The fields of `v2.ResourceType` that `GetResourceTypes` fills; the annotation
`SkipEntitlementsAndGrants` is carried as a flag. -/
structure V2ResourceType where
  Id : Str
  DisplayName : Str
  Description : Str
  Traits : List ResourceTypeTrait
  SkipEntitlementsAndGrants : Bool
  deriving DecidableEq, Repr

inductive EntitlementPurpose where
  | PURPOSE_VALUE_UNSPECIFIED | PURPOSE_VALUE_ASSIGNMENT | PURPOSE_VALUE_PERMISSION
  deriving DecidableEq, Repr

/-- The message `v2.Entitlement`; the annotation `EntitlementImmutable` is carried as the flag
`Immutable`. The zero value of the message is `V2Entitlement.zero`. -/
structure V2Entitlement where
  Id : Str
  Resource : Option V2Resource
  DisplayName : Str
  Description : Str
  GrantableTo : List V2ResourceType
  Immutable : Bool
  Purpose : EntitlementPurpose
  Slug : Str
  deriving DecidableEq, Repr

/-- The Go value `&v2.Entitlement{}`. -/
def V2Entitlement.zero : V2Entitlement :=
  { Id := [], Resource := none, DisplayName := [], Description := [], GrantableTo := [],
    Immutable := false, Purpose := .PURPOSE_VALUE_UNSPECIFIED, Slug := [] }

/-- The function `SplitEntitlementID`. The argument `none` is the nil pointer, whose `GetId()`
is the empty string; `none` as a result stands for the error `invalid entitlement ID`. -/
def SplitEntitlementID (entitlement : Option V2Entitlement) : Option (Str × Str × Str) :=
  match stringsSplitN (match entitlement with | none => [] | some e => e.Id) ':' 3 with
  | [resourceType, resourceID, entitlementID] => some (resourceType, resourceID, entitlementID)
  | _ => none

/-- Modelled from the spec: the entitlement id format is
`"<resourceType>:<resourceId>:<localId>"`; this is the function `NewEntitlementID` of the SDK,
which is not part of the repository. -/
def NewEntitlementID (resource : V2Resource) (permission : Str) : Str :=
  resource.ResourceType ++ [':'] ++ resource.Resource ++ [':'] ++ permission

/-- The configuration type `EntitlementProvisioningQueries`. -/
structure EntitlementProvisioningQueries where
  NoTransaction : Bool
  Queries : List Str
  deriving DecidableEq, Repr

/-- The configuration type `EntitlementProvisioning`; a nil pointer is `none`, the map `Vars`
is the list of its entries. -/
structure EntitlementProvisioning where
  Grant : Option EntitlementProvisioningQueries
  Revoke : Option EntitlementProvisioningQueries
  Vars : List (Str × Str)
  deriving DecidableEq, Repr

/-- The configuration type `EntitlementMapping`. -/
structure EntitlementMapping where
  Id : Str
  DisplayName : Str
  Description : Str
  GrantableTo : List Str
  Purpose : Str
  Slug : Str
  Immutable : Bool
  SkipIf : Str
  Provisioning : Option EntitlementProvisioning
  deriving DecidableEq, Repr

/-- The configuration type `EntitlementsQuery`. -/
structure EntitlementsQuery where
  Vars : List (Str × Str)
  Query : Str
  Pagination : Option Pagination
  Map : List EntitlementMapping
  deriving DecidableEq, Repr

/-- The static loop of `getProvisioningConfig`: the provisioning of the first entry whose id
is `entitlementID` and whose provisioning is set. -/
def getProvisioningConfigStatic (entitlementID : Str) :
    List EntitlementMapping → Option EntitlementProvisioning
  | [] => none
  | e :: rest =>
    if e.Id ≠ entitlementID then getProvisioningConfigStatic entitlementID rest
    else
      match e.Provisioning with
      | some p => some p
      | none => getProvisioningConfigStatic entitlementID rest

/-- The dynamic loop of `getProvisioningConfig`: the provisioning of the first mapping whose
provisioning is set. The loop does not read `entitlementID`. -/
def getProvisioningConfigDynamic : List EntitlementMapping → Option EntitlementProvisioning
  | [] => none
  | e :: rest =>
    match e.Provisioning with
    | some p => some p
    | none => getProvisioningConfigDynamic rest

/-- The method `getProvisioningConfig` on a syncer whose configuration has the given
`StaticEntitlements` and `Entitlements`. -/
def getProvisioningConfig (staticEntitlements : List EntitlementMapping)
    (entitlements : Option EntitlementsQuery) (entitlementID : Str) :
    Option EntitlementProvisioning × Bool :=
  match getProvisioningConfigStatic entitlementID staticEntitlements with
  | some p => (some p, true)
  | none =>
    match entitlements with
    | none => (none, false)
    | some q =>
      match getProvisioningConfigDynamic q.Map with
      | some p => (some p, true)
      | none => (none, false)

/-- The method `EvaluateString`. The integer cases print with `%d`, which for these types is
the decimal text that `%v` gives; `fmtS` is Go `fmt.Sprintf("%s", v)` on the other types. -/
def EvaluateString (celEval : Str → Except EvalError Value) (fmtS : Value → Str) (expr : Str) :
    Str × Option EvalError :=
  match Evaluate celEval expr with
  | .error err => ([], some err)
  | .ok out =>
    match out with
    | .str ret => (ret, none)
    | .int64 _ => (fmtV out, none)
    | .int32 _ => (fmtV out, none)
    | .int _ => (fmtV out, none)
    | .uint64 _ => (fmtV out, none)
    | .uint32 _ => (fmtV out, none)
    | .uint _ => (fmtV out, none)
    | _ => (fmtS out, none)

/-- The errors of `staticEntitlements` and `mapEntitlement`. -/
inductive EntitlementError where
  /-- `static entitlements mapping display_name is required` -/
  | staticDisplayNameRequired
  /-- `entitlements mapping id is required` -/
  | idRequired
  /-- `entitlements mapping display_name is required` -/
  | displayNameRequired
  /-- `entitlements mapping slug is required` -/
  | slugRequired
  /-- an error of the expression environment -/
  | eval (err : EvalError)
  /-- an error of `GetResourceTypes` -/
  | resourceTypes (msg : Str)
  deriving DecidableEq, Repr

/-- The `switch` on the purpose in `staticEntitlements` and `mapEntitlement`. -/
def entitlementPurpose (purpose : Str) : EntitlementPurpose :=
  if purpose = "assignment".toList then .PURPOSE_VALUE_ASSIGNMENT
  else if purpose = "permission".toList then .PURPOSE_VALUE_PERMISSION
  else .PURPOSE_VALUE_UNSPECIFIED

/-- The body of the loop of `staticEntitlements` for the entry `e`: the entitlement that is
appended, or the error that ends the call. `celEval` evaluates on the inputs
`SyncInputsWithResource(nil, resource)`. -/
def staticEntitlement (celEval : Str → Except EvalError Value) (fmtS : Value → Str)
    (resource : V2Resource) (e : EntitlementMapping) : Except EntitlementError V2Entitlement :=
  let entitlement : V2Entitlement :=
    { V2Entitlement.zero with Id := NewEntitlementID resource e.Id, Resource := some resource }
  let entitlement := if e.Slug = [] then { entitlement with Slug := e.Id } else entitlement
  if e.DisplayName = [] then .error .staticDisplayNameRequired
  else
    match EvaluateString celEval fmtS e.DisplayName with
    | (_, some err) => .error (.eval err)
    | (v, none) =>
      let entitlement := { entitlement with DisplayName := v }
      let described : Except EntitlementError V2Entitlement :=
        if e.Description ≠ [] then
          match EvaluateString celEval fmtS e.Description with
          | (_, some err) => .error (.eval err)
          | (v, none) => .ok { entitlement with Description := v }
        else .ok entitlement
      match described with
      | .error err => .error err
      | .ok entitlement =>
        .ok { entitlement with Purpose := entitlementPurpose e.Purpose,
                               Immutable := e.Immutable }

/-- The loop of `staticEntitlements` over the entries, `ret` being the slice built so far. -/
def staticEntitlementsLoop (celEval : Str → Except EvalError Value) (fmtS : Value → Str)
    (resource : V2Resource) : List EntitlementMapping → List V2Entitlement →
    Except EntitlementError (List V2Entitlement)
  | [], ret => .ok ret
  | e :: rest, ret =>
    match staticEntitlement celEval fmtS resource e with
    | .error err => .error err
    | .ok entitlement => staticEntitlementsLoop celEval fmtS resource rest (ret ++ [entitlement])

/-- The method `staticEntitlements`: the emitted entitlements (the next-page token is always
empty), or the error. -/
def staticEntitlements (celEval : Str → Except EvalError Value) (fmtS : Value → Str)
    (resource : V2Resource) (entries : List EntitlementMapping) :
    Except EntitlementError (List V2Entitlement) :=
  staticEntitlementsLoop celEval fmtS resource entries []

/-- The two nested loops of `mapEntitlement` that fill `GrantableTo`: for each configured id,
in order, every known resource type with that id is appended. -/
def grantableToLoop (resourceTypes : List V2ResourceType) :
    List Str → List V2ResourceType → List V2ResourceType
  | [], ret => ret
  | rt :: rest, ret =>
    grantableToLoop resourceTypes rest
      (resourceTypes.foldl (fun acc r => if r.Id = rt then acc ++ [r] else acc) ret)

/-- The method `mapEntitlement`; `.ok none` is the result `(nil, false, nil)` of a skipped
row. `celEval` evaluates on the inputs `SyncInputsWithResource(rowMap, resource)`, and
`resourceTypes` is the result of `s.fullConfig.GetResourceTypes(ctx)`, which lists the
resource types of the configuration map in the order of a Go map iteration. The caller
`dynamicEntitlements` sets `Resource` afterwards. -/
def mapEntitlement (celEval : Str → Except EvalError Value) (fmtS : Value → Str)
    (resourceTypes : Except Str (List V2ResourceType))
    (resource : V2Resource) (mappings : EntitlementMapping) :
    Except EntitlementError (Option V2Entitlement) :=
  let ret := V2Entitlement.zero
  let skipped : Except EntitlementError Bool :=
    if mappings.SkipIf ≠ [] then
      match EvaluateBool celEval mappings.SkipIf with
      | (_, some err) => .error (.eval err)
      | (skip, none) => .ok skip
    else .ok false
  match skipped with
  | .error err => .error err
  | .ok true => .ok none
  | .ok false =>
    if mappings.Id = [] then .error .idRequired
    else
      match EvaluateString celEval fmtS mappings.Id with
      | (_, some err) => .error (.eval err)
      | (v, none) =>
        let ret := { ret with Id := NewEntitlementID resource v }
        if mappings.DisplayName = [] then .error .displayNameRequired
        else
          match EvaluateString celEval fmtS mappings.DisplayName with
          | (_, some err) => .error (.eval err)
          | (v, none) =>
            let ret := { ret with DisplayName := v }
            let described : Except EntitlementError V2Entitlement :=
              if mappings.Description ≠ [] then
                match EvaluateString celEval fmtS mappings.Description with
                | (_, some err) => .error (.eval err)
                | (v, none) => .ok { ret with Description := v }
              else .ok ret
            match described with
            | .error err => .error err
            | .ok ret =>
              match resourceTypes with
              | .error msg => .error (.resourceTypes msg)
              | .ok resourceTypes =>
                let ret := { ret with
                  GrantableTo := grantableToLoop resourceTypes mappings.GrantableTo ret.GrantableTo }
                if mappings.Slug = [] then .error .slugRequired
                else
                  match EvaluateString celEval fmtS mappings.Slug with
                  | (_, some err) => .error (.eval err)
                  | (v, none) =>
                    let ret := { ret with Slug := v }
                    let purpose : Except EntitlementError Str :=
                      if mappings.Purpose ≠ [] then
                        match EvaluateString celEval fmtS mappings.Purpose with
                        | (_, some err) => .error (.eval err)
                        | (p, none) => .ok p
                      else .ok []
                    match purpose with
                    | .error err => .error err
                    | .ok purpose =>
                      .ok (some { ret with Purpose := entitlementPurpose purpose,
                                           Immutable := mappings.Immutable })

/-- The enumeration `v2.UserTrait_Status_Status`. -/
inductive UserTraitStatus where
  | STATUS_UNSPECIFIED | STATUS_ENABLED | STATUS_DISABLED | STATUS_DELETED
  deriving DecidableEq, Repr

/-- The user trait options that the status block of `mapUserTrait` appends. -/
inductive UserTraitOption where
  | WithStatus (status : UserTraitStatus)
  | WithDetailedStatus (status : UserTraitStatus) (details : Str)
  deriving DecidableEq, Repr

/-- The `switch strings.ToLower(statusValue)` of `mapUserTrait`: the status, and whether the
warning `unexpected status value in mapping` is logged. -/
def userTraitStatus (caseTable : Char → Char) (statusValue : Str) : UserTraitStatus × Bool :=
  let lowered := stringsToLower caseTable statusValue
  if lowered = "active".toList then (.STATUS_ENABLED, false)
  else if lowered = "enabled".toList then (.STATUS_ENABLED, false)
  else if lowered = "disabled".toList then (.STATUS_DISABLED, false)
  else if lowered = "inactive".toList then (.STATUS_DISABLED, false)
  else if lowered = "suspended".toList then (.STATUS_DISABLED, false)
  else if lowered = "locked".toList then (.STATUS_DISABLED, false)
  else if lowered = "deleted".toList then (.STATUS_DELETED, false)
  else (.STATUS_UNSPECIFIED, true)

/-- The status block of `mapUserTrait` (the statements under `// Status`) for the mappings
`Status` and `StatusDetails`: the options with the one it appends and whether it logged the
warning, or the error with which `mapUserTrait` returns. -/
def mapUserTraitStatus (caseTable : Char → Char) (celEval : Str → Except EvalError Value)
    (fmtS : Value → Str) (status statusDetails : Str) (opts : List UserTraitOption) :
    Except EvalError (List UserTraitOption × Bool) :=
  if status ≠ [] then
    match EvaluateString celEval fmtS status with
    | (_, some err) => .error err
    | (statusValue, none) =>
      let (st, warned) := userTraitStatus caseTable statusValue
      if statusDetails ≠ [] then
        match EvaluateString celEval fmtS statusDetails with
        | (_, some err) => .error err
        | (v, none) => .ok (opts ++ [.WithDetailedStatus st v], warned)
      else .ok (opts ++ [.WithStatus st], warned)
  else .ok (opts, false)

/-! ### Query inputs of account provisioning (`provisioning.go`) -/

/-- A Go map with string keys, as the list of its entries (each key once). -/
abbrev GoMap (β : Type) := List (Str × β)

/-- The map index expression `v, exists := m[k]`. -/
def GoMap.index {β : Type} (m : GoMap β) (k : Str) : Option β :=
  (m.find? (fun kv => decide (kv.1 = k))).map (fun kv => kv.2)

/-- The assignment `m[k] = v`. -/
def GoMap.assign {β : Type} (m : GoMap β) (k : Str) (v : β) : GoMap β :=
  (k, v) :: m.filter (fun kv => decide (kv.1 ≠ k))

/-- A `float64` number of the profile, carried by what `prepareQueryInputs` reads from it:
whether it differs from `0`, and the result of the conversion `int(numValue)`. -/
structure NumberValue where
  nonZero : Bool
  toInt : Int
  deriving DecidableEq, Repr

/-- A `*structpb.Value` of the profile. `null` is the null value (and the nil pointer); the
elements of a list are carried by their `GetStringValue()`, which is empty for an element that
is not a string; a struct is carried by its `AsMap()`. -/
inductive ProfileValue where
  | null
  | number (n : NumberValue)
  | string (s : Str)
  | bool (b : Bool)
  | struct (asMap : GoMap Value)
  | list (stringValues : List Str)
  deriving DecidableEq, Repr

/-- The getter `GetStringValue`: the empty string for a value of another kind. -/
def ProfileValue.GetStringValue : ProfileValue → Str
  | .string s => s
  | _ => []

/-- The getter `GetListValue`: nil for a value of another kind. -/
def ProfileValue.GetListValue : ProfileValue → Option (List Str)
  | .list l => some l
  | _ => none

/-- The getter `GetBoolValue`: false for a value of another kind. -/
def ProfileValue.GetBoolValue : ProfileValue → Bool
  | .bool b => b
  | _ => false

/-- The getter `GetNumberValue`: zero for a value of another kind. -/
def ProfileValue.GetNumberValue : ProfileValue → NumberValue
  | .number n => n
  | _ => { nonZero := false, toInt := 0 }

/-- The getter `GetStructValue`: nil for a value of another kind. -/
def ProfileValue.GetStructValue : ProfileValue → Option (GoMap Value)
  | .struct m => some m
  | _ => none

/-- The dynamic values that the schema loop of `prepareQueryInputs` stores: `string`,
`[]string`, `bool`, `int` and `map[string]any`. -/
inductive InputValue where
  | str (s : Str)
  | strList (l : List Str)
  | bool (b : Bool)
  | int (i : Int)
  | map (m : GoMap Value)
  deriving DecidableEq, Repr

/-- A value of the map `queryInputs`: a value of a field or the password, or one of the maps
`schemaVars` and `credentials`. -/
inductive QueryInput where
  | value (v : InputValue)
  | submap (m : GoMap InputValue)
  deriving DecidableEq, Repr

/-- The configuration type `AccountProvisioningField`; `FieldType` is its field `Type`. -/
structure AccountProvisioningField where
  Name : Str
  Description : Str
  FieldType : Str
  Placeholder : Str
  Required : Bool
  deriving DecidableEq, Repr

/-- The `switch field.FieldType` of `prepareQueryInputs`: the value of `parsedValue` after it, `none`
being the nil interface. In the case `string_list` the slice `strList` is assigned whenever
the value is a list, and in the case `boolean` the result of `GetBoolValue()` is assigned
always: an interface that holds an empty slice or `false` is not nil. -/
def parseProfileValue (fieldType : Str) (value : ProfileValue) : Option InputValue :=
  if fieldType = "string".toList then
    if value.GetStringValue ≠ [] then some (.str value.GetStringValue) else none
  else if fieldType = "string_list".toList then
    match value.GetListValue with
    | some listValue => some (.strList (listValue.filter (fun strValue => decide (strValue ≠ []))))
    | none => none
  else if fieldType = "boolean".toList then some (.bool value.GetBoolValue)
  else if fieldType = "int".toList then
    if value.GetNumberValue.nonZero then some (.int value.GetNumberValue.toInt) else none
  else if fieldType = "map".toList then
    match value.GetStructValue with
    | some structValue => some (.map structValue)
    | none => none
  else none

/-- The loop of `prepareQueryInputs` over the schema, on the maps `queryInputs` and
`schemaVars`; `profile` is the map `accountInfo.Profile.Fields`. -/
def schemaLoop (profile : Str → Option ProfileValue) :
    List AccountProvisioningField → GoMap QueryInput × GoMap InputValue →
    GoMap QueryInput × GoMap InputValue
  | [], st => st
  | field :: rest, (queryInputs, schemaVars) =>
    match profile field.Name with
    | none => schemaLoop profile rest (queryInputs, schemaVars)
    | some value =>
      match parseProfileValue field.FieldType value with
      | none => schemaLoop profile rest (queryInputs, schemaVars)
      | some parsedValue =>
        schemaLoop profile rest
          (queryInputs.assign field.Name (.value parsedValue),
           schemaVars.assign field.Name parsedValue)

/-- The message `v2.CredentialOptions_RandomPassword`. -/
structure RandomPasswordOptions where
  Length : Int
  deriving DecidableEq, Repr

/-- The field `Options` of `v2.CredentialOptions`: no password, a random password (whose
message may be nil), or anything else (another option type, or no option). -/
inductive CredentialOptions where
  | NoPassword
  | RandomPassword (randomPassword : Option RandomPasswordOptions)
  | other
  deriving DecidableEq, Repr

inductive ProvisioningError where
  /-- `unsupported credential option: only random password is supported` -/
  | onlyRandomPassword
  /-- an error of `crypto.GenerateRandomPassword` -/
  | crypto (msg : Str)
  /-- `failed to generate password: %w` -/
  | failedToGeneratePassword (err : ProvisioningError)
  /-- `unsupported credential options: %v` -/
  | unsupportedCredentialOptions
  deriving DecidableEq, Repr

/-- The function `generateCredentials`; `generateRandomPassword` is
`crypto.GenerateRandomPassword` of the SDK. -/
def generateCredentials (generateRandomPassword : RandomPasswordOptions → Except Str Str)
    (credentialOptions : Option CredentialOptions) : Except ProvisioningError Str :=
  match credentialOptions with
  | some (.RandomPassword (some randomPasswordOpts)) =>
    match generateRandomPassword randomPasswordOpts with
    | .error msg => .error (.crypto msg)
    | .ok password => .ok password
  | _ => .error .onlyRandomPassword

/-- The message `v2.PlaintextData`. -/
structure PlaintextData where
  Name : Str
  Bytes : Str
  deriving DecidableEq, Repr

/-- The second step of `prepareQueryInputs`: `queryInputs`, `credentials` and
`plaintextDataList` after the credentials were added, or the error. -/
def addCredentials (generateRandomPassword : RandomPasswordOptions → Except Str Str)
    (credentialOptions : Option CredentialOptions) (queryInputs : GoMap QueryInput) :
    Except ProvisioningError (GoMap QueryInput × GoMap InputValue × List PlaintextData) :=
  match credentialOptions with
  | none => .ok (queryInputs, [], [])
  | some .NoPassword => .ok (queryInputs, [], [])
  | some (.RandomPassword _) =>
    match generateCredentials generateRandomPassword credentialOptions with
    | .error err => .error (.failedToGeneratePassword err)
    | .ok password =>
      .ok (queryInputs.assign "password".toList (.value (.str password)),
           GoMap.assign [] "password".toList (.str password),
           [{ Name := "password".toList, Bytes := password }])
  | some .other => .error .unsupportedCredentialOptions

/-- The third step of `prepareQueryInputs` for one namespace: the key is bound to the map
when the map is not empty and the key is not bound yet. -/
def addNamespace (queryInputs : GoMap QueryInput) (key : Str) (m : GoMap InputValue) :
    GoMap QueryInput :=
  if m.length > 0 then
    match queryInputs.index key with
    | none => queryInputs.assign key (.submap m)
    | some _ => queryInputs
  else queryInputs

/-- The method `prepareQueryInputs` on the schema of the provisioning configuration, the
profile fields of the account and the credential options (`none` is the nil pointer). -/
def prepareQueryInputs (generateRandomPassword : RandomPasswordOptions → Except Str Str)
    (schema : List AccountProvisioningField) (profile : Str → Option ProfileValue)
    (credentialOptions : Option CredentialOptions) :
    Except ProvisioningError (GoMap QueryInput × List PlaintextData) :=
  let (queryInputs, schemaVars) := schemaLoop profile schema ([], [])
  match addCredentials generateRandomPassword credentialOptions queryInputs with
  | .error err => .error err
  | .ok (queryInputs, credentials, plaintextDataList) =>
    let queryInputs := addNamespace queryInputs "input".toList schemaVars
    let queryInputs := addNamespace queryInputs "credentials".toList credentials
    .ok (queryInputs, plaintextDataList)

/-- The value that the schema loop retains for a name: that of the last schema field of this
name whose profile value exists and is parsed to a value. -/
def retainedValue (profile : Str → Option ProfileValue) :
    List AccountProvisioningField → Str → Option InputValue
  | [], _ => none
  | field :: rest, name =>
    match retainedValue profile rest name with
    | some v => some v
    | none =>
      if field.Name = name then (profile field.Name).bind (parseProfileValue field.FieldType)
      else none

/-! ### Successive pages under the offset strategy -/

/-- The pagination context of page `n` (counted from 0) of a listing under the offset
strategy, when every call carries the page size `size` and the token returned for the page
before it, starting from the empty token: `setupPagination` on the token that `nextPageToken`
built from the context of the page before. -/
def offsetPageContext (size : Int) (pk : Str) :
    Nat → GoResult (Option paginationContext × Option GoError)
  | 0 =>
    setupPagination (some { Size := size, Token := [] })
      (some { Strategy := offsetKey, PrimaryKey := pk })
  | n + 1 =>
    match offsetPageContext size pk n with
    | .returns (some p, none) =>
      setupPagination (some { Size := size, Token := (nextPageToken (some p) .nil).1 })
        (some { Strategy := offsetKey, PrimaryKey := pk })
    | r => r

/-- The recurrence `o_0 = 0`, `o_(n+1) = (o_n + 1) * L` of the offsets. -/
def pageOffset (L : Nat) : Nat → Nat
  | 0 => 0
  | n + 1 => (pageOffset L n + 1) * L

/-! ### The page bag of the grants (`grants.go`) -/

/-- Modelled from the spec: a page state of the page bag (`pagination.PageState` of the SDK,
which is not part of the repository): the kind of the state, the index of the sub-query as
text, and the inner token of that sub-query. -/
structure PageState where
  Token : Str
  ResourceTypeID : Str
  ResourceID : Str
  deriving DecidableEq, Repr

/-- Modelled from the spec: the page bag (`pagination.Bag` of the SDK), an ordered stack of
page states; the head of the list is the top of the stack. -/
structure Bag where
  states : List PageState
  deriving DecidableEq, Repr

/-- Modelled from the spec: the top state of the bag (`Current`), nil when the bag is
empty. -/
def Bag.Current (b : Bag) : Option PageState :=
  b.states.head?

/-- Modelled from the spec: a state is pushed on top of the stack (`Push`). -/
def Bag.Push (b : Bag) (s : PageState) : Bag :=
  { states := s :: b.states }

/-- Modelled from the spec: the bag advances (`Next`): the top state is consumed, and it is put
back with the next-page token as its inner token unless that token is empty; `none` is the
error of an empty bag. -/
def Bag.Next (b : Bag) (pageToken : Str) : Option Bag :=
  match b.states with
  | [] => none
  | st :: rest =>
    if pageToken ≠ [] then some { states := { st with Token := pageToken } :: rest }
    else some { states := rest }

/-- Modelled from the spec: the serialized form of the bag (`Marshal` and `Unmarshal` of the
SDK); the format is not fixed by the spec, so both are parameters. -/
structure BagCodec where
  Marshal : Bag → Except Str Str
  Unmarshal : Str → Except Str Bag

/-- The page state that `Grants` pushes for the grants query with index `ii`. -/
def grantQueryState (ii : Nat) : PageState :=
  { Token := [], ResourceTypeID := "grant-query".toList, ResourceID := strconvItoa (ii : Int) }

/-- The loop of `Grants` that pushes one page state for each of the `n` grants queries, in
the order of their indices. -/
def pushGrantQueries (b : Bag) (n : Nat) : Bag :=
  (List.range n).foldl (fun b ii => b.Push (grantQueryState ii)) b

/-- The errors of `Grants`. -/
inductive GrantsError where
  /-- an error of `Unmarshal`, `Next` or `Marshal` -/
  | bag (msg : Str)
  /-- the error of `strconv.ParseInt` on the resource id of the current state -/
  | parseInt (s : Str)
  /-- an error of `listGrants` -/
  | listGrants (msg : Str)
  /-- `invalid page token` -/
  | invalidPageToken
  deriving DecidableEq, Repr

/-- The method `Grants` on a syncer with the grants queries `grants`. The method `listGrants`
(the query of one grants configuration run with a page token: the grants and the next-page
token, or an error) is the parameter `listGrants`. The call panics on a nil page token, and
when the index of the current state is not an index of `grants`. -/
def Grants {G Q : Type} (codec : BagCodec) (grants : List Q)
    (listGrants : PageToken → Q → Except Str (List G × Str)) (pToken : Option PageToken) :
    GoResult (Except GrantsError (List G × Str)) :=
  if grants.length = 0 then .returns (.ok ([], []))
  else
    match pToken with
    | none => .panics
    | some pToken =>
      match codec.Unmarshal pToken.Token with
      | .error msg => .returns (.error (.bag msg))
      | .ok b =>
        let b := if b.Current = none then pushGrantQueries b grants.length else b
        match b.Current with
        | none => .panics
        | some current =>
          if current.ResourceTypeID = "grant-query".toList then
            match strconvParseInt current.ResourceID with
            | none => .returns (.error (.parseInt current.ResourceID))
            | some grantIi =>
              if grantIi < 0 then .panics
              else
                match grants.get? grantIi.toNat with
                | none => .panics
                | some grantConfig =>
                  match listGrants { Size := pToken.Size, Token := current.Token } grantConfig with
                  | .error msg => .returns (.error (.listGrants msg))
                  | .ok (found, npt) =>
                    match b.Next npt with
                    | none => .returns (.error (.bag "no active page state".toList))
                    | some b2 =>
                      match codec.Marshal b2 with
                      | .error msg => .returns (.error (.bag msg))
                      | .ok nextPageToken => .returns (.ok (found, nextPageToken))
          else .returns (.error .invalidPageToken)

/-- The bag in which the grants query `i` is on top with the inner token `token`, above the
queries `i - 1`, ..., `0`, which have not been run yet. -/
def grantStates (i : Nat) (token : Str) : List PageState :=
  { grantQueryState i with Token := token } :: (List.range i).reverse.map grantQueryState

/-- The result of `Grants` when the grants query `grantConfig` is run with the inner token
`token` on a bag whose other states are `rest`: the grants found and the serialized bag, in
which the state is put back with the new token or, when that token is empty, dropped. -/
def grantsOutcome {G Q : Type} (codec : BagCodec)
    (listGrants : PageToken → Q → Except Str (List G × Str)) (size : Int) (top : PageState)
    (rest : List PageState) (grantConfig : Q) : GoResult (Except GrantsError (List G × Str)) :=
  match listGrants { Size := size, Token := top.Token } grantConfig with
  | .error msg => .returns (.error (.listGrants msg))
  | .ok (found, npt) =>
    match codec.Marshal { states := if npt ≠ [] then { top with Token := npt } :: rest else rest } with
    | .error msg => .returns (.error (.bag msg))
    | .ok nextPageToken => .returns (.ok (found, nextPageToken))

/-- A codec for examples: the states are written one after the other, each as its three
fields followed by `;`, the fields separated by `,`. -/
def exampleBagCodec : BagCodec :=
  { Marshal := fun b =>
      .ok (b.states.flatMap (fun st =>
        st.ResourceTypeID ++ [','] ++ st.ResourceID ++ [','] ++ st.Token ++ [';']))
    Unmarshal := fun s =>
      .ok { states := ((stringsSplit s ';').dropLast).map (fun part =>
        match stringsSplit part ',' with
        | [t, i, tok] => { Token := tok, ResourceTypeID := t, ResourceID := i }
        | _ => { Token := [], ResourceTypeID := [], ResourceID := [] }) } }

/-! ### Queries that differ in the letter case of their placeholders -/

/-- The ASCII lower-case form of a character: `A` to `Z` become `a` to `z`, every other
character is unchanged. -/
def asciiToLower (c : Char) : Char :=
  if 65 ≤ c.toNat ∧ c.toNat ≤ 90 then Char.ofNat (c.toNat + 32) else c

/-- Two pieces agree up to the letter case of a placeholder: the same character, or two
placeholders with the same text once their ASCII letters are lower-cased (the key and the
option, as the other characters of a placeholder are not letters). -/
def Piece.sameUpToCase : Piece → Piece → Bool
  | .lit c, .lit c2 => decide (c = c2)
  | .tok t, .tok t2 => decide (t.map asciiToLower = t2.map asciiToLower)
  | _, _ => false

/-- Two lists of pieces agree, piece by piece, up to the letter case of the placeholders. -/
def piecesSameUpToCase : List Piece → List Piece → Bool
  | [], [] => true
  | p :: ps, q :: qs => p.sameUpToCase q && piecesSameUpToCase ps qs
  | _, _ => false

/-- Two queries differ only in the letter case of the key and option parts of their
placeholders: they have the same text between the placeholders and, at the same places,
placeholders that agree up to letter case. -/
def sameUpToPlaceholderCase (q1 q2 : Str) : Bool :=
  piecesSameUpToCase (regexpPieces queryOptRegex q1 0) (regexpPieces queryOptRegex q2 0)

/-! ### A decoder that interprets escape sequences -/

/-- The text of a decoded string when the decoder interprets the escape sequence backslash,
`n` as a line feed; every other character is kept. -/
def phpUnescape : Str → Str
  | '\\' :: 'n' :: rest => '\n' :: phpUnescape rest
  | c :: rest => c :: phpUnescape rest
  | [] => []

/-- The escape sequences of a decoded value: those of a string, nothing for the other
values. -/
def PhpValue.unescape : PhpValue → PhpValue
  | .str s => .str (phpUnescape s)
  | v => v

/-- A library that writes the format of `phpSerializeLibrary` and whose decoder, in addition,
interprets the escape sequence backslash, `n` in the strings it reads, while the encoder
writes the characters of a string as they are. -/
def phpEscapeDecodingLibrary : PhpSerialize :=
  { Marshal := phpMarshal
    Unmarshal := fun s =>
      match phpUnmarshal s with
      | .error err => .error err
      | .ok m => .ok (m.map (fun e => (e.1.unescape, e.2.unescape))) }

/-! ## Theorems -/

/-! ### Library helpers -/

theorem stringsReplaceAll_single (a b : Char) (s : Str) :
    stringsReplaceAll s [a] [b] = s.map (fun c => if c = a then b else c) := by
  unfold stringsReplaceAll
  induction s with
  | nil => rfl
  | cons c cs ih =>
    by_cases h : c = a
    · simp [stringsReplaceAllFrom, stringsHasPrefix, h, ih]
    · simp [stringsReplaceAllFrom, stringsHasPrefix, h, ih]

theorem takeWhile_length_cons_pos {p : Char → Bool} {c : Char} (cs : Str) (h : p c = true) :
    ((c :: cs).takeWhile p).length = (cs.takeWhile p).length + 1 := by
  simp [List.takeWhile_cons, h]

theorem matchRun_cons_pos {p : Char → Bool} {c : Char} (cs : Str) (h : p c = true) :
    matchRun p (c :: cs) = some ((cs.takeWhile p).length + 1) := by
  simp [matchRun, List.takeWhile_cons, h]

theorem matchRun_cons_neg {p : Char → Bool} {c : Char} (cs : Str) (h : p c = false) :
    matchRun p (c :: cs) = none := by
  simp [matchRun, List.takeWhile_cons, h]

/-- Deleting the runs of a class is filtering by its complement. -/
theorem replaceRuns_nil_aux (p : Char → Bool) (s : Str) :
    ∀ k, k ≤ (s.takeWhile p).length →
      (regexpReplaceAllStringFunc (matchRun p) (fun (_ : Unit) _ => (([] : Str), ())) s k ()).1
        = s.filter (fun c => !p c) := by
  induction s with
  | nil => intro k _; cases k <;> rfl
  | cons c cs ih =>
    intro k hk
    cases hp : p c with
    | true =>
      rw [takeWhile_length_cons_pos cs hp] at hk
      cases k with
      | zero =>
        simp only [regexpReplaceAllStringFunc, matchRun_cons_pos cs hp]
        simp [hp, ih _ (le_refl _)]
      | succ k =>
        simp only [regexpReplaceAllStringFunc]
        simp [hp, ih k (by omega)]
    | false =>
      have hk0 : k = 0 := by simpa [List.takeWhile_cons, hp] using hk
      subst hk0
      simp only [regexpReplaceAllStringFunc, matchRun_cons_neg cs hp]
      simp [hp, ih 0 (Nat.zero_le _)]

theorem regexpReplaceAllString_run_nil (p : Char → Bool) (s : Str) :
    regexpReplaceAllString (matchRun p) s [] = s.filter (fun c => !p c) :=
  replaceRuns_nil_aux p s 0 (Nat.zero_le _)

theorem collapseHyphens_cons (cs : Str) :
    ∀ c, collapseHyphens (c :: cs) = c :: (collapseHyphens (c :: cs)).tail := by
  induction cs with
  | nil => intro c; rfl
  | cons d ds ih =>
    intro c
    by_cases h : c = '-' ∧ d = '-'
    · obtain ⟨h1, h2⟩ := h
      subst h1 h2
      have := ih '-'
      simp only [collapseHyphens, and_self, if_true]
      exact this
    · simp [collapseHyphens, h]

/-- Replacing each run of hyphens by one hyphen is `collapseHyphens`; inside a run the scan
skips to the end of the run. -/
theorem replaceRuns_hyphen_aux (s : Str) :
    (regexpReplaceAllStringFunc slugifyHyphenRegex (fun (_ : Unit) _ => (['-'], ())) s 0 ()).1
        = collapseHyphens s ∧
    (regexpReplaceAllStringFunc slugifyHyphenRegex (fun (_ : Unit) _ => (['-'], ())) s
        (s.takeWhile (fun c => c == '-')).length ()).1
        = (collapseHyphens ('-' :: s)).tail := by
  induction s with
  | nil => exact ⟨rfl, rfl⟩
  | cons c cs ih =>
    obtain ⟨ih0, ihk⟩ := ih
    by_cases hc : c = '-'
    · subst hc
      have hm : slugifyHyphenRegex ('-' :: cs)
          = some ((cs.takeWhile (fun c => c == '-')).length + 1) :=
        matchRun_cons_pos cs (by simp)
      constructor
      · simp only [regexpReplaceAllStringFunc, hm, ihk]
        cases cs with
        | nil => rfl
        | cons d ds =>
          by_cases hd : d = '-'
          · subst hd
            simp only [collapseHyphens, and_self, if_true]
            exact (collapseHyphens_cons ds '-').symm
          · simp [collapseHyphens, hd]
      · rw [takeWhile_length_cons_pos cs (by simp)]
        simp only [regexpReplaceAllStringFunc, ihk]
        simp [collapseHyphens]
    · have hm : slugifyHyphenRegex (c :: cs) = none :=
        matchRun_cons_neg cs (by simp [hc])
      have h0 : ((c :: cs).takeWhile (fun c => c == '-')).length = 0 := by
        simp [List.takeWhile_cons, hc]
      have hz : (regexpReplaceAllStringFunc slugifyHyphenRegex
          (fun (_ : Unit) _ => (['-'], ())) (c :: cs) 0 ()).1 = collapseHyphens (c :: cs) := by
        simp only [regexpReplaceAllStringFunc, hm, ih0]
        cases cs with
        | nil => rfl
        | cons d ds => simp [collapseHyphens, hc]
      refine ⟨hz, ?_⟩
      rw [h0, hz]
      simp [collapseHyphens, hc]

theorem stringsTrim_hyphen (s : Str) : stringsTrim s ['-'] = trimHyphens s := by
  have hp : (fun c : Char => decide (c ∈ ['-'])) = (fun c => c == '-') := by
    funext c; by_cases h : c = '-' <;> simp [h]
  simp only [stringsTrim, stringsTrimRight, stringsTrimLeft, trimHyphens, List.rdropWhile, hp]

/-- The source function computes the specification. -/
theorem Slugify_eq_slugifySpec (caseTable : Char → Char) (s : Str) :
    Slugify caseTable s = slugifySpec caseTable s := by
  have hmap : ∀ t : Str, (t.map (fun c => if c = ' ' then '-' else c)).map
      (fun c => if c = '_' then '-' else c) = t.map spaceToHyphen := by
    intro t
    rw [List.map_map]
    apply List.map_congr_left
    intro c _
    by_cases h1 : c = ' '
    · subst h1; simp [spaceToHyphen]
    · simp [spaceToHyphen, h1]
  have hf : (fun c => !(!isSlugChar c)) = isSlugChar := by funext c; simp
  simp only [Slugify, slugifySpec, stringsToLower, stringsReplaceAll_single, hmap,
    slugifyAlphaNumRegex, regexpReplaceAllString_run_nil, hf, stringsTrim_hyphen]
  congr 1
  exact (replaceRuns_hyphen_aux _).1

/-! ### Shape of a slug -/

theorem collapseHyphens_subset (s : Str) : ∀ c ∈ collapseHyphens s, c ∈ s := by
  induction s with
  | nil => intro c h; simp [collapseHyphens] at h
  | cons a as ih =>
    cases as with
    | nil => intro c h; simpa [collapseHyphens] using h
    | cons d ds =>
      intro c h
      by_cases hh : a = '-' ∧ d = '-'
      · obtain ⟨h1, h2⟩ := hh
        subst h1 h2
        simp only [collapseHyphens, and_self, if_true] at h
        exact List.mem_cons_of_mem _ (ih c h)
      · simp only [collapseHyphens, hh, if_false, List.mem_cons] at h
        rcases h with h | h
        · simp [h]
        · exact List.mem_cons_of_mem _ (ih c h)

theorem collapseHyphens_chain (s : Str) :
    (collapseHyphens s).Chain' (fun a b => ¬(a = '-' ∧ b = '-')) := by
  induction s with
  | nil => simp [collapseHyphens]
  | cons a as ih =>
    cases as with
    | nil => simp [collapseHyphens]
    | cons d ds =>
      by_cases hh : a = '-' ∧ d = '-'
      · obtain ⟨h1, h2⟩ := hh
        subst h1 h2
        simpa only [collapseHyphens, and_self, if_true] using ih
      · simp only [collapseHyphens, hh, if_false]
        rw [collapseHyphens_cons ds d] at ih ⊢
        exact List.Chain'.cons hh ih

theorem collapseHyphens_of_chain (s : Str)
    (h : s.Chain' (fun a b => ¬(a = '-' ∧ b = '-'))) : collapseHyphens s = s := by
  induction s with
  | nil => rfl
  | cons a as ih =>
    cases as with
    | nil => rfl
    | cons d ds =>
      rw [List.chain'_cons] at h
      simp only [collapseHyphens, h.1, if_false]
      rw [ih h.2]

theorem trimHyphens_within (s : Str) : trimHyphens s <:+: s :=
  List.IsInfix.trans (List.rdropWhile_prefix (fun c => c == '-') _).isInfix
    (List.dropWhile_suffix _).isInfix

theorem trimHyphens_head (s : Str) : (trimHyphens s).head? ≠ some '-' := by
  unfold trimHyphens
  have h1 := List.head?_dropWhile_not (fun c => c == '-') s
  obtain ⟨v, hv⟩ := List.rdropWhile_prefix (fun c : Char => c == '-')
    (s.dropWhile (fun c => c == '-'))
  generalize List.rdropWhile (fun c => c == '-') (s.dropWhile (fun c => c == '-')) = u at hv
  cases u with
  | nil => simp
  | cons a as =>
    rw [← hv] at h1
    simp only [List.cons_append, List.head?_cons] at h1
    simp only [List.head?_cons, ne_eq, Option.some.injEq]
    intro ha
    subst ha
    simp at h1

theorem trimHyphens_last (s : Str) : (trimHyphens s).getLast? ≠ some '-' := by
  unfold trimHyphens
  generalize s.dropWhile (fun c => c == '-') = t
  intro h
  have hne : List.rdropWhile (fun c => c == '-') t ≠ [] := by
    intro h0; rw [h0] at h; simp at h
  have h2 := List.rdropWhile_last_not (fun c => c == '-') t hne
  rw [List.getLast?_eq_getLast _ hne] at h
  simp only [Option.some.injEq] at h
  rw [h] at h2
  simp at h2

theorem SlugShape_slugifySpec (caseTable : Char → Char) (s : Str) :
    SlugShape (slugifySpec caseTable s) := by
  unfold slugifySpec
  generalize hf : List.filter isSlugChar
    ((s.map (unicodeToLower caseTable)).map spaceToHyphen) = f
  have hall : ∀ c ∈ f, isSlugChar c = true := by
    intro c hc
    rw [← hf] at hc
    exact (List.mem_filter.mp hc).2
  refine ⟨?_, ?_, trimHyphens_head _, trimHyphens_last _⟩
  · intro c hc
    exact hall c (collapseHyphens_subset f c ((trimHyphens_within _).subset hc))
  · exact List.Chain'.infix (collapseHyphens_chain f) (trimHyphens_within _)

theorem isSlugChar_toLower (caseTable : Char → Char) (c : Char) (h : isSlugChar c = true) :
    unicodeToLower caseTable c = c := by
  have hc : c.toNat ≤ 127 ∧ ¬(65 ≤ c.toNat ∧ c.toNat ≤ 90) := by
    simp only [isSlugChar, Bool.or_eq_true, Bool.and_eq_true, decide_eq_true_eq,
      beq_iff_eq] at h
    rcases h with (h | h) | h
    · omega
    · omega
    · subst h; decide
  simp [unicodeToLower, hc.1, hc.2]

theorem isSlugChar_spaceToHyphen (c : Char) (h : isSlugChar c = true) :
    spaceToHyphen c = c := by
  have hc : c ≠ ' ' ∧ c ≠ '_' := by
    constructor <;> (intro h0; subst h0; simp [isSlugChar] at h)
  simp [spaceToHyphen, hc.1, hc.2]

theorem dropWhile_hyphen_self (r : Str) (h : r.head? ≠ some '-') :
    r.dropWhile (fun c => c == '-') = r := by
  cases r with
  | nil => rfl
  | cons a as =>
    have ha : a ≠ '-' := by simpa using h
    simp [List.dropWhile_cons, ha]

/-- On a string of slug shape every step of the specification is the identity. -/
theorem slugifySpec_of_shape (caseTable : Char → Char) (r : Str) (h : SlugShape r) :
    slugifySpec caseTable r = r := by
  obtain ⟨hall, hchain, hhead, hlast⟩ := h
  have h1 : r.map (unicodeToLower caseTable) = r := by
    conv_rhs => rw [← List.map_id r]
    exact List.map_congr_left (fun c hc => isSlugChar_toLower caseTable c (hall c hc))
  have h2 : r.map spaceToHyphen = r := by
    conv_rhs => rw [← List.map_id r]
    exact List.map_congr_left (fun c hc => isSlugChar_spaceToHyphen c (hall c hc))
  have h3 : r.filter isSlugChar = r := List.filter_eq_self.mpr hall
  have h4 : trimHyphens r = r := by
    unfold trimHyphens
    rw [dropWhile_hyphen_self r hhead, List.rdropWhile, dropWhile_hyphen_self, List.reverse_reverse]
    rw [List.head?_reverse]
    exact hlast
  rw [slugifySpec, h1, h2, h3, collapseHyphens_of_chain r hchain, h4]

theorem isSlugAlnum_of_ne_hyphen (c : Char) (h : isSlugChar c = true) (hc : c ≠ '-') :
    isSlugAlnum c = true := by
  simp only [isSlugChar, Bool.or_eq_true, beq_iff_eq] at h
  rcases h with h | h
  · simpa [isSlugAlnum] using h
  · exact absurd h hc

theorem intercalate_cons_cons (sep w v : Str) (ws : List Str) :
    List.intercalate sep (w :: v :: ws) = w ++ sep ++ List.intercalate sep (v :: ws) := by
  simp [List.intercalate, List.intersperse]

theorem intercalate_singleton (sep w : Str) : List.intercalate sep [w] = w := by
  simp [List.intercalate, List.intersperse]

/-- Words of a string with only slug characters, no doubled hyphen and no final hyphen:
either from its start, when it does not start with a hyphen, or from after its first
hyphen. -/
theorem slug_words_aux (r : Str) :
    (∀ c ∈ r, isSlugChar c = true) → r.Chain' (fun a b => ¬(a = '-' ∧ b = '-')) →
    r.getLast? ≠ some '-' →
    (r ≠ [] → r.head? ≠ some '-' → ∃ w ws, (∀ x ∈ w :: ws, x ≠ [] ∧ ∀ c ∈ x, isSlugAlnum c = true)
        ∧ r = List.intercalate ['-'] (w :: ws)) ∧
    (∀ ds, r = '-' :: ds → ∃ w ws, (∀ x ∈ w :: ws, x ≠ [] ∧ ∀ c ∈ x, isSlugAlnum c = true)
        ∧ ds = List.intercalate ['-'] (w :: ws)) := by
  induction r with
  | nil => intro _ _ _; exact ⟨fun h => absurd rfl h, fun ds h => by simp at h⟩
  | cons a as ih =>
    intro hall hchain hlast
    have hall2 : ∀ c ∈ as, isSlugChar c = true := fun c hc => hall c (List.mem_cons_of_mem _ hc)
    have hchain2 := hchain.tail
    simp only [List.tail_cons] at hchain2
    cases as with
    | nil =>
      constructor
      · intro _ hh
        have ha : a ≠ '-' := by simpa using hh
        refine ⟨[a], [], ?_, by simp [intercalate_singleton]⟩
        intro x hx
        simp only [List.mem_singleton] at hx
        subst hx
        refine ⟨by simp, ?_⟩
        intro c hc
        simp only [List.mem_singleton] at hc
        subst hc
        exact isSlugAlnum_of_ne_hyphen c (hall c (by simp)) ha
      · intro ds hds
        simp only [List.cons.injEq] at hds
        rw [hds.1] at hlast
        simp at hlast
    | cons d ds =>
      have hlast2 : (d :: ds).getLast? ≠ some '-' := by
        simpa [List.getLast?_cons_cons] using hlast
      obtain ⟨ih1, ih2⟩ := ih hall2 hchain2 hlast2
      have hrel : ¬(a = '-' ∧ d = '-') := (List.chain'_cons.mp hchain).1
      constructor
      · intro _ hh
        have ha : a ≠ '-' := by simpa using hh
        have haa : isSlugAlnum a = true := isSlugAlnum_of_ne_hyphen a (hall a (by simp)) ha
        by_cases hd : d = '-'
        · subst hd
          obtain ⟨w, ws, hw, he⟩ := ih2 ds rfl
          refine ⟨[a], w :: ws, ?_, ?_⟩
          · intro x hx
            rcases List.mem_cons.mp hx with hx | hx
            · subst hx
              refine ⟨by simp, ?_⟩
              intro c hc
              simp only [List.mem_singleton] at hc
              subst hc
              exact haa
            · exact hw x hx
          · rw [intercalate_cons_cons, ← he]; rfl
        · obtain ⟨w, ws, hw, he⟩ := ih1 (by simp) (by simpa using hd)
          refine ⟨a :: w, ws, ?_, ?_⟩
          · intro x hx
            rcases List.mem_cons.mp hx with hx | hx
            · subst hx
              refine ⟨by simp, ?_⟩
              intro c hc
              rcases List.mem_cons.mp hc with hc | hc
              · subst hc; exact haa
              · exact (hw w (by simp)).2 c hc
            · exact hw x (List.mem_cons_of_mem _ hx)
          · rw [he]
            cases ws with
            | nil => simp [intercalate_singleton]
            | cons v vs => simp [intercalate_cons_cons]
      · intro ds2 hds
        simp only [List.cons.injEq] at hds
        obtain ⟨ha, hds⟩ := hds
        subst ha
        subst hds
        have hd : d ≠ '-' := fun hd => hrel ⟨rfl, hd⟩
        exact ih1 (by simp) (by simpa using hd)

theorem IsSlug_of_shape (r : Str) (h : SlugShape r) : IsSlug r := by
  obtain ⟨hall, hchain, hhead, hlast⟩ := h
  by_cases hr : r = []
  · exact Or.inl hr
  · obtain ⟨w, ws, hw, he⟩ := (slug_words_aux r hall hchain hlast).1 hr hhead
    exact Or.inr ⟨w :: ws, by simp, hw, he⟩

/-! ### Claims on `Slugify` -/

theorem Slugify_example_hello (caseTable : Char → Char) :
    Slugify caseTable "Hello, World!".toList = "hello-world".toList := by rfl

theorem Slugify_example_golang (caseTable : Char → Char) :
    Slugify caseTable "GoLang_is Awesome".toList = "golang-is-awesome".toList := by rfl

theorem Slugify_example_leading (caseTable : Char → Char) :
    Slugify caseTable "____leading_and_trailing____".toList = "leading-and-trailing".toList := by
  rfl

theorem Slugify_example_already (caseTable : Char → Char) :
    Slugify caseTable "Already--slugified".toList = "already-slugified".toList := by rfl

/-- C7: `Slugify` is idempotent: slugifying a slug gives it back. -/
theorem Slugify_idempotent (caseTable : Char → Char) (s : Str) :
    Slugify caseTable (Slugify caseTable s) = Slugify caseTable s := by
  rw [Slugify_eq_slugifySpec caseTable (Slugify caseTable s)]
  apply slugifySpec_of_shape
  rw [Slugify_eq_slugifySpec]
  exact SlugShape_slugifySpec caseTable s

/-- C8: `Slugify` computes the specified pipeline (lowercase, space and underscore to hyphen,
characters outside `[a-z0-9-]` deleted, runs of hyphens collapsed, hyphens trimmed at both
ends); its result is empty or made of non-empty runs of `[a-z0-9]` separated by single
hyphens; and it gives the expected results on the examples of the specification. -/
theorem Slugify_refines_spec (caseTable : Char → Char) (s : Str) :
    Slugify caseTable s = slugifySpec caseTable s ∧ IsSlug (Slugify caseTable s) ∧
    Slugify caseTable "Hello, World!".toList = "hello-world".toList ∧
    Slugify caseTable "GoLang_is Awesome".toList = "golang-is-awesome".toList ∧
    Slugify caseTable "____leading_and_trailing____".toList = "leading-and-trailing".toList ∧
    Slugify caseTable "Already--slugified".toList = "already-slugified".toList := by
  refine ⟨Slugify_eq_slugifySpec caseTable s, ?_, Slugify_example_hello caseTable,
    Slugify_example_golang caseTable, Slugify_example_leading caseTable,
    Slugify_example_already caseTable⟩
  rw [Slugify_eq_slugifySpec]
  exact IsSlug_of_shape _ (SlugShape_slugifySpec caseTable s)

/-! ### `preprocessExpressions` -/

theorem stringsHasPrefix_append (a b : Str) : stringsHasPrefix (a ++ b) a = true := by
  induction a with
  | nil => cases b <;> rfl
  | cons c cs ih => simp [stringsHasPrefix, ih]

theorem stringsHasPrefix_takeWhile (p : Char → Bool) (s : Str) :
    stringsHasPrefix s (s.takeWhile p) = true := by
  conv_lhs => arg 1; rw [← List.takeWhile_append_dropWhile p s]
  exact stringsHasPrefix_append _ _

/-- The index found by `strings.Index`, given the first position where the text occurs. -/
theorem stringsIndexFrom_eq (sub : Str) (l : Str) :
    ∀ (i j : Nat), j ≤ l.length → (∀ q, q < j → stringsHasPrefix (l.drop q) sub = false) →
      stringsHasPrefix (l.drop j) sub = true → stringsIndexFrom sub l i = ((i + j : Nat) : Int) := by
  induction l with
  | nil =>
    intro i j hj _ hp
    have hj0 : j = 0 := by simpa using hj
    subst hj0
    cases sub with
    | nil => simp [stringsIndexFrom]
    | cons a as => simp [stringsHasPrefix] at hp
  | cons c cs ih =>
    intro i j hj hq hp
    cases j with
    | zero =>
      simp only [List.drop_zero] at hp
      simp [stringsIndexFrom, hp]
    | succ j =>
      have h0 := hq 0 (Nat.succ_pos _)
      simp only [List.drop_zero] at h0
      simp only [stringsIndexFrom, h0, Bool.false_eq_true, if_false]
      rw [ih (i + 1) j (by simpa using hj) (fun q hqj => by simpa using hq (q + 1) (by omega))
        (by simpa using hp)]
      congr 1
      omega

theorem dotFieldRegexp_of_hasPrefix (t w : Str) (x : Char) (hx : isWordChar x = true)
    (h : stringsHasPrefix t ('.' :: x :: w) = true) : dotFieldRegexp t ≠ none := by
  cases t with
  | nil => simp [stringsHasPrefix] at h
  | cons a as =>
    cases as with
    | nil => simp [stringsHasPrefix] at h
    | cons b bs =>
      simp only [stringsHasPrefix, Bool.and_eq_true, beq_iff_eq] at h
      obtain ⟨ha, hb, _⟩ := h
      subst ha hb
      simp [dotFieldRegexp, List.takeWhile_cons, hx]

theorem dotFieldRegexp_cons (c : Char) (cs : Str) :
    dotFieldRegexp (c :: cs) =
      if c = '.' ∧ cs.takeWhile isWordChar ≠ [] then
        some ((cs.takeWhile isWordChar).length + 1) else none := by
  unfold dotFieldRegexp
  by_cases hc : c = '.'
  · simp only [hc, if_true, true_and]
    split
    · next h => simp [List.length_eq_zero.mp h]
    · next n h =>
      have hne : cs.takeWhile isWordChar ≠ [] := by
        intro h0; rw [h0] at h; simp at h
      simp [hne, h]
  · simp [hc]

theorem take_length_takeWhile (p : Char → Bool) (s : Str) :
    s.take (s.takeWhile p).length = s.takeWhile p := by
  induction s with
  | nil => rfl
  | cons c cs ih =>
    cases h : p c with
    | true => simp [List.takeWhile_cons, h, ih]
    | false => simp [List.takeWhile_cons, h]

theorem get?_length_pred (pre suf : Str) (h : pre ≠ []) :
    (pre ++ suf).get? (pre.length - 1) = pre.getLast? := by
  have hl : pre.length - 1 < pre.length := by
    have := List.length_pos.mpr h
    omega
  rw [List.get?_eq_getElem?, List.getElem?_append_left hl, List.getLast?_eq_getElem?]

/-- The callback at a match: `strings.Index` finds the position of the match itself. -/
theorem preprocessReplace_at (pre cs : Str) (off : Nat) (hoff : off ≤ pre.length)
    (hnone : ∀ q, off ≤ q → q < pre.length →
      dotFieldRegexp ((pre ++ '.' :: cs).drop q) = none)
    (hw : cs.takeWhile isWordChar ≠ []) :
    preprocessReplace (pre ++ '.' :: cs) (off : Int) ('.' :: cs.takeWhile isWordChar) =
      (if pre.getLast?.any isAlphaNumeric = true then '.' :: cs.takeWhile isWordChar
        else colsAccess (cs.takeWhile isWordChar),
       ((pre.length + 1 + (cs.takeWhile isWordChar).length : Nat) : Int)) := by
  obtain ⟨x, w, hxw⟩ : ∃ x w, cs.takeWhile isWordChar = x :: w := by
    cases h : cs.takeWhile isWordChar with
    | nil => exact absurd h hw
    | cons x w => exact ⟨x, w, rfl⟩
  have hx : isWordChar x = true := by
    have : x ∈ cs.takeWhile isWordChar := by rw [hxw]; simp
    exact (List.mem_takeWhile_imp this)
  have hidx : stringsIndex ((pre ++ '.' :: cs).drop off) ('.' :: cs.takeWhile isWordChar)
      = ((pre.length - off : Nat) : Int) := by
    unfold stringsIndex
    rw [stringsIndexFrom_eq _ _ 0 (pre.length - off)]
    · simp
    · simp; omega
    · intro q hq
      rw [List.drop_drop]
      by_contra hcon
      have hcon2 : stringsHasPrefix (List.drop (off + q) (pre ++ '.' :: cs))
          ('.' :: cs.takeWhile isWordChar) = true := by simpa using hcon
      rw [hxw] at hcon2
      exact dotFieldRegexp_of_hasPrefix _ w x hx hcon2 (hnone (off + q) (by omega) (by omega))
    · rw [List.drop_drop]
      have : off + (pre.length - off) = pre.length := by omega
      rw [this, List.drop_left]
      simp [stringsHasPrefix, stringsHasPrefix_takeWhile]
  have hmi : ((pre.length - off : Nat) : Int) + (off : Int) = (pre.length : Int) := by
    omega
  have hcond : ((pre.length : Int) > 0 ∧
      ((pre ++ '.' :: cs).get? ((pre.length : Int) - 1).toNat).any isAlphaNumeric = true)
      ↔ pre.getLast?.any isAlphaNumeric = true := by
    by_cases hp : pre = []
    · subst hp; simp
    · have hpos : 0 < pre.length := List.length_pos.mpr hp
      have : ((pre.length : Int) - 1).toNat = pre.length - 1 := by omega
      rw [this, get?_length_pred pre _ hp]
      constructor
      · exact fun h => h.2
      · exact fun h => ⟨by omega, h⟩
  unfold preprocessReplace
  simp only [Int.toNat_ofNat, hidx, hmi]
  by_cases hc : pre.getLast?.any isAlphaNumeric = true
  · rw [if_pos (hcond.mpr hc), if_pos hc]
    simp only [List.length_cons, Prod.mk.injEq, true_and]
    push_cast
    omega
  · rw [if_neg (fun h => hc (hcond.mp h)), if_neg hc]
    simp only [List.length_cons, Prod.mk.injEq]
    refine ⟨?_, by push_cast; omega⟩
    simp [stringsTrimPrefix, stringsHasPrefix]

/-- The scan of `preprocessExpressions` agrees with the specification at every position:
`pre` is the text already passed, `suf` the text ahead, `off` the value of `offset`. -/
theorem preprocess_scan_aux (expr : Str) :
    ∀ (suf pre : Str) (k off : Nat), expr = pre ++ suf →
      (k ≠ 0 → off = pre.length + k) →
      (k = 0 → off ≤ pre.length ∧
        ∀ q, off ≤ q → q < pre.length → dotFieldRegexp (expr.drop q) = none) →
      (regexpReplaceAllStringFunc dotFieldRegexp (preprocessReplace expr) suf k (off : Int)).1
        = rewriteDotFields pre.getLast? suf k := by
  intro suf
  induction suf with
  | nil => intro pre k off _ _ _; cases k <;> rfl
  | cons c cs ih =>
    intro pre k off he hk hz
    have he2 : expr = (pre ++ [c]) ++ cs := by simp [he]
    have hlast : (pre ++ [c]).getLast? = some c := by simp
    cases k with
    | succ k =>
      have hoff := hk (Nat.succ_ne_zero _)
      simp only [regexpReplaceAllStringFunc, rewriteDotFields]
      rw [ih (pre ++ [c]) k off he2 (fun _ => by simp; omega)
        (fun h0 => ⟨by simp; omega, fun q h1 h2 => by simp at h2; omega⟩), hlast]
    | zero =>
      obtain ⟨hle, hnone⟩ := hz rfl
      by_cases hm : c = '.' ∧ cs.takeWhile isWordChar ≠ []
      · obtain ⟨hc, hw⟩ := hm
        subst hc
        have hre : dotFieldRegexp ('.' :: cs) = some ((cs.takeWhile isWordChar).length + 1) := by
          rw [dotFieldRegexp_cons]; simp [hw]
        have htake : ('.' :: cs).take ((cs.takeWhile isWordChar).length + 1)
            = '.' :: cs.takeWhile isWordChar := by
          simp [take_length_takeWhile]
        have hrep := preprocessReplace_at pre cs off hle (by rw [← he]; exact hnone) hw
        rw [← he] at hrep
        simp only [regexpReplaceAllStringFunc, rewriteDotFields, hre, htake, hrep]
        rw [ih (pre ++ ['.']) (cs.takeWhile isWordChar).length
          (pre.length + 1 + (cs.takeWhile isWordChar).length) he2
          (fun _ => by rw [List.length_append]; rfl)
          (fun h0 => ⟨by rw [List.length_append, h0]; exact le_refl _,
            fun q h1 h2 => by rw [List.length_append, List.length_singleton] at h2; omega⟩), hlast]
        simp [hw]
      · have hre : dotFieldRegexp (c :: cs) = none := by
          rw [dotFieldRegexp_cons]; simp only [hm, if_false]
        simp only [regexpReplaceAllStringFunc, rewriteDotFields, hre, hm, if_false]
        rw [ih (pre ++ [c]) 0 off he2 (fun h => absurd rfl h) (fun _ => ⟨by simp; omega, ?_⟩), hlast]
        intro q h1 h2
        by_cases hq : q < pre.length
        · exact hnone q h1 hq
        · have hq2 : q = pre.length := by simp at h2; omega
          rw [hq2, he, List.drop_left]
          exact hre

theorem preprocessExpressions_eq_rewrite (expr : Str) (h : bareStringRegexp expr = false) :
    preprocessExpressions expr = rewriteDotFields none expr 0 := by
  unfold preprocessExpressions
  rw [h]
  simp only [Bool.false_eq_true, if_false]
  exact preprocess_scan_aux expr expr [] 0 0 rfl (fun h => absurd rfl h)
    (fun _ => ⟨le_refl _, fun q _ h2 => by simp at h2⟩)

theorem bareStringRegexp_iff (e : Str) : bareStringRegexp e = true ↔ IsIdentifier e := by
  cases e with
  | nil => simp [bareStringRegexp, IsIdentifier]
  | cons c cs =>
    simp only [bareStringRegexp, IsIdentifier, Bool.and_eq_true, Bool.or_eq_true,
      decide_eq_true_eq, beq_iff_eq, List.all_eq_true, List.cons.injEq]
    constructor
    · intro h
      exact ⟨c, cs, ⟨rfl, rfl⟩, by tauto, fun x hx => by have := h.2 x hx; tauto⟩
    · rintro ⟨c2, cs2, ⟨h1, h2⟩, h3, h4⟩
      subst h1 h2
      exact ⟨by tauto, fun x hx => by have := h4 x hx; tauto⟩

theorem IsIdentifier_word (c : Str) (h : IsIdentifier c) :
    c ≠ [] ∧ c.takeWhile isWordChar = c := by
  obtain ⟨a, as, he, ha, has⟩ := h
  subst he
  refine ⟨by simp, ?_⟩
  rw [List.takeWhile_eq_self_iff]
  intro x hx
  simp only [isWordChar, Bool.or_eq_true, Bool.and_eq_true, decide_eq_true_eq, beq_iff_eq]
  rcases List.mem_cons.mp hx with hx | hx
  · subst hx; tauto
  · have := has x hx; tauto

theorem rewriteDotFields_passed (s : Str) :
    ∀ (prev : Option Char) (k : Nat), s.length ≤ k → rewriteDotFields prev s k = [] := by
  induction s with
  | nil => intro prev k _; cases k <;> rfl
  | cons c cs ih =>
    intro prev k hk
    cases k with
    | zero => simp at hk
    | succ k => simp only [rewriteDotFields]; exact ih _ k (by simpa using hk)

theorem preprocessExpressions_dot (c : Str) (hc : IsIdentifier c) :
    preprocessExpressions ('.' :: c) = colsAccess c := by
  obtain ⟨hne, htw⟩ := IsIdentifier_word c hc
  rw [preprocessExpressions_eq_rewrite _ (by simp [bareStringRegexp])]
  simp [rewriteDotFields, htw, hne, rewriteDotFields_passed]

theorem preprocessExpressions_user (c : Str) (hc : IsIdentifier c) :
    preprocessExpressions ("user.".toList ++ c) = "user.".toList ++ c := by
  obtain ⟨hne, htw⟩ := IsIdentifier_word c hc
  rw [preprocessExpressions_eq_rewrite _ (by simp [bareStringRegexp])]
  simp [rewriteDotFields, htw, hne, rewriteDotFields_passed, isAlphaNumeric]

/-- C4: on an expression that is not a bare identifier, `preprocessExpressions` rewrites
each dot followed by word characters into `cols['...']` when the character before it is not
a letter, digit or underscore (or there is none), keeps it when it is, and keeps all other
text (this is `rewriteDotFields`); for an identifier `c`, `.c` becomes `cols['c']` and
`user.c` stays `user.c`. -/
theorem preprocessExpressions_dot_fields (expr c : Str) (hexpr : ¬ IsIdentifier expr)
    (hc : IsIdentifier c) :
    preprocessExpressions expr = rewriteDotFields none expr 0 ∧
    preprocessExpressions ('.' :: c) = colsAccess c ∧
    preprocessExpressions ("user.".toList ++ c) = "user.".toList ++ c := by
  refine ⟨preprocessExpressions_eq_rewrite expr ?_, preprocessExpressions_dot c hc,
    preprocessExpressions_user c hc⟩
  cases h : bareStringRegexp expr with
  | false => rfl
  | true => exact absurd ((bareStringRegexp_iff expr).mp h) hexpr

theorem preprocessExpressions_dot_fields_witness :
    preprocessExpressions "user.role == .role_name && state == ok".toList
      = "user.role == cols['role_name'] && state == ok".toList ∧
    preprocessExpressions ".role_name".toList = "cols['role_name']".toList ∧
    preprocessExpressions "user.role_name".toList = "user.role_name".toList := by
  have h := preprocessExpressions_dot_fields
    "user.role == .role_name && state == ok".toList "role_name".toList
    (fun hid => by
      have := (bareStringRegexp_iff _).mpr hid
      revert this
      decide)
    ⟨'r', "ole_name".toList, rfl, by decide, by decide⟩
  refine ⟨h.1.trans (by decide), h.2.1.trans (by decide), h.2.2⟩

/-- C5: a bare identifier other than `true` and `false` is wrapped in double quotes, and
`true` and `false` are returned unchanged. -/
theorem preprocessExpressions_bare (e : Str) (h : IsIdentifier e) :
    (e ≠ "true".toList → e ≠ "false".toList → preprocessExpressions e = ['"'] ++ e ++ ['"']) ∧
    (e = "true".toList ∨ e = "false".toList → preprocessExpressions e = e) := by
  have hb := (bareStringRegexp_iff e).mpr h
  constructor
  · intro h1 h2
    unfold preprocessExpressions
    rw [if_pos hb, if_neg (fun h0 => h0.elim h1 h2)]
  · intro h1
    unfold preprocessExpressions
    rw [if_pos hb, if_pos h1]

theorem preprocessExpressions_bare_witness :
    preprocessExpressions "status_code".toList = "\"status_code\"".toList ∧
    preprocessExpressions "true".toList = "true".toList := by
  refine ⟨?_, ?_⟩
  · exact (preprocessExpressions_bare "status_code".toList
      ⟨'s', "tatus_code".toList, rfl, by decide, by decide⟩).1 (by decide) (by decide)
  · exact (preprocessExpressions_bare "true".toList
      ⟨'t', "rue".toList, rfl, by decide, by decide⟩).2 (Or.inl rfl)

/-! ### `parseQueryOpts` -/

theorem regexpReplaceAllStringFunc_eq_pieces {σ : Type} (re : Str → Option Nat)
    (repl : σ → Str → Str × σ) (s : Str) :
    ∀ (k : Nat) (st : σ),
      regexpReplaceAllStringFunc re repl s k st = applyPieces repl (regexpPieces re s k) st := by
  induction s with
  | nil => intro k st; cases k <;> rfl
  | cons c cs ih =>
    intro k st
    cases k with
    | succ k => simp only [regexpReplaceAllStringFunc, regexpPieces]; exact ih k st
    | zero =>
      simp only [regexpReplaceAllStringFunc, regexpPieces]
      cases h : re (c :: cs) with
      | none => simp only [applyPieces, ih]
      | some m =>
        cases m with
        | zero => simp only [applyPieces, ih]
        | succ n => simp only [applyPieces, ih]

theorem strconvItoa_natCast (n : Nat) : strconvItoa (n : Int) = Nat.toDigits 10 n := by
  unfold strconvItoa
  have h : ¬ ((n : Int) < 0) := by omega
  simp [h]

theorem getNextPlaceholder_eq (d : DbEngine) (qArgs : List Value) (v : Value) :
    getNextPlaceholder d (qArgs ++ [v]) = dialectPlaceholder d (qArgs.length + 1) := by
  cases d <;>
    simp only [getNextPlaceholder, dialectPlaceholder, List.length_append, List.length_singleton,
      ← Nat.cast_succ, strconvItoa_natCast] <;> rfl

/-- One step of the callback on a placeholder that resolves. -/
theorem parseQueryOptsReplace_resolved (caseTable : Char → Char) (d : DbEngine)
    (pCtx : Option paginationContext) (vars : Str → Option Value) (st : ParseState) (t : Str)
    (s : Substitution) (hp : st.panicked = false)
    (h : resolvePiece caseTable pCtx vars (.tok t) = some s) :
    (∃ v, s = .arg v ∧
      (parseQueryOptsReplace caseTable d pCtx vars st t).1
        = dialectPlaceholder d (st.qArgs.length + 1) ∧
      (parseQueryOptsReplace caseTable d pCtx vars st t).2.qArgs = st.qArgs ++ [v] ∧
      (parseQueryOptsReplace caseTable d pCtx vars st t).2.parseErr = st.parseErr ∧
      (parseQueryOptsReplace caseTable d pCtx vars st t).2.panicked = false) ∨
    (∃ v, s = .text v ∧
      (parseQueryOptsReplace caseTable d pCtx vars st t).1 = fmtV v ∧
      (parseQueryOptsReplace caseTable d pCtx vars st t).2.qArgs = st.qArgs ∧
      (parseQueryOptsReplace caseTable d pCtx vars st t).2.parseErr = st.parseErr ∧
      (parseQueryOptsReplace caseTable d pCtx vars st t).2.panicked = false) := by
  simp only [resolvePiece] at h
  unfold parseQueryOptsReplace
  rw [hp]
  simp only [Bool.false_eq_true, if_false]
  cases hpt : parseToken caseTable t with
  | error e => rw [hpt] at h; simp at h
  | ok opts =>
    rw [hpt] at h
    simp only [Option.map_eq_some'] at h ⊢
    obtain ⟨v, hv, hs⟩ := h
    have key : ∀ (val : Value) (st2 : ParseState),
        (if opts.Unquoted = true then Substitution.text val else Substitution.arg val) = s →
        st2.qArgs = st.qArgs → st2.parseErr = st.parseErr → st2.panicked = false →
        (∃ v, s = .arg v ∧
          (substituteValue d opts val st2).1 = dialectPlaceholder d (st.qArgs.length + 1) ∧
          (substituteValue d opts val st2).2.qArgs = st.qArgs ++ [v] ∧
          (substituteValue d opts val st2).2.parseErr = st.parseErr ∧
          (substituteValue d opts val st2).2.panicked = false) ∨
        (∃ v, s = .text v ∧
          (substituteValue d opts val st2).1 = fmtV v ∧
          (substituteValue d opts val st2).2.qArgs = st.qArgs ∧
          (substituteValue d opts val st2).2.parseErr = st.parseErr ∧
          (substituteValue d opts val st2).2.panicked = false) := by
      intro val st2 hs h1 h2 h3
      unfold substituteValue
      cases hu : opts.Unquoted with
      | true =>
        right
        rw [hu] at hs
        exact ⟨val, by simpa using hs.symm, by simp, by simpa using h1, by simpa using h2,
          by simpa using h3⟩
      | false =>
        left
        rw [hu] at hs
        refine ⟨val, by simpa using hs.symm, ?_, ?_, ?_, ?_⟩
        · simp only [Bool.false_eq_true, if_false]
          rw [h1, getNextPlaceholder_eq]
        · simp [h1]
        · simpa using h2
        · simpa using h3
    unfold tokenValue at hv
    by_cases hl : opts.Key = limitKey
    · simp only [hl, if_true] at hv ⊢
      cases pCtx with
      | none => simp at hv
      | some p =>
        simp only [Option.map_some', Option.some.injEq] at hv
        subst hv
        exact key _ _ hs rfl rfl rfl
    · by_cases ho : opts.Key = offsetKey
      · have hne : ¬ (offsetKey = limitKey) := by decide
        simp only [ho, hne, if_true, if_false] at hv ⊢
        cases pCtx with
        | none => simp at hv
        | some p =>
          simp only [Option.map_some', Option.some.injEq] at hv
          subst hv
          exact key _ _ hs rfl rfl rfl
      · by_cases hc : opts.Key = cursorKey
        · have hne : ¬ (cursorKey = limitKey) := by decide
          have hne2 : ¬ (cursorKey = offsetKey) := by decide
          simp only [hc, hne, hne2, if_true, if_false] at hv ⊢
          cases pCtx with
          | none => simp at hv
          | some p =>
            simp only [Option.map_some', Option.some.injEq] at hv
            subst hv
            exact key _ _ hs rfl rfl rfl
        · simp only [hl, ho, hc, if_false] at hv ⊢
          rw [hv]
          exact key _ st hs rfl rfl hp

theorem resolvePieces_cons (caseTable : Char → Char) (pCtx : Option paginationContext)
    (vars : Str → Option Value) (p : Piece) (ps : List Piece) (subs : List Substitution)
    (h : resolvePieces caseTable pCtx vars (p :: ps) = some subs) :
    ∃ s ss, subs = s :: ss ∧ resolvePiece caseTable pCtx vars p = some s ∧
      resolvePieces caseTable pCtx vars ps = some ss := by
  simp only [resolvePieces] at h
  cases h1 : resolvePiece caseTable pCtx vars p with
  | none => rw [h1] at h; simp at h
  | some s =>
    cases h2 : resolvePieces caseTable pCtx vars ps with
    | none => rw [h1, h2] at h; simp at h
    | some ss =>
      rw [h1, h2] at h
      simp only [Option.some.injEq] at h
      exact ⟨s, ss, h.symm, rfl, rfl⟩

/-- The callback applied to pieces that all resolve: the text, the arguments and the error
state after them. -/
theorem applyPieces_resolved (caseTable : Char → Char) (d : DbEngine)
    (pCtx : Option paginationContext) (vars : Str → Option Value) (ps : List Piece) :
    ∀ (subs : List Substitution) (st : ParseState), st.panicked = false →
      resolvePieces caseTable pCtx vars ps = some subs →
      (applyPieces (parseQueryOptsReplace caseTable d pCtx vars) ps st).1
        = emitSubstitutions d subs st.qArgs.length ∧
      (applyPieces (parseQueryOptsReplace caseTable d pCtx vars) ps st).2.qArgs
        = st.qArgs ++ substitutedArgs subs ∧
      (applyPieces (parseQueryOptsReplace caseTable d pCtx vars) ps st).2.parseErr
        = st.parseErr ∧
      (applyPieces (parseQueryOptsReplace caseTable d pCtx vars) ps st).2.panicked = false := by
  induction ps with
  | nil =>
    intro subs st hp h
    simp only [resolvePieces, Option.some.injEq] at h
    subst h
    simp [applyPieces, emitSubstitutions, substitutedArgs, hp]
  | cons p ps ih =>
    intro subs st hp h
    obtain ⟨s, ss, hsub, h1, h2⟩ := resolvePieces_cons caseTable pCtx vars p ps subs h
    subst hsub
    cases p with
    | lit c =>
      simp only [resolvePiece, Option.some.injEq] at h1
      subst h1
      obtain ⟨i1, i2, i3, i4⟩ := ih ss st hp h2
      simp only [applyPieces, emitSubstitutions, substitutedArgs]
      exact ⟨by rw [i1], i2, i3, i4⟩
    | tok t =>
      rcases parseQueryOptsReplace_resolved caseTable d pCtx vars st t s hp h1 with
        ⟨v, hs, e1, e2, e3, e4⟩ | ⟨v, hs, e1, e2, e3, e4⟩
      · subst hs
        obtain ⟨i1, i2, i3, i4⟩ := ih ss _ e4 h2
        simp only [applyPieces, emitSubstitutions, substitutedArgs]
        refine ⟨?_, ?_, ?_, i4⟩
        · rw [e1, i1, e2]; simp
        · rw [i2, e2]; simp
        · rw [i3, e3]
      · subst hs
        obtain ⟨i1, i2, i3, i4⟩ := ih ss _ e4 h2
        simp only [applyPieces, emitSubstitutions, substitutedArgs]
        refine ⟨?_, ?_, ?_, i4⟩
        · rw [e1, i1, e2]
        · rw [i2, e2]
        · rw [i3, e3]

theorem emittedPlaceholders_eq (subs : List Substitution) :
    emittedPlaceholders subs = (substitutedArgs subs).length := by
  induction subs with
  | nil => rfl
  | cons s ss ih => cases s <;> simp [emittedPlaceholders, substitutedArgs, ih]

/-- C1: when every placeholder of the query resolves, `parseQueryOpts` returns without
error the text in which the i-th non-unquoted placeholder is replaced by the i-th placeholder
of the dialect (`?` for MySQL and SQLite, `$i` for PostgreSQL, `@pi` for SQL Server, `:i` for
Oracle) and every unquoted one by the text of its value, and the arguments are the values of
the non-unquoted placeholders from left to right, as many as placeholders were emitted. -/
theorem parseQueryOpts_placeholders (caseTable : Char → Char) (d : DbEngine)
    (pCtx : Option paginationContext) (vars : Str → Option Value) (query : Str)
    (subs : List Substitution)
    (h : resolvePieces caseTable pCtx vars (regexpPieces queryOptRegex query 0) = some subs) :
    (∃ used, parseQueryOpts caseTable d pCtx query vars
      = .returns { query := emitSubstitutions d subs 0, args := substitutedArgs subs,
                   paginationUsed := used, err := none }) ∧
    emittedPlaceholders subs = (substitutedArgs subs).length ∧
    dialectPlaceholder .MySQL = (fun _ => "?".toList) ∧
    dialectPlaceholder .SQLite = (fun _ => "?".toList) ∧
    (∀ i, dialectPlaceholder .PostgreSQL i = "$".toList ++ Nat.toDigits 10 i) ∧
    (∀ i, dialectPlaceholder .MSSQL i = "@p".toList ++ Nat.toDigits 10 i) ∧
    (∀ i, dialectPlaceholder .Oracle i = ":".toList ++ Nat.toDigits 10 i) := by
  refine ⟨?_, emittedPlaceholders_eq subs, rfl, rfl, fun _ => rfl, fun _ => rfl, fun _ => rfl⟩
  obtain ⟨e1, e2, e3, e4⟩ := applyPieces_resolved caseTable d pCtx vars _ subs
    { qArgs := [], parseErr := [], paginationOptSet := false, panicked := false } rfl h
  unfold parseQueryOpts
  simp only [regexpReplaceAllStringFunc_eq_pieces]
  rw [e4]
  simp only [Bool.false_eq_true, if_false, e3, ne_eq, not_true_eq_false, e1, e2, List.nil_append,
    List.length_nil]
  exact ⟨_, rfl⟩

theorem parseQueryOpts_placeholders_witness :
    ∃ used, parseQueryOpts id .PostgreSQL
      (some { Strategy := offsetKey, Limit := 10, Offset := 123, Cursor := [], PrimaryKey := [] })
      "FROM ?<t|unquoted> WHERE a = ?<foo> LIMIT ?<LIMIT>".toList
      (fun k => if k = "t".toList then some (.str "users".toList)
        else if k = "foo".toList then some (.int 42) else none)
      = .returns { query := "FROM users WHERE a = $1 LIMIT $2".toList,
                   args := [.int 42, .int64 11], paginationUsed := used, err := none } := by
  have h := parseQueryOpts_placeholders id .PostgreSQL
    (some { Strategy := offsetKey, Limit := 10, Offset := 123, Cursor := [], PrimaryKey := [] })
    (fun k => if k = "t".toList then some (.str "users".toList)
      else if k = "foo".toList then some (.int 42) else none)
    "FROM ?<t|unquoted> WHERE a = ?<foo> LIMIT ?<LIMIT>".toList
    ("FROM ".toList.map Substitution.lit ++ [Substitution.text (.str "users".toList)]
      ++ " WHERE a = ".toList.map Substitution.lit ++ [Substitution.arg (.int 42)]
      ++ " LIMIT ".toList.map Substitution.lit ++ [Substitution.arg (.int64 11)])
    (by rfl)
  obtain ⟨used, hu⟩ := h.1
  exact ⟨used, hu.trans (by rfl)⟩

theorem wrapInt64_of_range (x : Int) (h : -(2 : Int) ^ 63 ≤ x ∧ x < (2 : Int) ^ 63) :
    wrapInt64 x = x := by
  unfold wrapInt64
  norm_num at h ⊢
  omega

/-- C9: for a placeholder whose key is `limit`, the callback of `parseQueryOpts` substitutes
the limit of the pagination context plus one, as the interpolated text when the placeholder
is unquoted and as the appended argument otherwise; and the template of the specification
with limit 10 and offset 123 on PostgreSQL gives `$1`, `$2` with arguments 11 and 123. -/
theorem parseQueryOpts_limit_lookahead (caseTable : Char → Char) (d : DbEngine)
    (p : paginationContext) (vars : Str → Option Value) (st : ParseState) (token : Str)
    (opts : queryTokenOpts)
    (hL : -(2 : Int) ^ 63 ≤ p.Limit ∧ p.Limit < (2 : Int) ^ 63 - 1)
    (hst : st.panicked = false)
    (htok : parseToken caseTable token = .ok opts) (hkey : opts.Key = limitKey) :
    parseQueryOptsReplace caseTable d (some p) vars st token
      = (if opts.Unquoted then (strconvItoa (p.Limit + 1), { st with paginationOptSet := true })
         else (getNextPlaceholder d (st.qArgs ++ [.int64 (p.Limit + 1)]),
               { st with qArgs := st.qArgs ++ [.int64 (p.Limit + 1)],
                         paginationOptSet := true })) ∧
    parseQueryOpts caseTable .PostgreSQL (some { p with Limit := 10, Offset := 123 })
        "SELECT * FROM table LIMIT ?<LIMIT> OFFSET ?<OFFSET>".toList vars
      = .returns { query := "SELECT * FROM table LIMIT $1 OFFSET $2".toList,
                   args := [.int64 11, .int64 123], paginationUsed := true, err := none } := by
  refine ⟨?_, by with_unfolding_all rfl⟩
  have hw : wrapInt64 (p.Limit + 1) = p.Limit + 1 :=
    wrapInt64_of_range _ ⟨by omega, by omega⟩
  unfold parseQueryOptsReplace
  rw [hst, htok]
  simp only [Bool.false_eq_true, if_false, hkey, if_true, hw, substituteValue]
  cases opts.Unquoted <;> simp [fmtV]

theorem parseQueryOpts_limit_lookahead_witness :
    parseQueryOptsReplace id .MySQL
      (some { Strategy := offsetKey, Limit := 10, Offset := 0, Cursor := [], PrimaryKey := [] })
      (fun _ => none)
      { qArgs := [], parseErr := [], paginationOptSet := false, panicked := false }
      "?<limit|unquoted>".toList
      = ("11".toList,
         { qArgs := [], parseErr := [], paginationOptSet := true, panicked := false }) :=
  (parseQueryOpts_limit_lookahead id .MySQL
    { Strategy := offsetKey, Limit := 10, Offset := 0, Cursor := [], PrimaryKey := [] }
    (fun _ => none)
    { qArgs := [], parseErr := [], paginationOptSet := false, panicked := false }
    "?<limit|unquoted>".toList { Key := limitKey, Unquoted := true }
    (by decide) rfl (by rfl) rfl).1.trans (by rfl)

theorem parseTokenOptions_key (caseTable : Char → Char) (os : List Str) :
    ∀ (opts r : queryTokenOpts), parseTokenOptions caseTable os opts = .ok r →
      r.Key = opts.Key := by
  induction os with
  | nil =>
    intro opts r h
    simp only [parseTokenOptions, Except.ok.injEq] at h
    rw [← h]
  | cons o os ih =>
    intro opts r h
    simp only [parseTokenOptions] at h
    split at h
    · exact ih { Key := opts.Key, Unquoted := true } r h
    · simp at h

theorem parseToken_key (caseTable : Char → Char) (t : Str) (opts : queryTokenOpts)
    (h : parseToken caseTable t = .ok opts) :
    ∃ k o, queryOptRegexFindStringSubmatch t = some (k, o) ∧
      opts.Key = stringsToLower caseTable k := by
  unfold parseToken at h
  cases hf : queryOptRegexFindStringSubmatch t with
  | none => rw [hf] at h; simp at h
  | some m =>
    obtain ⟨k, o⟩ := m
    rw [hf] at h
    refine ⟨k, o, rfl, ?_⟩
    simp only at h
    split at h
    · simp only [Except.ok.injEq] at h
      rw [← h]
    · exact parseTokenOptions_key caseTable _ _ _ h

theorem isPaginationPlaceholder_of_parseToken (caseTable : Char → Char) (t : Str)
    (opts : queryTokenOpts) (h : parseToken caseTable t = .ok opts) :
    isPaginationPlaceholder caseTable t
      = decide (opts.Key = limitKey ∨ opts.Key = offsetKey ∨ opts.Key = cursorKey) := by
  obtain ⟨k, o, hf, hk⟩ := parseToken_key caseTable t opts h
  unfold isPaginationPlaceholder
  rw [hf, hk]

theorem substituteValue_parseErr (d : DbEngine) (opts : queryTokenOpts) (v : Value)
    (st : ParseState) : (substituteValue d opts v st).2.parseErr = st.parseErr := by
  unfold substituteValue
  cases opts.Unquoted <;> simp

theorem substituteValue_panicked (d : DbEngine) (opts : queryTokenOpts) (v : Value)
    (st : ParseState) : (substituteValue d opts v st).2.panicked = st.panicked := by
  unfold substituteValue
  cases opts.Unquoted <;> simp

theorem substituteValue_paginationOptSet (d : DbEngine) (opts : queryTokenOpts) (v : Value)
    (st : ParseState) :
    (substituteValue d opts v st).2.paginationOptSet = st.paginationOptSet := by
  unfold substituteValue
  cases opts.Unquoted <;> simp

/-- One step of the callback: a panic and a recorded error are kept, and a step that leaves
neither sets the pagination flag exactly on a pagination placeholder. -/
theorem parseQueryOptsReplace_flag (caseTable : Char → Char) (d : DbEngine)
    (pCtx : Option paginationContext) (vars : Str → Option Value) (st : ParseState) (t : Str) :
    ((parseQueryOptsReplace caseTable d pCtx vars st t).2.panicked = false →
      st.panicked = false) ∧
    ((parseQueryOptsReplace caseTable d pCtx vars st t).2.parseErr = [] → st.parseErr = []) ∧
    ((parseQueryOptsReplace caseTable d pCtx vars st t).2.panicked = false →
      (parseQueryOptsReplace caseTable d pCtx vars st t).2.parseErr = [] →
      (parseQueryOptsReplace caseTable d pCtx vars st t).2.paginationOptSet
        = (st.paginationOptSet || isPaginationPlaceholder caseTable t)) := by
  unfold parseQueryOptsReplace
  cases hp : st.panicked with
  | true => simp [hp]
  | false =>
    simp only [Bool.false_eq_true, if_false, true_implies]
    cases hpt : parseToken caseTable t with
    | error e => simp
    | ok opts =>
      have hpag := isPaginationPlaceholder_of_parseToken caseTable t opts hpt
      simp only
      by_cases hl : opts.Key = limitKey
      · simp only [hl, if_true]
        cases pCtx with
        | none => simp
        | some p =>
          simp only [substituteValue_parseErr, substituteValue_panicked,
            substituteValue_paginationOptSet, hp, hpag, hl]
          simp
      · by_cases ho : opts.Key = offsetKey
        · have hne : ¬ (offsetKey = limitKey) := by decide
          simp only [ho, hne, if_true, if_false]
          cases pCtx with
          | none => simp
          | some p =>
            simp only [substituteValue_parseErr, substituteValue_panicked,
            substituteValue_paginationOptSet, hp, hpag, ho]
            simp
        · by_cases hc : opts.Key = cursorKey
          · have hne : ¬ (cursorKey = limitKey) := by decide
            have hne2 : ¬ (cursorKey = offsetKey) := by decide
            simp only [hc, hne, hne2, if_true, if_false]
            cases pCtx with
            | none => simp
            | some p =>
              simp only [substituteValue_parseErr, substituteValue_panicked,
            substituteValue_paginationOptSet, hp, hpag, hc]
              simp
          · simp only [hl, ho, hc, if_false]
            cases hv : vars opts.Key with
            | none => simp
            | some v =>
              simp only [substituteValue_parseErr, substituteValue_panicked,
            substituteValue_paginationOptSet, hp, hpag, hl, ho, hc]
              simp

/-- The pagination placeholders among the pieces. -/
theorem applyPieces_flag (caseTable : Char → Char) (d : DbEngine)
    (pCtx : Option paginationContext) (vars : Str → Option Value) (ps : List Piece) :
    ∀ (st : ParseState),
      (applyPieces (parseQueryOptsReplace caseTable d pCtx vars) ps st).2.panicked = false →
      (applyPieces (parseQueryOptsReplace caseTable d pCtx vars) ps st).2.parseErr = [] →
      st.panicked = false ∧ st.parseErr = [] ∧
      (applyPieces (parseQueryOptsReplace caseTable d pCtx vars) ps st).2.paginationOptSet
        = (st.paginationOptSet || ps.any (fun p =>
            match p with
            | .tok t => isPaginationPlaceholder caseTable t
            | .lit _ => false)) := by
  induction ps with
  | nil => intro st h1 h2; exact ⟨h1, h2, by simp [applyPieces]⟩
  | cons p ps ih =>
    intro st h1 h2
    cases p with
    | lit c =>
      simp only [applyPieces] at h1 h2 ⊢
      obtain ⟨i1, i2, i3⟩ := ih st h1 h2
      exact ⟨i1, i2, by simp [i3]⟩
    | tok t =>
      simp only [applyPieces] at h1 h2 ⊢
      obtain ⟨i1, i2, i3⟩ := ih _ h1 h2
      obtain ⟨f1, f2, f3⟩ := parseQueryOptsReplace_flag caseTable d pCtx vars st t
      refine ⟨f1 i1, f2 i2, ?_⟩
      rw [i3, f3 i1 i2]
      simp [Bool.or_assoc]

theorem any_tok_iff_placeholders (f : Str → Bool) (ps : List Piece) :
    ps.any (fun p =>
        match p with
        | .tok t => f t
        | .lit _ => false) = true ↔
      ∃ t ∈ ps.filterMap (fun p =>
        match p with
        | .tok t => some t
        | .lit _ => none), f t = true := by
  induction ps with
  | nil => simp
  | cons p ps ih =>
    cases p with
    | lit c => simpa using ih
    | tok t =>
      simp only [List.any_cons, Bool.or_eq_true, ih, List.filterMap_cons, List.mem_cons,
        exists_eq_or_imp]

theorem parseQueryOpts_flag (caseTable : Char → Char) (d : DbEngine)
    (pCtx : Option paginationContext) (query : Str) (vars : Str → Option Value)
    (r : ParseResult) (h : parseQueryOpts caseTable d pCtx query vars = .returns r)
    (herr : r.err = none) :
    (r.paginationUsed = true ↔
      ∃ t ∈ placeholders query, isPaginationPlaceholder caseTable t = true) := by
  unfold parseQueryOpts at h
  simp only [regexpReplaceAllStringFunc_eq_pieces] at h
  split at h
  · simp at h
  · next hp =>
    split at h
    · simp only [GoResult.returns.injEq] at h
      rw [← h] at herr
      simp at herr
    · next he =>
      simp only [GoResult.returns.injEq] at h
      obtain ⟨_, _, i3⟩ := applyPieces_flag caseTable d pCtx vars _ _
        (by simpa using hp) (by simpa using he)
      rw [← h]
      simp only [i3, Bool.false_or]
      exact any_tok_iff_placeholders _ _

theorem setupPagination_none_iff (pToken : Option PageToken) (pOpts : Option Pagination)
    (ctx : Option paginationContext)
    (h : setupPagination pToken pOpts = .returns (ctx, none)) : ctx = none ↔ pOpts = none := by
  unfold setupPagination at h
  cases pOpts with
  | none => simp only [GoResult.returns.injEq, Prod.mk.injEq] at h; simp [← h.1]
  | some o =>
    cases pToken with
    | none => simp at h
    | some t =>
      simp only at h
      constructor
      · intro hc
        subst hc
        split at h
        · split at h
          · split at h <;> simp at h
          · simp at h
        · split at h <;> simp at h
      · intro hc; simp at hc

/-- C10: when `parseQueryOpts` succeeds, `paginationUsed` is true exactly when the query has
a placeholder whose key, compared without case, is `limit`, `offset` or `cursor` (unquoted or
not); and when `prepareQuery` succeeds, the pagination context it returns is nil exactly when
no pagination is configured or `paginationUsed` is false. -/
theorem parseQueryOpts_paginationUsed (caseTable : Char → Char) (d : DbEngine)
    (pCtx : Option paginationContext) (query : Str) (vars : Str → Option Value)
    (r : ParseResult) (pToken : Option PageToken) (pOpts : Option Pagination)
    (prep : PreparedQuery)
    (h : parseQueryOpts caseTable d pCtx query vars = .returns r) (herr : r.err = none)
    (hprep : prepareQuery caseTable d pToken query pOpts vars = .returns prep)
    (hperr : prep.err = none) :
    (r.paginationUsed = true ↔
      ∃ t ∈ placeholders query, isPaginationPlaceholder caseTable t = true) ∧
    (∃ ctx r2, setupPagination pToken pOpts = .returns (ctx, none) ∧
      parseQueryOpts caseTable d ctx query vars = .returns r2 ∧ r2.err = none ∧
      (prep.pCtx = none ↔ (pOpts = none ∨ r2.paginationUsed = false))) := by
  refine ⟨parseQueryOpts_flag caseTable d pCtx query vars r h herr, ?_⟩
  unfold prepareQuery at hprep
  cases hs : setupPagination pToken pOpts with
  | panics => rw [hs] at hprep; simp at hprep
  | returns res =>
    obtain ⟨ctx, serr⟩ := res
    rw [hs] at hprep
    cases serr with
    | some e =>
      simp only [GoResult.returns.injEq] at hprep
      rw [← hprep] at hperr
      simp at hperr
    | none =>
      simp only at hprep
      cases hq : parseQueryOpts caseTable d ctx query vars with
      | panics => rw [hq] at hprep; simp at hprep
      | returns r2 =>
        rw [hq] at hprep
        simp only at hprep
        cases he : r2.err with
        | some e =>
          rw [he] at hprep
          simp only [GoResult.returns.injEq] at hprep
          rw [← hprep] at hperr
          simp at hperr
        | none =>
          rw [he] at hprep
          simp only [GoResult.returns.injEq] at hprep
          refine ⟨ctx, r2, rfl, hq, he, ?_⟩
          have hn := setupPagination_none_iff pToken pOpts ctx hs
          rw [← hprep]
          simp only
          cases hu : r2.paginationUsed with
          | true => simp [hn]
          | false => simp

theorem parseQueryOpts_paginationUsed_witness :
    ∃ t ∈ placeholders "LIMIT ?<Limit|unquoted>".toList,
      isPaginationPlaceholder id t = true :=
  (parseQueryOpts_paginationUsed id .MySQL
    (some { Strategy := offsetKey, Limit := 10, Offset := 0, Cursor := [],
            PrimaryKey := "id".toList })
    "LIMIT ?<Limit|unquoted>".toList (fun _ => none)
    { query := "LIMIT 11".toList, args := [], paginationUsed := true, err := none }
    (some { Size := 10, Token := [] })
    (some { Strategy := offsetKey, PrimaryKey := "id".toList })
    { query := "LIMIT 11".toList, args := [],
      pCtx := some { Strategy := offsetKey, Limit := 10, Offset := 0, Cursor := [],
                     PrimaryKey := "id".toList }, err := none }
    (by rfl) rfl (by rfl) rfl).1.mp rfl

/-! ### `runProvisioningQueries` -/

theorem DbCall.not_reports_of_succeeded (c : DbCall) (h : c.succeeded = true) :
    c.reportsMoreThanOne = false ∧ c.isExec = true ∧ c.isCommit = false ∧
      c.isRollback = false := by
  cases c with
  | exec q a o =>
    cases o with
    | error e => simp [DbCall.succeeded] at h
    | ok n =>
      simp only [DbCall.succeeded, decide_eq_true_eq] at h
      simp only [DbCall.reportsMoreThanOne, DbCall.isExec, DbCall.isCommit, DbCall.isRollback,
        decide_eq_false_iff_not, and_true]
      omega
  | beginTx => simp [DbCall.succeeded] at h
  | commit => simp [DbCall.succeeded] at h
  | rollback => simp [DbCall.succeeded] at h

/-- The loop over the queries: the calls it adds are `ExecContext` calls; either every query
succeeded, or it stopped before a query (templating error), or its last call is the first
one that did not succeed. -/
theorem provisioningLoop_calls (caseTable : Char → Char) (d : DbEngine)
    (driver : ProvisioningDriver) (vars : Str → Option Value) (qs : List Str) :
    ∀ (n : Nat) (calls : List DbCall), ∃ new,
      (provisioningLoop caseTable d driver vars qs n calls).1 = calls ++ new ∧
      (((provisioningLoop caseTable d driver vars qs n calls).2 = none ∧
          (∀ c ∈ new, c.succeeded = true) ∧ new.length = qs.length) ∨
       ((∃ e, (provisioningLoop caseTable d driver vars qs n calls).2 = some e) ∧
          (∀ c ∈ new, c.succeeded = true) ∧ new.length < qs.length) ∨
       (∃ good c, new = good ++ [c] ∧ (∀ x ∈ good, x.succeeded = true) ∧
          c.isExec = true ∧ c.succeeded = false ∧
          ((c.reportsMoreThanOne = true ∧
              (provisioningLoop caseTable d driver vars qs n calls).2 = some .moreThanOneRow) ∨
           (c.reportsMoreThanOne = false ∧
              ∃ e, (provisioningLoop caseTable d driver vars qs n calls).2 = some e)))) := by
  induction qs with
  | nil =>
    intro n calls
    exact ⟨[], by simp [provisioningLoop], Or.inl ⟨rfl, by simp, rfl⟩⟩
  | cons q qs ih =>
    intro n calls
    simp only [provisioningLoop]
    cases hp : (prepareProvisioningQuery caseTable d q vars).2.2 with
    | some e =>
      exact ⟨[], by simp, Or.inr (Or.inl ⟨⟨e, rfl⟩, by simp, by simp⟩)⟩
    | none =>
      simp only
      cases ho : driver.exec n (prepareProvisioningQuery caseTable d q vars).1
          (prepareProvisioningQuery caseTable d q vars).2.1 with
      | error e =>
        refine ⟨[.exec _ _ (.error e)], rfl, Or.inr (Or.inr ⟨[], _, rfl, by simp, rfl, rfl,
          Or.inr ⟨rfl, ?_⟩⟩)⟩
        exact ⟨e, rfl⟩
      | ok rows =>
        simp only
        by_cases hr : rows > 1
        · simp only [hr, if_true]
          refine ⟨[.exec _ _ (.ok rows)], rfl, Or.inr (Or.inr ⟨[], _, rfl, by simp, rfl, ?_,
            Or.inl ⟨?_, trivial⟩⟩)⟩
          · simp only [DbCall.succeeded, decide_eq_false_iff_not]; omega
          · simp only [DbCall.reportsMoreThanOne, decide_eq_true_eq]; exact hr
        · simp only [hr, if_false]
          obtain ⟨new, h1, h2⟩ := ih (n + 1) (calls ++ [.exec
            (prepareProvisioningQuery caseTable d q vars).1
            (prepareProvisioningQuery caseTable d q vars).2.1 (.ok rows)])
          have hs : (DbCall.exec (prepareProvisioningQuery caseTable d q vars).1
              (prepareProvisioningQuery caseTable d q vars).2.1 (.ok rows)).succeeded = true := by
            simp only [DbCall.succeeded, decide_eq_true_eq]; omega
          refine ⟨DbCall.exec (prepareProvisioningQuery caseTable d q vars).1
              (prepareProvisioningQuery caseTable d q vars).2.1 (.ok rows) :: new,
            by rw [h1]; simp, ?_⟩
          rcases h2 with ⟨e1, e2, e3⟩ | ⟨e1, e2, e3⟩ | ⟨good, c, e1, e2, e3, e4, e5⟩
          · refine Or.inl ⟨e1, ?_, by simp [e3]⟩
            intro c hc
            rcases List.mem_cons.mp hc with hc | hc
            · rw [hc]; exact hs
            · exact e2 c hc
          · refine Or.inr (Or.inl ⟨e1, ?_, by simp; omega⟩)
            intro c hc
            rcases List.mem_cons.mp hc with hc | hc
            · rw [hc]; exact hs
            · exact e2 c hc
          · refine Or.inr (Or.inr ⟨DbCall.exec (prepareProvisioningQuery caseTable d q vars).1
              (prepareProvisioningQuery caseTable d q vars).2.1 (.ok rows) :: good, c,
              by rw [e1]; simp, ?_, e3, e4, e5⟩)
            intro c hc
            rcases List.mem_cons.mp hc with hc | hc
            · rw [hc]; exact hs
            · exact e2 c hc

theorem filter_isExec_of_succeeded (l : List DbCall) (h : ∀ c ∈ l, c.succeeded = true) :
    l.filter DbCall.isExec = l :=
  List.filter_eq_self.mpr (fun c hc => (DbCall.not_reports_of_succeeded c (h c hc)).2.1)

theorem filter_isCommit_of_succeeded (l : List DbCall) (h : ∀ c ∈ l, c.succeeded = true) :
    l.filter DbCall.isCommit = [] :=
  List.filter_eq_nil_iff.mpr (fun c hc => by
    simp [(DbCall.not_reports_of_succeeded c (h c hc)).2.2.1])

theorem filter_isRollback_of_succeeded (l : List DbCall) (h : ∀ c ∈ l, c.succeeded = true) :
    l.filter DbCall.isRollback = [] :=
  List.filter_eq_nil_iff.mpr (fun c hc => by
    simp [(DbCall.not_reports_of_succeeded c (h c hc)).2.2.2])

/-- C3 (amended): in a transaction, if some query reports `rows_affected > 1` then it is the
last query executed, the only call after it is `Rollback`, `Commit` is not called and the
error is returned; if `BeginTx` succeeds and every query executes without error and reports
`rows_affected <= 1`, `Commit` is called exactly once, after which `Rollback` is not called
when `Commit` succeeds and is called once when `Commit` fails. -/
theorem runProvisioningQueries_transaction (caseTable : Char → Char) (d : DbEngine)
    (driver : ProvisioningDriver) (queries : List Str) (vars : Str → Option Value) :
    ((∃ c ∈ (runProvisioningQueries caseTable d driver queries vars true).1,
        c.reportsMoreThanOne = true) →
      ∃ pre c, (runProvisioningQueries caseTable d driver queries vars true).1
          = pre ++ [c, .rollback] ∧
        c.reportsMoreThanOne = true ∧
        (∀ x ∈ pre, x.reportsMoreThanOne = false ∧ x.isCommit = false ∧ x.isRollback = false) ∧
        (runProvisioningQueries caseTable d driver queries vars true).2
          = some .moreThanOneRow) ∧
    (driver.beginTx = none →
      ((runProvisioningQueries caseTable d driver queries vars true).1.filter
        DbCall.isExec).length = queries.length →
      (∀ c ∈ (runProvisioningQueries caseTable d driver queries vars true).1,
        c.isExec = true → c.succeeded = true) →
      ((runProvisioningQueries caseTable d driver queries vars true).1.filter
        DbCall.isCommit).length = 1 ∧
      (driver.commit = none →
        ((runProvisioningQueries caseTable d driver queries vars true).1.filter
          DbCall.isRollback).length = 0 ∧
        (runProvisioningQueries caseTable d driver queries vars true).2 = none) ∧
      (∀ e, driver.commit = some e →
        ((runProvisioningQueries caseTable d driver queries vars true).1.filter
          DbCall.isRollback).length = 1 ∧
        (∃ pre, (runProvisioningQueries caseTable d driver queries vars true).1
          = pre ++ [.commit, .rollback]) ∧
        (runProvisioningQueries caseTable d driver queries vars true).2 = some e)) := by
  cases hb : driver.beginTx with
  | some e =>
    have hres : runProvisioningQueries caseTable d driver queries vars true
        = ([.beginTx], some e) := by
      simp [runProvisioningQueries, hb]
    rw [hres]
    constructor
    · rintro ⟨c, hc, hr⟩
      simp only [List.mem_singleton] at hc
      subst hc
      simp [DbCall.reportsMoreThanOne] at hr
    · intro h; simp at h
  | none =>
    obtain ⟨new, h1, h2⟩ := provisioningLoop_calls caseTable d driver vars queries 0 [.beginTx]
    rcases h2 with ⟨e1, e2, e3⟩ | ⟨⟨e, e1⟩, e2, e3⟩ | ⟨good, c, e1, e2, e3, e4, e5⟩
    · -- every query succeeded
      have hno : ∀ x ∈ new, x.reportsMoreThanOne = false := fun x hx =>
        (DbCall.not_reports_of_succeeded x (e2 x hx)).1
      cases hc : driver.commit with
      | none =>
        have hres : runProvisioningQueries caseTable d driver queries vars true
            = ([.beginTx] ++ new ++ [.commit], none) := by
          simp [runProvisioningQueries, hb, hc, e1, h1]
        rw [hres]
        constructor
        · rintro ⟨c, hc, hr⟩
          simp only [List.mem_append, List.mem_singleton] at hc
          rcases hc with (hc | hc) | hc
          · subst hc; simp [DbCall.reportsMoreThanOne] at hr
          · rw [hno c hc] at hr; simp at hr
          · subst hc; simp [DbCall.reportsMoreThanOne] at hr
        · intro _ _ _
          refine ⟨?_, fun _ => ⟨?_, rfl⟩, fun e he => by simp at he⟩
          · simp [List.filter_append, filter_isCommit_of_succeeded new e2, DbCall.isCommit,
              List.filter_cons]
          · simp [List.filter_append, filter_isRollback_of_succeeded new e2,
              DbCall.isRollback, List.filter_cons]
      | some e =>
        have hres : runProvisioningQueries caseTable d driver queries vars true
            = ([.beginTx] ++ new ++ [.commit, .rollback], some e) := by
          simp [runProvisioningQueries, hb, hc, e1, h1]
        rw [hres]
        constructor
        · rintro ⟨c, hc, hr⟩
          simp only [List.mem_append, List.mem_singleton, List.mem_cons, List.mem_nil_iff,
            or_false] at hc
          rcases hc with (hc | hc) | hc | hc
          · subst hc; simp [DbCall.reportsMoreThanOne] at hr
          · rw [hno c hc] at hr; simp at hr
          · subst hc; simp [DbCall.reportsMoreThanOne] at hr
          · subst hc; simp [DbCall.reportsMoreThanOne] at hr
        · intro _ _ _
          refine ⟨?_, fun he => by simp at he, fun e' he => ⟨?_, ⟨_, rfl⟩, he⟩⟩
          · simp [List.filter_append, filter_isCommit_of_succeeded new e2, DbCall.isCommit,
              List.filter_cons]
          · simp [List.filter_append, filter_isRollback_of_succeeded new e2,
              DbCall.isRollback, List.filter_cons]
    · -- a templating error before a query
      have hres : runProvisioningQueries caseTable d driver queries vars true
          = ([.beginTx] ++ new ++ [.rollback], some e) := by
        simp [runProvisioningQueries, hb, e1, h1]
      rw [hres]
      have hno : ∀ x ∈ new, x.reportsMoreThanOne = false := fun x hx =>
        (DbCall.not_reports_of_succeeded x (e2 x hx)).1
      constructor
      · rintro ⟨c, hc, hr⟩
        simp only [List.mem_append, List.mem_singleton] at hc
        rcases hc with (hc | hc) | hc
        · subst hc; simp [DbCall.reportsMoreThanOne] at hr
        · rw [hno c hc] at hr; simp at hr
        · subst hc; simp [DbCall.reportsMoreThanOne] at hr
      · intro _ hcount _
        exfalso
        simp only [List.filter_append, filter_isExec_of_succeeded new e2, List.length_append]
          at hcount
        simp [List.filter_cons, DbCall.isExec] at hcount
        omega
    · -- the last query executed did not succeed
      subst e1
      have hgood : ∀ x ∈ good, x.reportsMoreThanOne = false ∧ x.isCommit = false ∧
          x.isRollback = false := fun x hx =>
        ⟨(DbCall.not_reports_of_succeeded x (e2 x hx)).1,
         (DbCall.not_reports_of_succeeded x (e2 x hx)).2.2.1,
         (DbCall.not_reports_of_succeeded x (e2 x hx)).2.2.2⟩
      have hfalse : (∀ x ∈ [DbCall.beginTx] ++ (good ++ [c]) ++ [DbCall.rollback],
          x.isExec = true → x.succeeded = true) → False := by
        intro hall
        have := hall c (by simp) e3
        rw [e4] at this
        simp at this
      rcases e5 with ⟨r1, r2⟩ | ⟨r1, e, r2⟩
      · have hres : runProvisioningQueries caseTable d driver queries vars true
            = ([.beginTx] ++ (good ++ [c]) ++ [.rollback], some .moreThanOneRow) := by
          simp [runProvisioningQueries, hb, r2, h1]
        rw [hres]
        refine ⟨fun _ => ⟨[.beginTx] ++ good, c, by simp, r1, ?_, rfl⟩,
          fun _ _ hall => (hfalse hall).elim⟩
        intro x hx
        simp only [List.mem_append, List.mem_singleton] at hx
        rcases hx with hx | hx
        · subst hx; simp [DbCall.reportsMoreThanOne, DbCall.isCommit, DbCall.isRollback]
        · exact hgood x hx
      · have hres : runProvisioningQueries caseTable d driver queries vars true
            = ([.beginTx] ++ (good ++ [c]) ++ [.rollback], some e) := by
          simp [runProvisioningQueries, hb, r2, h1]
        rw [hres]
        refine ⟨?_, fun _ _ hall => (hfalse hall).elim⟩
        rintro ⟨x, hx, hr⟩
        simp only [List.mem_append, List.mem_singleton] at hx
        rcases hx with (hx | hx | hx) | hx
        · subst hx; simp [DbCall.reportsMoreThanOne] at hr
        · rw [(hgood x hx).1] at hr; simp at hr
        · subst hx; rw [r1] at hr; simp at hr
        · subst hx; simp [DbCall.reportsMoreThanOne] at hr

theorem runProvisioningQueries_transaction_witness :
    ∃ pre c, (runProvisioningQueries id .MySQL twoRowsDriver
        ["UPDATE a".toList, "UPDATE b".toList] (fun _ => none) true).1
          = pre ++ [c, .rollback] ∧
      c.reportsMoreThanOne = true ∧
      (∀ x ∈ pre, x.reportsMoreThanOne = false ∧ x.isCommit = false ∧ x.isRollback = false) ∧
      (runProvisioningQueries id .MySQL twoRowsDriver
        ["UPDATE a".toList, "UPDATE b".toList] (fun _ => none) true).2
          = some .moreThanOneRow := by
  have hcalls : (runProvisioningQueries id .MySQL twoRowsDriver
      ["UPDATE a".toList, "UPDATE b".toList] (fun _ => none) true).1
        = [.beginTx, .exec "UPDATE a".toList [] (.ok 2), .rollback] := by rfl
  exact (runProvisioningQueries_transaction id .MySQL twoRowsDriver
    ["UPDATE a".toList, "UPDATE b".toList] (fun _ => none)).1
    ⟨.exec "UPDATE a".toList [] (.ok 2), by rw [hcalls]; simp, rfl⟩

/-- C3 (counterexample): with one query that affects one row and a `Commit` that fails, every
query executes without error and reports `rows_affected <= 1`, and yet `Rollback` is called
(after the single `Commit`). -/
theorem runProvisioningQueries_commit_failure :
    ((runProvisioningQueries id .MySQL commitFailingDriver ["UPDATE t SET a = 1".toList]
        (fun _ => none) true).1.filter DbCall.isExec).length = 1 ∧
    (runProvisioningQueries id .MySQL commitFailingDriver ["UPDATE t SET a = 1".toList]
        (fun _ => none) true).1.all (fun c => !c.isExec || c.succeeded) = true ∧
    ((runProvisioningQueries id .MySQL commitFailingDriver ["UPDATE t SET a = 1".toList]
        (fun _ => none) true).1.filter DbCall.isCommit).length = 1 ∧
    ((runProvisioningQueries id .MySQL commitFailingDriver ["UPDATE t SET a = 1".toList]
        (fun _ => none) true).1.filter DbCall.isRollback).length = 1 := by
  refine ⟨by rfl, by rfl, by rfl, by rfl⟩

/-! ### `runQuery` -/

theorem toDigitsCore_ne_nil (b : Nat) :
    ∀ (fuel n : Nat) (ds : List Char), ds ≠ [] → Nat.toDigitsCore b fuel n ds ≠ [] := by
  intro fuel
  induction fuel with
  | zero => intro n ds h; simpa [Nat.toDigitsCore] using h
  | succ f ih =>
    intro n ds h
    simp only [Nat.toDigitsCore]
    split
    · simp
    · exact ih _ _ (by simp)

theorem toDigits_ne_nil (b n : Nat) : Nat.toDigits b n ≠ [] := by
  simp only [Nat.toDigits, Nat.toDigitsCore]
  split
  · simp
  · exact toDigitsCore_ne_nil b _ _ _ (by simp)

theorem strconvItoa_ne_nil (i : Int) : strconvItoa i ≠ [] := by
  unfold strconvItoa
  split
  · simp
  · exact toDigits_ne_nil _ _

theorem findPaginationKey_found (p : paginationContext) (rowMap : RowMap) :
    ∀ (acc : Value × Bool),
      (rowMap.foldl (fun acc cv => if p.PrimaryKey = cv.1 then (cv.2, true) else acc) acc).2
        = (acc.2 || decide (p.PrimaryKey ∈ rowMap.map Prod.fst)) := by
  induction rowMap with
  | nil => intro acc; simp
  | cons cv rest ih =>
    intro acc
    simp only [List.foldl_cons, List.map_cons, List.mem_cons]
    rw [ih]
    by_cases h : p.PrimaryKey = cv.1
    · rw [if_pos h]
      simp only [Bool.true_or, h, true_or, decide_True, Bool.or_true]
    · rw [if_neg h]
      simp only [h, false_or]

theorem findPaginationKey_of_mem (p : paginationContext) (rowMap : RowMap) (x : Value)
    (h : p.PrimaryKey ∈ rowMap.map Prod.fst) :
    (findPaginationKey (some p) rowMap x).2 = true := by
  unfold findPaginationKey
  simp only
  rw [findPaginationKey_found p rowMap (x, false)]
  simp [h]

/-- The row loop under pagination, on rows that scan, carry the primary key and are all
accepted by the callback: it delivers the rows for which there is room below the limit. -/
theorem rowLoop_paginated {σ : Type} (p : paginationContext) (columns : List Str)
    (rowCallback : σ → RowMap → Except GoError Bool × σ)
    (hcb : ∀ s m, (rowCallback s m).1 = .ok true) (vals : List (List Value)) :
    (∀ v ∈ vals, p.PrimaryKey ∈ (columns.zip v).map Prod.fst) →
    ∀ (st : RowLoopState σ), st.rowCount ≤ p.Limit →
      (rowLoop (some p) columns rowCallback (vals.map .ok) st).2.visited
        = st.visited ++ (vals.take (p.Limit - st.rowCount).toNat).map (fun v => columns.zip v) ∧
      (rowLoop (some p) columns rowCallback (vals.map .ok) st).2.lastRowID
        = lastKey p columns (vals.take (p.Limit - st.rowCount).toNat) st.lastRowID ∧
      (vals.length ≤ (p.Limit - st.rowCount).toNat →
        (rowLoop (some p) columns rowCallback (vals.map .ok) st).1 = .exhausted ∧
        (rowLoop (some p) columns rowCallback (vals.map .ok) st).2.rowCount ≤ p.Limit) ∧
      ((p.Limit - st.rowCount).toNat < vals.length →
        (rowLoop (some p) columns rowCallback (vals.map .ok) st).1 = .stopped ∧
        (rowLoop (some p) columns rowCallback (vals.map .ok) st).2.rowCount > p.Limit) := by
  induction vals with
  | nil =>
    intro _ st hst
    simp [rowLoop, lastKey, hst]
  | cons v vs ih =>
    intro hpk st hst
    have hpkv := hpk v (by simp)
    have hpkvs : ∀ w ∈ vs, p.PrimaryKey ∈ (columns.zip w).map Prod.fst :=
      fun w hw => hpk w (List.mem_cons_of_mem _ hw)
    simp only [List.map_cons, rowLoop, Option.any_some]
    by_cases hlim : st.rowCount + 1 > p.Limit
    · have hroom : (p.Limit - st.rowCount).toNat = 0 := by omega
      simp [hlim, hroom, lastKey]
    · have hroom : (p.Limit - st.rowCount).toNat = (p.Limit - (st.rowCount + 1)).toNat + 1 := by
        omega
      have hfound := findPaginationKey_of_mem p (columns.zip v) st.lastRowID hpkv
      simp only [hlim, decide_False, Bool.false_eq_true, if_false, hfound, Option.isSome_some,
        and_false, hcb, true_and, Bool.true_eq_false]
      obtain ⟨i1, i2, i3, i4⟩ := ih hpkvs
        { rowCount := st.rowCount + 1,
          lastRowID := (findPaginationKey (some p) (columns.zip v) st.lastRowID).1,
          cbState := (rowCallback st.cbState (columns.zip v)).2,
          visited := st.visited ++ [columns.zip v] } (by simp only; omega)
      simp only at i1 i2 i3 i4
      rw [hroom]
      refine ⟨?_, ?_, ?_, ?_⟩
      · rw [i1]; simp
      · rw [i2]; simp [lastKey]
      · intro hl
        exact i3 (by simp at hl; omega)
      · intro hl
        exact i4 (by simp at hl; omega)

theorem clampPageSize_bounds (n : Int) : 1 ≤ clampPageSize n ∧ clampPageSize n ≤ 1000 := by
  unfold clampPageSize maxPageSize minPageSize defaultPageSize
  split
  · omega
  · split
    · omega
    · split <;> omega

theorem setupPagination_some (pToken : Option PageToken) (pOpts : Option Pagination)
    (p : paginationContext) (h : setupPagination pToken pOpts = .returns (some p, none)) :
    1 ≤ p.Limit ∧ p.Limit ≤ 1000 ∧ (p.Strategy = offsetKey ∨ p.Strategy = cursorKey) := by
  unfold setupPagination at h
  cases pOpts with
  | none => simp at h
  | some o =>
    cases pToken with
    | none => simp at h
    | some t =>
      have hb := clampPageSize_bounds t.Size
      simp only at h
      split at h
      · next hs =>
        split at h
        · split at h
          · simp at h
          · simp only [GoResult.returns.injEq, Prod.mk.injEq, Option.some.injEq, and_true] at h
            rw [← h]
            exact ⟨hb.1, hb.2, Or.inl hs⟩
        · simp only [GoResult.returns.injEq, Prod.mk.injEq, Option.some.injEq, and_true] at h
          rw [← h]
          exact ⟨hb.1, hb.2, Or.inl hs⟩
      · split at h
        · next hs =>
          simp only [GoResult.returns.injEq, Prod.mk.injEq, Option.some.injEq, and_true] at h
          rw [← h]
          exact ⟨hb.1, hb.2, Or.inr hs⟩
        · simp at h

theorem prepareQuery_pCtx (caseTable : Char → Char) (d : DbEngine) (pToken : Option PageToken)
    (query : Str) (pOpts : Option Pagination) (vars : Str → Option Value)
    (prep : PreparedQuery) (p : paginationContext)
    (hprep : prepareQuery caseTable d pToken query pOpts vars = .returns prep)
    (hctx : prep.pCtx = some p) :
    setupPagination pToken pOpts = .returns (some p, none) := by
  unfold prepareQuery at hprep
  cases hs : setupPagination pToken pOpts with
  | panics => rw [hs] at hprep; simp at hprep
  | returns res =>
    obtain ⟨ctx, serr⟩ := res
    rw [hs] at hprep
    cases serr with
    | some e =>
      simp only [GoResult.returns.injEq] at hprep
      rw [← hprep] at hctx
      simp at hctx
    | none =>
      simp only at hprep
      cases hq : parseQueryOpts caseTable d ctx query vars with
      | panics => rw [hq] at hprep; simp at hprep
      | returns r2 =>
        rw [hq] at hprep
        simp only at hprep
        cases he : r2.err with
        | some e =>
          rw [he] at hprep
          simp only [GoResult.returns.injEq] at hprep
          rw [← hprep] at hctx
          simp at hctx
        | none =>
          rw [he] at hprep
          simp only [GoResult.returns.injEq] at hprep
          rw [← hprep] at hctx
          simp only at hctx
          split at hctx
          · rw [hctx]
          · simp at hctx

theorem nextPageToken_offset (p : paginationContext) (key : Value)
    (h : p.Strategy = offsetKey) :
    nextPageToken (some p) key
      = (strconvItoa (wrapInt64 (p.Offset * p.Limit + p.Limit)), none) := by
  simp [nextPageToken, h]

theorem nextPageToken_cursor (p : paginationContext) (key : Value)
    (h : p.Strategy = cursorKey) :
    nextPageToken (some p) key
      = (match key.keyText with
         | some t => (t, none)
         | none => ([], some .unexpectedPrimaryKeyType)) := by
  have hne : ¬ (cursorKey = offsetKey) := by decide
  cases key <;> simp [nextPageToken, h, hne, Value.keyText]

theorem getLast?_take_of_lt {α : Type} (l : List α) (k : Nat) (hk : 1 ≤ k) (h : k < l.length) :
    ∃ row, (l.take k).getLast? = some row := by
  have hne : l.take k ≠ [] := by
    intro h0
    have := congrArg List.length h0
    simp only [List.length_take, List.length_nil] at this
    omega
  exact ⟨_, List.getLast?_eq_getLast _ hne⟩

theorem foldl_key_independent (p : paginationContext) (rowMap : RowMap)
    (h : p.PrimaryKey ∈ rowMap.map Prod.fst) :
    ∀ (a b : Value × Bool),
      (rowMap.foldl (fun acc cv => if p.PrimaryKey = cv.1 then (cv.2, true) else acc) a).1
        = (rowMap.foldl (fun acc cv => if p.PrimaryKey = cv.1 then (cv.2, true) else acc) b).1 := by
  induction rowMap with
  | nil => simp at h
  | cons cv rest ih =>
    intro a b
    simp only [List.foldl_cons]
    by_cases hk : p.PrimaryKey = cv.1
    · rw [if_pos hk, if_pos hk]
    · rw [if_neg hk, if_neg hk]
      simp only [List.map_cons, List.mem_cons] at h
      rcases h with h | h
      · exact absurd h hk
      · exact ih h a b

theorem findPaginationKey_independent (p : paginationContext) (rowMap : RowMap) (x y : Value)
    (h : p.PrimaryKey ∈ rowMap.map Prod.fst) :
    (findPaginationKey (some p) rowMap x).1 = (findPaginationKey (some p) rowMap y).1 := by
  unfold findPaginationKey
  exact foldl_key_independent p rowMap h _ _

theorem lastKey_of_getLast (p : paginationContext) (columns : List Str)
    (l : List (List Value)) (row : List Value) (x : Value)
    (hl : l.getLast? = some row) (h : p.PrimaryKey ∈ (columns.zip row).map Prod.fst) :
    lastKey p columns l x = (findPaginationKey (some p) (columns.zip row) .nil).1 := by
  obtain ⟨init, hinit⟩ := List.getLast?_eq_some_iff.mp hl
  subst hinit
  unfold lastKey
  rw [List.foldl_append]
  simp only [List.foldl_cons, List.foldl_nil]
  exact findPaginationKey_independent p _ _ _ h

/-- C2 (amended): with pagination active and limit `K`, on rows that all carry the primary
key column and a visitor that always continues without error: when more than `K` rows come
back, the visitor is called on exactly the first `K` rows, in order, and the result is what
`nextPageToken` gives for the primary key of the `K`-th row, namely a non-empty token under
the offset strategy and, under the cursor strategy, the text of that key when it is a string,
a byte slice or an integer, and an error when it has another type; when at most `K` rows come
back, the visitor is called on all of them and the token is empty. -/
theorem runQuery_lookahead {σ : Type} (caseTable : Char → Char) (d : DbEngine)
    (db : Str → List Value → Except GoError SqlRows) (pToken : Option PageToken) (query : Str)
    (pOpts : Option Pagination) (vars : Str → Option Value)
    (rowCallback : σ → RowMap → Except GoError Bool × σ) (cbState : σ)
    (prep : PreparedQuery) (p : paginationContext) (rows : SqlRows) (columns : List Str)
    (vals : List (List Value))
    (hprep : prepareQuery caseTable d pToken query pOpts vars = .returns prep)
    (herr : prep.err = none) (hctx : prep.pCtx = some p)
    (hdb : db prep.query prep.args = .ok rows) (hcols : rows.columns = .ok columns)
    (hrows : rows.rows = vals.map .ok) (hiter : rows.err = none)
    (hpk : ∀ v ∈ vals, p.PrimaryKey ∈ (columns.zip v).map Prod.fst)
    (hcb : ∀ s m, (rowCallback s m).1 = .ok true) :
    ∃ r, runQuery caseTable d db pToken query pOpts vars rowCallback cbState = .returns r ∧
      1 ≤ p.Limit ∧
      (p.Limit < (vals.length : Int) →
        r.visited = (vals.take p.Limit.toNat).map (fun v => columns.zip v) ∧
        ∃ row, (vals.take p.Limit.toNat).getLast? = some row ∧
          (p.Strategy = offsetKey →
            r.err = none ∧ r.nextPageToken ≠ [] ∧
            r.nextPageToken = strconvItoa (wrapInt64 (p.Offset * p.Limit + p.Limit))) ∧
          (p.Strategy ≠ offsetKey →
            p.Strategy = cursorKey ∧
            (∀ t, (findPaginationKey (some p) (columns.zip row) .nil).1.keyText = some t →
              r.err = none ∧ r.nextPageToken = t) ∧
            ((findPaginationKey (some p) (columns.zip row) .nil).1.keyText = none →
              r.err = some .unexpectedPrimaryKeyType ∧ r.nextPageToken = []))) ∧
      ((vals.length : Int) ≤ p.Limit →
        r.visited = vals.map (fun v => columns.zip v) ∧ r.nextPageToken = [] ∧
        r.err = none) := by
  have hsetup := prepareQuery_pCtx caseTable d pToken query pOpts vars prep p hprep hctx
  obtain ⟨hl1, _, hstrat⟩ := setupPagination_some pToken pOpts p hsetup
  obtain ⟨l1, l2, l3, l4⟩ := rowLoop_paginated p columns rowCallback hcb vals hpk
    { rowCount := 0, lastRowID := .nil, cbState := cbState, visited := [] }
    (by simp only; omega)
  simp only [sub_zero, List.nil_append] at l1 l2 l3 l4
  unfold runQuery
  rw [hprep]
  simp only [herr, hdb, hcols, hrows, hctx]
  by_cases hmore : p.Limit < (vals.length : Int)
  · obtain ⟨m1, m2⟩ := l4 (by omega)
    obtain ⟨row, hrow⟩ := getLast?_take_of_lt vals p.Limit.toNat (by omega) (by omega)
    have hrowmem : row ∈ vals :=
      List.mem_of_mem_take (List.mem_of_getLast?_eq_some hrow)
    have hkey := lastKey_of_getLast p columns _ row .nil hrow (hpk row hrowmem)
    rw [hkey] at l2
    simp only [m1, Option.any_some, m2, decide_True, if_true, l2]
    rcases hstrat with hs | hs
    · rw [nextPageToken_offset p _ hs]
      refine ⟨_, rfl, hl1, fun _ => ⟨l1, row, hrow, fun _ => ⟨rfl, strconvItoa_ne_nil _, rfl⟩,
        fun hne => absurd hs hne⟩, fun hle => by omega⟩
    · have hne : p.Strategy ≠ offsetKey := by rw [hs]; decide
      rw [nextPageToken_cursor p _ hs]
      cases hk : (findPaginationKey (some p) (columns.zip row) .nil).1.keyText with
      | none =>
        refine ⟨_, rfl, hl1, fun _ => ⟨l1, row, hrow, fun h => absurd h hne,
          fun _ => ⟨hs, fun t ht => (by rw [hk] at ht; cases ht), fun _ => ⟨rfl, rfl⟩⟩⟩,
          fun hle => by omega⟩
      | some t =>
        refine ⟨_, rfl, hl1, fun _ => ⟨l1, row, hrow, fun h => absurd h hne,
          fun _ => ⟨hs, fun t2 ht => ?_, fun h => (by rw [hk] at h; cases h)⟩⟩,
          fun hle => by omega⟩
        rw [hk] at ht
        simp only [Option.some.injEq] at ht
        subst ht
        exact ⟨rfl, rfl⟩
  · obtain ⟨m1, m2⟩ := l3 (by omega)
    have hnot : ¬ ((rowLoop (some p) columns rowCallback (List.map Except.ok vals)
        { rowCount := 0, lastRowID := .nil, cbState := cbState, visited := [] }).2.rowCount
          > p.Limit) := by omega
    simp only [m1, hiter, Option.any_some, hnot, decide_False, Bool.false_eq_true, if_false]
    refine ⟨_, rfl, hl1, fun h => absurd h hmore, fun _ => ⟨?_, rfl, rfl⟩⟩
    rw [l1, List.take_of_length_le (by omega)]

theorem runQuery_lookahead_witness :
    ∃ r, runQuery id .MySQL intKeyDb (some { Size := 1, Token := [] })
        "SELECT id FROM t LIMIT ?<limit> OFFSET ?<offset>".toList
        (some { Strategy := offsetKey, PrimaryKey := "id".toList }) (fun _ => none)
        (fun (s : Unit) _ => (.ok true, s)) () = .returns r ∧
      r.err = none ∧ r.nextPageToken ≠ [] := by
  obtain ⟨r, h1, _, h2, _⟩ := runQuery_lookahead id .MySQL intKeyDb
    (some { Size := 1, Token := [] })
    "SELECT id FROM t LIMIT ?<limit> OFFSET ?<offset>".toList
    (some { Strategy := offsetKey, PrimaryKey := "id".toList }) (fun _ => none)
    (fun (s : Unit) _ => (.ok true, s)) ()
    { query := "SELECT id FROM t LIMIT ? OFFSET ?".toList, args := [.int64 2, .int64 0],
      pCtx := some { Strategy := offsetKey, Limit := 1, Offset := 0, Cursor := [],
                     PrimaryKey := "id".toList },
      err := none }
    { Strategy := offsetKey, Limit := 1, Offset := 0, Cursor := [], PrimaryKey := "id".toList }
    { columns := .ok ["id".toList], rows := [.ok [.int64 7], .ok [.int64 8]], err := none }
    ["id".toList] [[.int64 7], [.int64 8]]
    (by rfl) rfl rfl rfl rfl rfl rfl (by decide) (fun _ _ => rfl)
  obtain ⟨_, row, _, h3, _⟩ := h2 (by decide)
  exact ⟨r, h1, (h3 rfl).1, (h3 rfl).2.1⟩

/-- C2 (counterexample): under the cursor strategy with limit 1, two rows that carry the
primary key column `id` with floating point values and a visitor that always continues:
the visitor sees the first row, and the result is an error with an empty token, not a
non-empty token. -/
theorem runQuery_float_key :
    runQuery id .MySQL floatKeyDb (some { Size := 1, Token := [] })
        "SELECT id FROM t WHERE id > ?<cursor> LIMIT ?<limit>".toList
        (some { Strategy := cursorKey, PrimaryKey := "id".toList }) (fun _ => none)
        (fun (s : Unit) _ => (.ok true, s)) ()
      = .returns { nextPageToken := [], err := some .unexpectedPrimaryKeyType, cbState := (),
                   visited := [[("id".toList, .other "float64".toList "1.5".toList)]] } := by
  rfl

/-! ### PHP string arrays -/

theorem PhpMap.keys_set (m : PhpMap) (k v : PhpValue) :
    ((m.set k v).map Prod.fst = m.map Prod.fst ∧ k ∈ m.map Prod.fst) ∨
    ((m.set k v).map Prod.fst = m.map Prod.fst ++ [k] ∧ k ∉ m.map Prod.fst) := by
  unfold PhpMap.set
  by_cases h : m.any (fun e => decide (e.1 = k)) = true
  · left
    rw [if_pos h]
    constructor
    · rw [List.map_map]
      apply List.map_congr_left
      intro e _
      by_cases he : e.1 = k
      · simp [he]
      · simp [he]
    · simp only [List.any_eq_true, decide_eq_true_eq] at h
      obtain ⟨e, he, hk⟩ := h
      exact List.mem_map.mpr ⟨e, he, hk⟩
  · right
    rw [if_neg h]
    constructor
    · simp
    · intro hk
      apply h
      obtain ⟨e, he, hek⟩ := List.mem_map.mp hk
      simp only [List.any_eq_true, decide_eq_true_eq]
      exact ⟨e, he, hek⟩

/-- The keys of the map built from the strings of a list, starting from a map `m`. -/
theorem foldl_set_keys (input : List Str) :
    ∀ (m : PhpMap), (m.map Prod.fst).Nodup →
      ((input.foldl (fun data str => data.set (.str str) (.bool true)) m).map Prod.fst).Nodup ∧
      ∀ k, k ∈ (input.foldl (fun data str => data.set (.str str) (.bool true)) m).map Prod.fst
        ↔ (k ∈ m.map Prod.fst ∨ ∃ s ∈ input, k = .str s) := by
  induction input with
  | nil => intro m hm; simp [hm]
  | cons a as ih =>
    intro m hm
    simp only [List.foldl_cons]
    rcases PhpMap.keys_set m (.str a) (.bool true) with ⟨hk, hmem⟩ | ⟨hk, hmem⟩
    · obtain ⟨i1, i2⟩ := ih (m.set (.str a) (.bool true)) (by rw [hk]; exact hm)
      refine ⟨i1, fun k => ?_⟩
      rw [i2 k, hk]
      constructor
      · rintro (h | ⟨s, hs, hks⟩)
        · exact Or.inl h
        · exact Or.inr ⟨s, List.mem_cons_of_mem _ hs, hks⟩
      · rintro (h | ⟨s, hs, hks⟩)
        · exact Or.inl h
        · rcases List.mem_cons.mp hs with hs | hs
          · subst hs; subst hks; exact Or.inl hmem
          · exact Or.inr ⟨s, hs, hks⟩
    · obtain ⟨i1, i2⟩ := ih (m.set (.str a) (.bool true))
        (by rw [hk]; exact List.Nodup.append hm (by simp) (by simpa using hmem))
      refine ⟨i1, fun k => ?_⟩
      rw [i2 k, hk]
      simp only [List.mem_append, List.mem_singleton, List.mem_cons, List.not_mem_nil, or_false]
      constructor
      · rintro ((h | h) | ⟨s, hs, hks⟩)
        · exact Or.inl h
        · exact Or.inr ⟨a, Or.inl rfl, h⟩
        · exact Or.inr ⟨s, Or.inr hs, hks⟩
      · rintro (h | ⟨s, hs | hs, hks⟩)
        · exact Or.inl (Or.inl h)
        · subst hs; exact Or.inl (Or.inr hks)
        · exact Or.inr ⟨s, hs, hks⟩

theorem stringKeyMap_keys (input : List Str) :
    ((stringKeyMap input).map Prod.fst).Nodup ∧
    ∀ k, k ∈ (stringKeyMap input).map Prod.fst ↔ ∃ s ∈ input, k = .str s := by
  obtain ⟨h1, h2⟩ := foldl_set_keys input [] (by simp)
  exact ⟨h1, fun k => by rw [stringKeyMap, h2 k]; simp⟩

/-- The string keys of a map, as `PHPDeserializeStringArray` collects them. -/
theorem stringKeys_of_map (m : PhpMap) :
    m.filterMap (fun e => e.1.asString)
    = (m.map Prod.fst).filterMap PhpValue.asString := by
  rw [List.filterMap_map]
  rfl

theorem stringKeyMap_strings (input : List Str) :
    ((stringKeyMap input).filterMap (fun e => e.1.asString)).Nodup ∧
    ∀ x, x ∈ (stringKeyMap input).filterMap (fun e => e.1.asString) ↔ x ∈ input := by
  obtain ⟨h1, h2⟩ := stringKeyMap_keys input
  rw [stringKeys_of_map]
  constructor
  · apply List.Nodup.filterMap _ h1
    intro a a' b hb hb'
    cases a <;> cases a' <;> simp [PhpValue.asString] at hb hb'
    rw [hb, hb']
  · intro x
    rw [List.mem_filterMap]
    constructor
    · rintro ⟨k, hk, hx⟩
      obtain ⟨s, hs, hks⟩ := (h2 k).mp hk
      subst hks
      simp only [PhpValue.asString, Option.some.injEq] at hx
      rw [← hx]; exact hs
    · intro hx
      exact ⟨.str x, (h2 _).mpr ⟨x, hx, rfl⟩, rfl⟩

theorem sortStrings_sorted (l : List Str) : (sortStrings l).Sorted (fun a b => a ≤ b) :=
  List.sorted_insertionSort _ l

theorem sortStrings_perm (l : List Str) : (sortStrings l).Perm l :=
  List.perm_insertionSort _ l

theorem sortStrings_congr (l₁ l₂ : List Str) (h : l₁.Perm l₂) :
    sortStrings l₁ = sortStrings l₂ :=
  List.eq_of_perm_of_sorted
    (((sortStrings_perm l₁).trans h).trans (sortStrings_perm l₂).symm)
    (sortStrings_sorted l₁) (sortStrings_sorted l₂)

/-! ### `nextPageToken` and `clampPageSize` -/

/-- C17: under the cursor strategy `nextPageToken` returns the primary key as text (a string
itself, a byte slice as a string, an integer of any width and sign in base 10) and returns
an error for a key of any other type (nil, a boolean, a floating point number or any other
value); for a strategy other than `offset` and `cursor` it returns an error. -/
theorem nextPageToken_cursor_key (p : paginationContext) :
    (p.Strategy = cursorKey →
      (∀ l, nextPageToken (some p) (.str l) = (l, none)) ∧
      (∀ l, nextPageToken (some p) (.bytes l) = (l, none)) ∧
      (∀ i, nextPageToken (some p) (.int64 i) = (strconvItoa i, none)) ∧
      (∀ i, nextPageToken (some p) (.int i) = (strconvItoa i, none)) ∧
      (∀ i, nextPageToken (some p) (.int32 i) = (strconvItoa i, none)) ∧
      (∀ i, nextPageToken (some p) (.int16 i) = (strconvItoa i, none)) ∧
      (∀ i, nextPageToken (some p) (.int8 i) = (strconvItoa i, none)) ∧
      (∀ n, nextPageToken (some p) (.uint64 n) = (strconvFormatUint n, none)) ∧
      (∀ n, nextPageToken (some p) (.uint n) = (strconvFormatUint n, none)) ∧
      (∀ n, nextPageToken (some p) (.uint32 n) = (strconvFormatUint n, none)) ∧
      (∀ n, nextPageToken (some p) (.uint16 n) = (strconvFormatUint n, none)) ∧
      (∀ n, nextPageToken (some p) (.uint8 n) = (strconvFormatUint n, none)) ∧
      nextPageToken (some p) .nil = ([], some .unexpectedPrimaryKeyType) ∧
      (∀ b, nextPageToken (some p) (.bool b) = ([], some .unexpectedPrimaryKeyType)) ∧
      (∀ goType text, nextPageToken (some p) (.other goType text)
        = ([], some .unexpectedPrimaryKeyType))) ∧
    (p.Strategy ≠ offsetKey → p.Strategy ≠ cursorKey →
      ∀ key, nextPageToken (some p) key = ([], some (.unexpectedStrategy p.Strategy))) := by
  constructor
  · intro hs
    refine ⟨?_, ?_, ?_, ?_, ?_, ?_, ?_, ?_, ?_, ?_, ?_, ?_, ?_, ?_, ?_⟩ <;>
      (try intro x) <;> (try intro y) <;> rw [nextPageToken_cursor p _ hs] <;> rfl
  · intro h1 h2 key
    simp [nextPageToken, h1, h2]

theorem nextPageToken_cursor_key_witness :
    nextPageToken (some ⟨cursorKey, 10, 0, [], "id".toList⟩) (.int32 (-42))
      = ("-42".toList, none) :=
  ((nextPageToken_cursor_key ⟨cursorKey, 10, 0, [], "id".toList⟩).1 rfl).2.2.2.2.1 (-42)

/-- C18: `clampPageSize n` lies in `[1, 1000]`: 100 for `n = 0`, 1000 for `n > 1000`, 1 for
`n < 1` with `n ≠ 0`, and `n` otherwise; hence the limit of every pagination context built by
`setupPagination` lies in `[1, 1000]`. -/
theorem clampPageSize_range (n : Int) :
    (1 ≤ clampPageSize n ∧ clampPageSize n ≤ 1000) ∧
    (n = 0 → clampPageSize n = 100) ∧
    (n > 1000 → clampPageSize n = 1000) ∧
    (n < 1 → n ≠ 0 → clampPageSize n = 1) ∧
    (1 ≤ n → n ≤ 1000 → clampPageSize n = n) ∧
    (∀ pToken pOpts p, setupPagination pToken pOpts = .returns (some p, none) →
      1 ≤ p.Limit ∧ p.Limit ≤ 1000) := by
  refine ⟨clampPageSize_bounds n, ?_, ?_, ?_, ?_, ?_⟩
  · intro h; simp [clampPageSize, defaultPageSize, h]
  · intro h
    have h0 : n ≠ 0 := by omega
    simp [clampPageSize, maxPageSize, h0, h]
  · intro h h0
    have h1 : ¬ n > 1000 := by omega
    simp [clampPageSize, maxPageSize, minPageSize, h0, h1, h]
  · intro h1 h2
    have h0 : n ≠ 0 := by omega
    have h3 : ¬ n > 1000 := by omega
    have h4 : ¬ n < 1 := by omega
    simp [clampPageSize, maxPageSize, minPageSize, h0, h3, h4]
  · intro pToken pOpts p h
    exact ⟨(setupPagination_some pToken pOpts p h).1, (setupPagination_some pToken pOpts p h).2.1⟩

theorem clampPageSize_range_witness :
    clampPageSize 0 = 100 ∧ clampPageSize 5000 = 1000 ∧ clampPageSize (-3) = 1 ∧
      clampPageSize 25 = 25 :=
  ⟨(clampPageSize_range 0).2.1 rfl, (clampPageSize_range 5000).2.2.1 (by decide),
    (clampPageSize_range (-3)).2.2.2.1 (by decide) (by decide),
    (clampPageSize_range 25).2.2.2.2.1 (by decide) (by decide)⟩

/-! ### `EvaluateBool` -/

/-- C20 (the code at the failing input): when the expression evaluates to the integer zero,
delivered as `int64`, `EvaluateBool` returns true without error; it does so for every
integer delivered as `int64` or `uint64`, and tests for zero only a value of type `int`. -/
theorem EvaluateBool_int64_zero :
    EvaluateBool (fun _ => .ok (.int64 0)) "0".toList = (true, none) ∧
    (∀ expr n, EvaluateBool (fun _ => .ok (.int64 n)) expr = (true, none)) ∧
    (∀ expr n, EvaluateBool (fun _ => .ok (.uint64 n)) expr = (true, none)) ∧
    (∀ expr n, EvaluateBool (fun _ => .ok (.int n)) expr = (decide (n ≠ 0), none)) := by
  refine ⟨by rfl, ?_, ?_, ?_⟩
  · intro expr n; simp [EvaluateBool, Evaluate]
  · intro expr n; simp [EvaluateBool, Evaluate]
  · intro expr n; simp [EvaluateBool, Evaluate]

/-! ### Texts that `queryOptRegex` does not match -/

theorem takeWhile_append_stop {α : Type} (p : α → Bool) (a : List α) (b : α) (c : List α)
    (ha : ∀ x ∈ a, p x = true) (hb : p b = false) :
    (a ++ b :: c).takeWhile p = a ∧ (a ++ b :: c).dropWhile p = b :: c := by
  induction a with
  | nil => simp [List.takeWhile, List.dropWhile, hb]
  | cons x xs ih =>
    have hx : p x = true := ha x (List.mem_cons_self _ _)
    have ih2 := ih (fun y hy => ha y (List.mem_cons_of_mem _ hy))
    simp [List.takeWhile, List.dropWhile, hx, ih2.1, ih2.2]

theorem queryOptRegexAt_of_head_ne (c : Char) (cs : Str) (h : c ≠ '?') :
    queryOptRegexAt (c :: cs) = none := by
  unfold queryOptRegexAt
  split
  · next heq =>
    simp only [List.cons.injEq] at heq
    exact absurd heq.1 h
  · rfl

theorem queryOptRegexAt_of_not_mem (s : Str) (h : '?' ∉ s) : queryOptRegexAt s = none := by
  cases s with
  | nil => rfl
  | cons c cs =>
    apply queryOptRegexAt_of_head_ne
    intro hc
    exact h (by simp [hc])

theorem findStringSubmatch_of_not_mem (s : Str) (h : '?' ∉ s) :
    queryOptRegexFindStringSubmatch s = none := by
  induction s with
  | nil => rfl
  | cons c cs ih =>
    have h1 : queryOptRegexAt (c :: cs) = none := queryOptRegexAt_of_not_mem _ h
    have h2 : '?' ∉ cs := fun hm => h (List.mem_cons_of_mem _ hm)
    simp only [queryOptRegexFindStringSubmatch, h1, ih h2]

/-- No match starts at a placeholder whose option part is not closed by `>` right after its
word characters, or is empty. -/
theorem queryOptRegexAt_bad_option (k o : Str) (b : Char) (rest : Str)
    (hk : ∀ c ∈ k, isWordChar c = true) (ho : ∀ c ∈ o, isWordChar c = true)
    (hb : isWordChar b = false) (hbad : o = [] ∨ b ≠ '>') :
    queryOptRegexAt ('?' :: '<' :: (k ++ '|' :: (o ++ b :: rest))) = none := by
  have h1 := takeWhile_append_stop isWordChar k '|' (o ++ b :: rest) hk (by decide)
  have h2 := takeWhile_append_stop isWordChar o b rest ho hb
  simp only [queryOptRegexAt, h1.1, h1.2, h2.1, h2.2]
  split
  · rfl
  · split
    · rfl
    · rcases hbad with h0 | hne
      · exact absurd h0 ‹_›
      · split
        · next heq =>
          simp only [List.cons.injEq] at heq
          exact absurd heq.1 hne
        · rfl

theorem not_mem_of_wordChars (k : Str) (hk : ∀ c ∈ k, isWordChar c = true) : '?' ∉ k := by
  intro h
  have := hk _ h
  revert this
  decide

/-! ### A text without placeholders is left as it is -/

theorem applyPieces_no_tok {σ : Type} (re : Str → Option Nat) (repl : σ → Str → Str × σ)
    (s : Str) :
    ∀ (k : Nat) (st : σ),
      (regexpPieces re s k).filterMap
        (fun p => match p with
          | .tok t => some t
          | .lit _ => none) = [] →
      applyPieces repl (regexpPieces re s k) st = (s.drop k, st) := by
  induction s with
  | nil => intro k st _; cases k <;> rfl
  | cons c cs ih =>
    intro k st h
    cases k with
    | succ k =>
      simp only [regexpPieces] at h ⊢
      rw [ih k st h]
      rfl
    | zero =>
      simp only [regexpPieces] at h ⊢
      split at h
      · simp at h
      · simp only [List.filterMap_cons] at h
        simp only [applyPieces]
        rw [ih 0 st h]
        rfl

theorem regexpPieces_no_match (re : Str → Option Nat) (s : Str)
    (h : ∀ t, t <:+ s → re t = none) :
    ∀ k, (regexpPieces re s k).filterMap
        (fun p => match p with
          | .tok t => some t
          | .lit _ => none) = [] := by
  induction s with
  | nil => intro k; cases k <;> rfl
  | cons c cs ih =>
    have ih2 := ih (fun t ht => h t (ht.trans (List.suffix_cons c cs)))
    intro k
    cases k with
    | succ k => simp only [regexpPieces]; exact ih2 k
    | zero =>
      simp only [regexpPieces, h (c :: cs) (List.suffix_refl _)]
      simp only [List.filterMap_cons]
      exact ih2 0

theorem parseQueryOpts_no_placeholders (caseTable : Char → Char) (d : DbEngine)
    (pCtx : Option paginationContext) (vars : Str → Option Value) (query : Str)
    (h : placeholders query = []) :
    parseQueryOpts caseTable d pCtx query vars
      = .returns { query := query, args := [], paginationUsed := false, err := none } := by
  unfold parseQueryOpts
  simp only [regexpReplaceAllStringFunc_eq_pieces]
  rw [applyPieces_no_tok queryOptRegex _ query 0 _ h]
  simp

theorem no_match_of_suffix_free (t s : Str) (h : '?' ∉ s) (ht : t <:+ s) :
    queryOptRegexAt t = none :=
  queryOptRegexAt_of_not_mem t (fun hm => h (ht.subset hm))

theorem no_match_cons (c : Char) (cs : Str) (h0 : queryOptRegexAt (c :: cs) = none)
    (h : '?' ∉ cs) : ∀ t, t <:+ c :: cs → queryOptRegexAt t = none := by
  intro t ht
  rcases List.suffix_cons_iff.mp ht with h1 | h1
  · rw [h1]; exact h0
  · exact no_match_of_suffix_free t cs h h1

theorem no_match_append (pre s : Str) (hpre : '?' ∉ pre)
    (hs : ∀ t, t <:+ s → queryOptRegexAt t = none) :
    ∀ t, t <:+ pre ++ s → queryOptRegexAt t = none := by
  induction pre with
  | nil => simpa using hs
  | cons c pre ih =>
    intro t ht
    rcases List.suffix_cons_iff.mp ht with h1 | h1
    · rw [h1]
      exact queryOptRegexAt_of_head_ne c _ (fun hc => hpre (by simp [hc]))
    · exact ih (fun hm => hpre (List.mem_cons_of_mem _ hm)) t h1

theorem placeholders_of_no_match (s : Str) (h : ∀ t, t <:+ s → queryOptRegexAt t = none) :
    placeholders s = [] :=
  regexpPieces_no_match queryOptRegex s (fun t ht => by simp [queryOptRegex, h t ht]) 0

theorem parseToken_of_no_match (caseTable : Char → Char) (c : Char) (cs : Str)
    (h0 : queryOptRegexAt (c :: cs) = none) (h : '?' ∉ cs) :
    parseToken caseTable (c :: cs) = .error (.invalidTokenFormat (c :: cs)) := by
  unfold parseToken
  simp only [queryOptRegexFindStringSubmatch, h0, findStringSubmatch_of_not_mem cs h]

/-- C15: a placeholder with the option list `unquoted,unquoted` is not accepted. For every
key `k` of word characters, `parseToken` rejects the text `?<k|unquoted,unquoted>` with
`invalid token format`, and `parseQueryOpts` on that text finds no placeholder: it returns
the text unchanged, without arguments and without error, not an unquoted substitution. The
loop of `parseToken` over the options split at `,` would accept this list, had the pattern
`queryOptRegex` let it through. -/
theorem parseToken_comma_options (caseTable : Char → Char) (d : DbEngine)
    (pCtx : Option paginationContext) (vars : Str → Option Value) (k : Str)
    (hk : ∀ c ∈ k, isWordChar c = true) :
    parseToken caseTable ("?<".toList ++ k ++ "|unquoted,unquoted>".toList)
      = .error (.invalidTokenFormat ("?<".toList ++ k ++ "|unquoted,unquoted>".toList)) ∧
    parseQueryOpts caseTable d pCtx ("?<".toList ++ k ++ "|unquoted,unquoted>".toList) vars
      = .returns { query := "?<".toList ++ k ++ "|unquoted,unquoted>".toList, args := [],
                   paginationUsed := false, err := none } ∧
    parseTokenOptions caseTable (stringsSplit "unquoted,unquoted".toList ',')
        { Key := stringsToLower caseTable k, Unquoted := false }
      = .ok { Key := stringsToLower caseTable k, Unquoted := true } := by
  have hshape : "?<".toList ++ k ++ "|unquoted,unquoted>".toList
      = '?' :: '<' :: (k ++ '|' :: ("unquoted".toList ++ ',' :: "unquoted>".toList)) := by
    simp
  have h0 : queryOptRegexAt
      ('?' :: '<' :: (k ++ '|' :: ("unquoted".toList ++ ',' :: "unquoted>".toList))) = none :=
    queryOptRegexAt_bad_option k "unquoted".toList ',' "unquoted>".toList hk (by decide)
      (by decide) (Or.inr (by decide))
  have hfree : '?' ∉ '<' :: (k ++ '|' :: ("unquoted".toList ++ ',' :: "unquoted>".toList)) := by
    intro hm
    simp only [List.mem_cons, List.mem_append] at hm
    rcases hm with h | h | h
    · exact absurd h (by decide)
    · exact not_mem_of_wordChars k hk h
    · revert h; decide
  rw [hshape]
  refine ⟨parseToken_of_no_match caseTable _ _ h0 hfree, ?_, by rfl⟩
  exact parseQueryOpts_no_placeholders caseTable d pCtx vars _
    (placeholders_of_no_match _ (no_match_cons _ _ h0 hfree))

theorem parseToken_comma_options_witness :
    parseToken id "?<limit|unquoted,unquoted>".toList
      = .error (.invalidTokenFormat "?<limit|unquoted,unquoted>".toList) :=
  (parseToken_comma_options id .MySQL none (fun _ => none) "limit".toList (by decide)).1

/-- C14 (counterexample): `parseToken` rejects `?<limit|>`, and `parseQueryOpts` on a query
that contains it returns no error: the query comes back as it was. -/
theorem parseQueryOpts_malformed_no_error :
    parseToken id "?<limit|>".toList = .error (.invalidTokenFormat "?<limit|>".toList) ∧
    parseQueryOpts id .MySQL none "SELECT 1 LIMIT ?<limit|>".toList (fun _ => none)
      = .returns { query := "SELECT 1 LIMIT ?<limit|>".toList, args := [],
                   paginationUsed := false, err := none } :=
  ⟨by rfl, by rfl⟩

/-- C14 (amended): `parseToken` rejects a placeholder with an empty option part, `?<k|>`,
with `invalid token format`; `parseQueryOpts` gives `parseToken` only the matches of
`queryOptRegex`, and no match starts at such a text, so that a query with no well-formed
placeholder, as is one that holds `?<k|>` between texts without a question mark, is returned
unchanged, without arguments, with `paginationUsed = false` and without error. -/
theorem parseQueryOpts_malformed (caseTable : Char → Char) (d : DbEngine)
    (pCtx : Option paginationContext) (vars : Str → Option Value) (k query : Str)
    (hk : ∀ c ∈ k, isWordChar c = true) (hq : placeholders query = []) :
    parseToken caseTable ("?<".toList ++ k ++ "|>".toList)
      = .error (.invalidTokenFormat ("?<".toList ++ k ++ "|>".toList)) ∧
    (∀ rest, queryOptRegex ("?<".toList ++ k ++ "|>".toList ++ rest) = none) ∧
    (∀ pre post, '?' ∉ pre → '?' ∉ post →
      placeholders (pre ++ ("?<".toList ++ k ++ "|>".toList) ++ post) = []) ∧
    parseQueryOpts caseTable d pCtx query vars
      = .returns { query := query, args := [], paginationUsed := false, err := none } := by
  have hshape : ∀ rest, "?<".toList ++ k ++ "|>".toList ++ rest
      = '?' :: '<' :: (k ++ '|' :: ([] ++ '>' :: rest)) := by
    intro rest; simp
  have h0 : ∀ rest, queryOptRegexAt ('?' :: '<' :: (k ++ '|' :: ([] ++ '>' :: rest))) = none :=
    fun rest => queryOptRegexAt_bad_option k [] '>' rest hk (by simp) (by decide) (Or.inl rfl)
  have hfree : ∀ rest, '?' ∉ rest → '?' ∉ '<' :: (k ++ '|' :: ([] ++ '>' :: rest)) := by
    intro rest hr hm
    simp only [List.mem_cons, List.mem_append, List.nil_append] at hm
    rcases hm with h | h | h | h | h
    · exact absurd h (by decide)
    · exact not_mem_of_wordChars k hk h
    · exact absurd h (by decide)
    · exact absurd h (by decide)
    · exact hr h
  refine ⟨?_, ?_, ?_, parseQueryOpts_no_placeholders caseTable d pCtx vars query hq⟩
  · have := hshape []
    simp only [List.append_nil] at this
    rw [this]
    exact parseToken_of_no_match caseTable _ _ (h0 []) (hfree [] (by simp))
  · intro rest
    have h1 := h0 rest
    rw [hshape rest]
    simp only [queryOptRegex, h1, Option.map_none']
  · intro pre post hpre hpost
    rw [List.append_assoc, hshape post]
    exact placeholders_of_no_match _
      (no_match_append pre _ hpre (no_match_cons _ _ (h0 post) (hfree post hpost)))

theorem parseQueryOpts_malformed_witness :
    parseQueryOpts id .PostgreSQL none "SELECT 1 LIMIT ?<limit|>".toList (fun _ => none)
      = .returns { query := "SELECT 1 LIMIT ?<limit|>".toList, args := [],
                   paginationUsed := false, err := none } :=
  (parseQueryOpts_malformed id .PostgreSQL none (fun _ => none) "limit".toList
    "SELECT 1 LIMIT ?<limit|>".toList (by decide) (by decide)).2.2.2

/-! ### Decimal texts: `strconv.Itoa` and `strconv.ParseInt` -/

theorem digitChar_toNat : ∀ m, m < 10 → (Nat.digitChar m).toNat = 48 + m := by
  decide

theorem foldl_decimal_append (pre : Str) (d : Char) (a : Nat) :
    (pre ++ [d]).foldl (fun a c => 10 * a + (c.toNat - 48)) a
      = 10 * pre.foldl (fun a c => 10 * a + (c.toNat - 48)) a + (d.toNat - 48) := by
  simp [List.foldl_append]

/-- The digits written by `Nat.toDigitsCore` in base 10: a non-empty run of decimal digits
whose value is the number. -/
theorem toDigitsCore_decimal (fuel : Nat) :
    ∀ (n : Nat) (ds : Str), n < fuel →
      ∃ pre : Str, Nat.toDigitsCore 10 fuel n ds = pre ++ ds ∧ pre ≠ [] ∧
        (∀ c ∈ pre, 48 ≤ c.toNat ∧ c.toNat ≤ 57) ∧
        pre.foldl (fun a c => 10 * a + (c.toNat - 48)) 0 = n := by
  induction fuel with
  | zero => intro n ds h; omega
  | succ fuel ih =>
    intro n ds h
    have hd := digitChar_toNat (n % 10) (Nat.mod_lt _ (by decide))
    simp only [Nat.toDigitsCore]
    split
    · next h0 =>
      refine ⟨[Nat.digitChar (n % 10)], rfl, by simp, ?_, ?_⟩
      · intro c hc
        simp only [List.mem_singleton] at hc
        rw [hc, hd]
        omega
      · simp only [List.foldl_cons, List.foldl_nil, hd]
        omega
    · next h0 =>
      obtain ⟨pre, e, hne, hdig, hval⟩ := ih (n / 10) (Nat.digitChar (n % 10) :: ds) (by omega)
      refine ⟨pre ++ [Nat.digitChar (n % 10)], by simp [e], by simp, ?_, ?_⟩
      · intro c hc
        simp only [List.mem_append, List.mem_singleton] at hc
        rcases hc with hc | hc
        · exact hdig c hc
        · rw [hc, hd]
          omega
      · rw [foldl_decimal_append, hval, hd]
        omega

theorem toDigits_decimal (n : Nat) :
    Nat.toDigits 10 n ≠ [] ∧ (∀ c ∈ Nat.toDigits 10 n, 48 ≤ c.toNat ∧ c.toNat ≤ 57) ∧
      (Nat.toDigits 10 n).foldl (fun a c => 10 * a + (c.toNat - 48)) 0 = n := by
  obtain ⟨pre, e, hne, hdig, hval⟩ := toDigitsCore_decimal (n + 1) n [] (by omega)
  simp only [List.append_nil] at e
  unfold Nat.toDigits
  rw [e]
  exact ⟨hne, hdig, hval⟩

/-- What `strconv.ParseInt` returns for a text of decimal digits without a sign. -/
theorem strconvParseInt_digits (s : Str) (hne : s ≠ [])
    (hdig : ∀ c ∈ s, 48 ≤ c.toNat ∧ c.toNat ≤ 57)
    (hval : s.foldl (fun a c => 10 * a + (c.toNat - 48)) 0 < 2 ^ 63) :
    strconvParseInt s
      = some ((s.foldl (fun a c => 10 * a + (c.toNat - 48)) 0 : Nat) : Int) := by
  cases s with
  | nil => exact absurd rfl hne
  | cons c cs =>
    have hc := hdig c (List.mem_cons_self _ _)
    have h1 : c ≠ '+' := by
      intro h; rw [h] at hc; revert hc; decide
    have h2 : c ≠ '-' := by
      intro h; rw [h] at hc; revert hc; decide
    have hall : (c :: cs).all (fun c => decide (48 ≤ c.toNat) && decide (c.toNat ≤ 57)) = true := by
      rw [List.all_eq_true]
      intro x hx
      have := hdig x hx
      simp [this.1, this.2]
    unfold strconvParseInt
    simp only [List.head?_cons, Option.some.injEq, h1, h2, or_self, if_false, hall,
      not_true_eq_false, or_false, false_and, reduceCtorEq]
    have hlt : ¬ (List.foldl (fun a c => 10 * a + (c.toNat - 48)) 0 (c :: cs) ≥ 2 ^ 63) := by
      omega
    simp only [List.foldl_cons] at hval ⊢
    simp only [ge_iff_le, Nat.not_le.mpr hval, gt_iff_lt, false_and, if_false, not_false_eq_true,
      and_false, not_true_eq_false, and_self]

/-- What `strconv.ParseInt` returns for a minus sign and decimal digits. -/
theorem strconvParseInt_neg_digits (s : Str) (hne : s ≠ [])
    (hdig : ∀ c ∈ s, 48 ≤ c.toNat ∧ c.toNat ≤ 57)
    (hval : s.foldl (fun a c => 10 * a + (c.toNat - 48)) 0 ≤ 2 ^ 63) :
    strconvParseInt ('-' :: s)
      = some (-((s.foldl (fun a c => 10 * a + (c.toNat - 48)) 0 : Nat) : Int)) := by
  have hall : s.all (fun c => decide (48 ≤ c.toNat) && decide (c.toNat ≤ 57)) = true := by
    rw [List.all_eq_true]
    intro x hx
    have := hdig x hx
    simp [this.1, this.2]
  unfold strconvParseInt
  have hlt : ¬ (List.foldl (fun a c => 10 * a + (c.toNat - 48)) 0 s > 2 ^ 63) := by
    omega
  simp [hne, hall]
  norm_num at hval
  exact hval

/-- The text written by `strconv.Itoa` for a 64-bit integer is read back by
`strconv.ParseInt`. -/
theorem strconvParseInt_strconvItoa (i : Int)
    (h : -(2 : Int) ^ 63 ≤ i ∧ i < (2 : Int) ^ 63) :
    strconvParseInt (strconvItoa i) = some i := by
  unfold strconvItoa
  split
  · next hneg =>
    obtain ⟨hne, hdig, hval⟩ := toDigits_decimal (-i).toNat
    rw [strconvParseInt_neg_digits _ hne hdig (by rw [hval]; norm_num at h ⊢; omega), hval]
    congr 1
    omega
  · next hpos =>
    obtain ⟨hne, hdig, hval⟩ := toDigits_decimal i.toNat
    rw [strconvParseInt_digits _ hne hdig (by rw [hval]; norm_num at h ⊢; omega), hval]
    congr 1
    omega

theorem setupPagination_offset_parsed (size : Int) (pk token : Str) (v : Int)
    (hne : token ≠ []) (hp : strconvParseInt token = some v) :
    setupPagination (some { Size := size, Token := token })
        (some { Strategy := offsetKey, PrimaryKey := pk })
      = .returns (some { Strategy := offsetKey, Limit := clampPageSize size, Offset := v,
                         Cursor := [], PrimaryKey := pk }, none) := by
  simp [setupPagination, hne, hp]

theorem strconvParseInt_non_numeric (token : Str) (c : Char) (hc : c ∈ token)
    (hdig : ¬ (48 ≤ c.toNat ∧ c.toNat ≤ 57)) (hplus : c ≠ '+') (hminus : c ≠ '-') :
    strconvParseInt token = none := by
  cases token with
  | nil => simp at hc
  | cons x xs =>
    have hall : ∀ l : Str, c ∈ l →
        l.all (fun c => decide (48 ≤ c.toNat) && decide (c.toNat ≤ 57)) = false := by
      intro l hl
      rw [List.all_eq_false]
      exact ⟨c, hl, by simpa using hdig⟩
    unfold strconvParseInt
    by_cases hx : x = '+' ∨ x = '-'
    · have hxs : c ∈ xs := by
        rcases List.mem_cons.mp hc with h | h
        · rcases hx with h2 | h2
          · exact absurd (h.trans h2) hplus
          · exact absurd (h.trans h2) hminus
        · exact h
      simp [hx, hall xs hxs]
    · simp [hx, hall (x :: xs) hc]

/-- C16: under the offset strategy, when `(Offset + 1) * Limit` fits in 64 bits,
`nextPageToken` returns the base-10 text of `(Offset + 1) * Limit` without error, and
`setupPagination` given that text as the token, with the offset strategy, succeeds with
`Offset = (Offset + 1) * Limit` (for every page size and primary key). -/
theorem nextPageToken_offset_roundtrip (p : paginationContext) (lastRowID : Value)
    (size : Int) (pk : Str) (hs : p.Strategy = offsetKey) (ho : 0 ≤ p.Offset)
    (hrange : -(2 : Int) ^ 63 ≤ (p.Offset + 1) * p.Limit ∧
      (p.Offset + 1) * p.Limit < (2 : Int) ^ 63) :
    0 ≤ p.Offset ∧
    nextPageToken (some p) lastRowID = (strconvItoa ((p.Offset + 1) * p.Limit), none) ∧
    setupPagination (some { Size := size, Token := (nextPageToken (some p) lastRowID).1 })
        (some { Strategy := offsetKey, PrimaryKey := pk })
      = .returns (some { Strategy := offsetKey, Limit := clampPageSize size,
                         Offset := (p.Offset + 1) * p.Limit, Cursor := [],
                         PrimaryKey := pk }, none) := by
  have hw : wrapInt64 (p.Offset * p.Limit + p.Limit) = (p.Offset + 1) * p.Limit := by
    have e : p.Offset * p.Limit + p.Limit = (p.Offset + 1) * p.Limit := by ring
    rw [e]
    exact wrapInt64_of_range _ hrange
  have hn : nextPageToken (some p) lastRowID
      = (strconvItoa ((p.Offset + 1) * p.Limit), none) := by
    rw [nextPageToken_offset p lastRowID hs, hw]
  refine ⟨ho, hn, ?_⟩
  rw [hn]
  exact setupPagination_offset_parsed size pk _ _ (strconvItoa_ne_nil _)
    (strconvParseInt_strconvItoa _ hrange)

theorem nextPageToken_offset_roundtrip_witness :
    nextPageToken
        (some { Strategy := offsetKey, Limit := 50, Offset := 2, Cursor := [],
                PrimaryKey := "id".toList }) .nil
      = ("150".toList, none) :=
  (nextPageToken_offset_roundtrip
    { Strategy := offsetKey, Limit := 50, Offset := 2, Cursor := [], PrimaryKey := "id".toList }
    .nil 50 "id".toList rfl (by decide) (by decide)).2.1.trans (by decide)

/-- C19 (counterexample): with the offset strategy and the token `abc`, `setupPagination`
fails with `failed to parse offset token abc`; it does not succeed with offset 0. -/
theorem setupPagination_non_numeric_token :
    setupPagination (some { Size := 10, Token := "abc".toList })
        (some { Strategy := offsetKey, PrimaryKey := "id".toList })
      = .returns (none, some (.parseOffsetToken "abc".toList)) := by
  decide

/-- C19 (amended): under the offset strategy `setupPagination` succeeds with offset 0 for the
empty token and with the value of the token when the token is the base-10 text of a
non-negative integer below `2^63`; for a token holding a character that is neither a decimal
digit nor a sign it fails with `failed to parse offset token`. -/
theorem setupPagination_offset_token (size : Int) (pk token : Str) (n : Nat) (c : Char)
    (hn : n < 2 ^ 63) (hc : c ∈ token) (hdig : ¬ (48 ≤ c.toNat ∧ c.toNat ≤ 57))
    (hplus : c ≠ '+') (hminus : c ≠ '-') :
    setupPagination (some { Size := size, Token := [] })
        (some { Strategy := offsetKey, PrimaryKey := pk })
      = .returns (some { Strategy := offsetKey, Limit := clampPageSize size, Offset := 0,
                         Cursor := [], PrimaryKey := pk }, none) ∧
    setupPagination (some { Size := size, Token := Nat.toDigits 10 n })
        (some { Strategy := offsetKey, PrimaryKey := pk })
      = .returns (some { Strategy := offsetKey, Limit := clampPageSize size, Offset := n,
                         Cursor := [], PrimaryKey := pk }, none) ∧
    setupPagination (some { Size := size, Token := token })
        (some { Strategy := offsetKey, PrimaryKey := pk })
      = .returns (none, some (.parseOffsetToken token)) := by
  refine ⟨by simp [setupPagination], ?_, ?_⟩
  · obtain ⟨hne, hd, hval⟩ := toDigits_decimal n
    have hp := strconvParseInt_digits _ hne hd (by rw [hval]; exact hn)
    rw [hval] at hp
    exact setupPagination_offset_parsed size pk _ _ hne hp
  · have hne : token ≠ [] := List.ne_nil_of_mem hc
    simp [setupPagination, hne, strconvParseInt_non_numeric token c hc hdig hplus hminus]

theorem setupPagination_offset_token_witness :
    setupPagination (some { Size := 25, Token := "150".toList })
        (some { Strategy := offsetKey, PrimaryKey := "id".toList })
      = .returns (some { Strategy := offsetKey, Limit := 25, Offset := 150, Cursor := [],
                         PrimaryKey := "id".toList }, none) ∧
    setupPagination (some { Size := 25, Token := "12x".toList })
        (some { Strategy := offsetKey, PrimaryKey := "id".toList })
      = .returns (none, some (.parseOffsetToken "12x".toList)) :=
  ⟨(setupPagination_offset_token 25 "id".toList "12x".toList 150 'x' (by decide) (by decide)
      (by decide) (by decide) (by decide)).2.1,
   (setupPagination_offset_token 25 "id".toList "12x".toList 150 'x' (by decide) (by decide)
      (by decide) (by decide) (by decide)).2.2⟩

/-! ### Unquoted placeholders -/

theorem emitSubstitutions_append (d : DbEngine) (s1 s2 : List Substitution) :
    ∀ n, emitSubstitutions d (s1 ++ s2) n
      = emitSubstitutions d s1 n ++ emitSubstitutions d s2 (n + emittedPlaceholders s1) := by
  induction s1 with
  | nil => intro n; simp [emitSubstitutions, emittedPlaceholders]
  | cons s ss ih =>
    intro n
    cases s with
    | lit c => simp [emitSubstitutions, emittedPlaceholders, ih]
    | arg v =>
      simp only [List.cons_append, emitSubstitutions, emittedPlaceholders, ih, List.append_assoc]
      rw [show n + (emittedPlaceholders ss + 1) = n + 1 + emittedPlaceholders ss by omega]
      exact congrArg _ (ih (n + 1))
    | text v => simp [emitSubstitutions, emittedPlaceholders, ih]

theorem substitutedArgs_append (s1 s2 : List Substitution) :
    substitutedArgs (s1 ++ s2) = substitutedArgs s1 ++ substitutedArgs s2 := by
  induction s1 with
  | nil => rfl
  | cons s ss ih => cases s <;> simp [substitutedArgs, ih]

/-- When every piece of the query resolves, `parseQueryOpts` returns the emitted text and
the substituted arguments, without error. -/
theorem parseQueryOpts_of_resolved (caseTable : Char → Char) (d : DbEngine)
    (pCtx : Option paginationContext) (vars : Str → Option Value) (query : Str)
    (subs : List Substitution)
    (h : resolvePieces caseTable pCtx vars (regexpPieces queryOptRegex query 0) = some subs) :
    ∃ used, parseQueryOpts caseTable d pCtx query vars
      = .returns { query := emitSubstitutions d subs 0, args := substitutedArgs subs,
                   paginationUsed := used, err := none } := by
  obtain ⟨e1, e2, e3, e4⟩ := applyPieces_resolved caseTable d pCtx vars _ subs
    { qArgs := [], parseErr := [], paginationOptSet := false, panicked := false } rfl h
  unfold parseQueryOpts
  simp only [regexpReplaceAllStringFunc_eq_pieces]
  rw [e4]
  simp only [Bool.false_eq_true, if_false, e3, ne_eq, not_true_eq_false, e1, e2, List.nil_append,
    List.length_nil]
  exact ⟨_, rfl⟩

/-- The placeholder `?<k|unquoted>` parses to the lower-cased key with `Unquoted` set. -/
theorem parseToken_unquoted (caseTable : Char → Char) (k : Str) (hne : k ≠ [])
    (hk : ∀ c ∈ k, isWordChar c = true) :
    parseToken caseTable ("?<".toList ++ k ++ "|unquoted>".toList)
      = .ok { Key := stringsToLower caseTable k, Unquoted := true } := by
  have hshape : "?<".toList ++ k ++ "|unquoted>".toList
      = '?' :: '<' :: (k ++ '|' :: ("unquoted".toList ++ '>' :: [])) := by
    simp
  have h1 := takeWhile_append_stop isWordChar k '|' ("unquoted".toList ++ '>' :: []) hk
    (by decide)
  have hm : queryOptRegexAt ('?' :: '<' :: (k ++ '|' :: ("unquoted".toList ++ '>' :: [])))
      = some (k.length + "unquoted".toList.length + 4, k, "unquoted".toList) := by
    simp only [queryOptRegexAt, h1.1, h1.2, hne, if_false]
    rfl
  rw [hshape]
  unfold parseToken
  simp only [queryOptRegexFindStringSubmatch, hm]
  rfl

/-- C11: a placeholder with the `unquoted` option parses with `Unquoted` set and resolves to
the text of its value. When the pieces of a query resolve to `s1`, then the text of a value
`v` (an unquoted placeholder), then `s2`, `parseQueryOpts` returns the text emitted for `s1`,
then the `%v` formatting of `v`, then the text emitted for `s2` numbered from the
placeholders of `s1` on, exactly as `s2` is numbered in the query without the unquoted
placeholder; the arguments are those of `s1` and `s2` and nothing for `v`. On MySQL the query
of the specification gives `SELECT * FROM example_table WHERE test = ?` with the argument
`test example`. -/
theorem parseQueryOpts_unquoted (caseTable : Char → Char) (d : DbEngine)
    (pCtx : Option paginationContext) (vars : Str → Option Value) (query : Str)
    (s1 s2 : List Substitution) (v : Value)
    (h : resolvePieces caseTable pCtx vars (regexpPieces queryOptRegex query 0)
      = some (s1 ++ .text v :: s2)) :
    (∃ used, parseQueryOpts caseTable d pCtx query vars
      = .returns { query := emitSubstitutions d s1 0 ++ fmtV v
                              ++ emitSubstitutions d s2 (emittedPlaceholders s1),
                   args := substitutedArgs s1 ++ substitutedArgs s2,
                   paginationUsed := used, err := none }) ∧
    emitSubstitutions d (s1 ++ s2) 0
      = emitSubstitutions d s1 0 ++ emitSubstitutions d s2 (emittedPlaceholders s1) ∧
    substitutedArgs (s1 ++ s2) = substitutedArgs s1 ++ substitutedArgs s2 ∧
    (∀ k, k ≠ [] → (∀ c ∈ k, isWordChar c = true) →
      parseToken caseTable ("?<".toList ++ k ++ "|unquoted>".toList)
        = .ok { Key := stringsToLower caseTable k, Unquoted := true }) ∧
    (∀ t opts, parseToken caseTable t = .ok opts → opts.Unquoted = true →
      resolvePiece caseTable pCtx vars (.tok t)
        = (tokenValue pCtx vars opts.Key).map Substitution.text) ∧
    parseQueryOpts caseTable .MySQL none
        "SELECT * FROM ?<table_name|unquoted> WHERE test = ?<foo>".toList
        (fun key => if key = "table_name".toList then some (.str "example_table".toList)
          else if key = "foo".toList then some (.str "test example".toList) else none)
      = .returns { query := "SELECT * FROM example_table WHERE test = ?".toList,
                   args := [.str "test example".toList], paginationUsed := false,
                   err := none } := by
  refine ⟨?_, ?_, substitutedArgs_append s1 s2, parseToken_unquoted caseTable, ?_, ?_⟩
  · obtain ⟨used, hu⟩ := parseQueryOpts_of_resolved caseTable d pCtx vars query _ h
    refine ⟨used, ?_⟩
    rw [hu, emitSubstitutions_append, substitutedArgs_append]
    simp [emitSubstitutions, substitutedArgs]
  · rw [emitSubstitutions_append]
    simp
  · intro t opts hp hu
    simp [resolvePiece, hp, hu]
  · with_unfolding_all rfl

theorem parseQueryOpts_unquoted_witness :
    ∃ used, parseQueryOpts id .PostgreSQL none
      "FROM ?<t|unquoted> WHERE a = ?<foo>".toList
      (fun k => if k = "t".toList then some (.str "users".toList)
        else if k = "foo".toList then some (.int 42) else none)
      = .returns { query := "FROM users WHERE a = $1".toList,
                   args := [.int 42], paginationUsed := used, err := none } := by
  obtain ⟨used, hu⟩ := (parseQueryOpts_unquoted id .PostgreSQL none
    (fun k => if k = "t".toList then some (.str "users".toList)
      else if k = "foo".toList then some (.int 42) else none)
    "FROM ?<t|unquoted> WHERE a = ?<foo>".toList
    ("FROM ".toList.map Substitution.lit)
    (" WHERE a = ".toList.map Substitution.lit ++ [Substitution.arg (.int 42)])
    (.str "users".toList) (by rfl)).1
  exact ⟨used, hu.trans (by rfl)⟩

/-! ### Entitlement ids -/

theorem span_ne_append_sep (a rest : Str) (sep : Char) (h : sep ∉ a) :
    (a ++ sep :: rest).span (fun c => c ≠ sep) = (a, sep :: rest) := by
  rw [List.span_eq_take_drop]
  have := takeWhile_append_stop (fun c => decide (c ≠ sep)) a sep rest
    (fun x hx => by
      have : x ≠ sep := fun e => h (e ▸ hx)
      simpa using this)
    (by simp)
  rw [this.1, this.2]

theorem stringsSplitN_three (t r l : Str) (ht : ':' ∉ t) (hr : ':' ∉ r) :
    stringsSplitN (t ++ [':'] ++ r ++ [':'] ++ l) ':' 3 = [t, r, l] := by
  have e1 : t ++ [':'] ++ r ++ [':'] ++ l = t ++ ':' :: (r ++ ':' :: l) := by simp
  rw [e1]
  simp only [stringsSplitN, span_ne_append_sep _ _ _ ht, span_ne_append_sep _ _ _ hr]

/-- C21 (counterexample): with the resource id `ns:admin`, the id built from
`("role", "ns:admin", "member")` splits into `("role", "ns", "admin:member")`. -/
theorem SplitEntitlementID_colon_in_resource :
    SplitEntitlementID (some { V2Entitlement.zero with
        Id := "role".toList ++ [':'] ++ "ns:admin".toList ++ [':'] ++ "member".toList })
      = some ("role".toList, "ns".toList, "admin:member".toList)
    ∧ ("role".toList, "ns".toList, "admin:member".toList)
      ≠ ("role".toList, "ns:admin".toList, "member".toList) := by
  decide

/-- C21 (amended): when the resource type `t` and the resource id `r` contain no colon,
`SplitEntitlementID` on the entitlement whose id is `t:r:l` returns `(t, r, l)` without error,
whatever the local id `l` is (it may contain colons); this holds in particular for the id that
`NewEntitlementID` builds, and `role:admin:member` splits into `(role, admin, member)`. -/
theorem SplitEntitlementID_roundtrip (t r l : Str) (e : V2Entitlement)
    (ht : ':' ∉ t) (hr : ':' ∉ r) (he : e.Id = t ++ [':'] ++ r ++ [':'] ++ l) :
    SplitEntitlementID (some e) = some (t, r, l)
    ∧ SplitEntitlementID (some { e with Id := NewEntitlementID ⟨t, r, []⟩ l }) = some (t, r, l)
    ∧ SplitEntitlementID (some { e with Id := "role:admin:member".toList })
        = some ("role".toList, "admin".toList, "member".toList) := by
  refine ⟨?_, ?_, by rfl⟩
  · simp only [SplitEntitlementID, he, stringsSplitN_three t r l ht hr]
  · simp only [SplitEntitlementID, NewEntitlementID, stringsSplitN_three t r l ht hr]

theorem SplitEntitlementID_roundtrip_witness :
    SplitEntitlementID (some { V2Entitlement.zero with Id := "role:admin:a:b".toList })
      = some ("role".toList, "admin".toList, "a:b".toList) :=
  (SplitEntitlementID_roundtrip "role".toList "admin".toList "a:b".toList
    { V2Entitlement.zero with Id := "role:admin:a:b".toList } (by decide) (by decide)
    (by decide)).1

/-! ### Provisioning configuration of an entitlement -/

theorem getProvisioningConfigStatic_some (entitlementID : Str) (p : EntitlementProvisioning) :
    ∀ statics : List EntitlementMapping,
      getProvisioningConfigStatic entitlementID statics = some p →
      ∃ e ∈ statics, e.Id = entitlementID ∧ e.Provisioning = some p := by
  intro statics
  induction statics with
  | nil => intro h; simp [getProvisioningConfigStatic] at h
  | cons e rest ih =>
    intro h
    unfold getProvisioningConfigStatic at h
    by_cases hid : e.Id = entitlementID
    · simp only [ne_eq, hid, not_true_eq_false, if_false] at h
      cases hp : e.Provisioning with
      | none =>
        rw [hp] at h
        obtain ⟨e2, hm, h1, h2⟩ := ih h
        exact ⟨e2, List.mem_cons_of_mem _ hm, h1, h2⟩
      | some p2 =>
        rw [hp] at h
        simp only [Option.some.injEq] at h
        exact ⟨e, List.mem_cons_self _ _, hid, by rw [hp, h]⟩
    · simp only [ne_eq, hid, not_false_eq_true, if_true] at h
      obtain ⟨e2, hm, h1, h2⟩ := ih h
      exact ⟨e2, List.mem_cons_of_mem _ hm, h1, h2⟩

theorem getProvisioningConfigStatic_none (entitlementID : Str) :
    ∀ statics : List EntitlementMapping,
      (∀ e ∈ statics, e.Id = entitlementID → e.Provisioning = none) →
      getProvisioningConfigStatic entitlementID statics = none := by
  intro statics
  induction statics with
  | nil => intro _; rfl
  | cons e rest ih =>
    intro h
    unfold getProvisioningConfigStatic
    by_cases hid : e.Id = entitlementID
    · simp only [ne_eq, hid, not_true_eq_false, if_false]
      rw [h e (List.mem_cons_self _ _) hid]
      exact ih (fun e2 hm => h e2 (List.mem_cons_of_mem _ hm))
    · simp only [ne_eq, hid, not_false_eq_true, if_true]
      exact ih (fun e2 hm => h e2 (List.mem_cons_of_mem _ hm))

/-- C26: `getProvisioningConfig` does not compare the id on the dynamic path. Whenever no
static entry with the given id has a provisioning and the first dynamic mapping has the
provisioning `p`, every entitlement id gets `(p, true)`: an id that no mapping denotes, and
the ids of a second mapping whose own provisioning is `p2`. A result that comes from the static
entries does belong to an entry with the given id. -/
theorem getProvisioningConfig_dynamic_any_id (entitlementID : Str)
    (statics : List EntitlementMapping) (q : EntitlementsQuery)
    (m m2 : EntitlementMapping) (p p2 : EntitlementProvisioning)
    (rest : List EntitlementMapping) :
    ((∀ e ∈ statics, e.Id = entitlementID → e.Provisioning = none) →
      getProvisioningConfig statics
        (some { q with Map := { m with Provisioning := some p }
                  :: { m2 with Provisioning := some p2 } :: rest }) entitlementID
        = (some p, true))
    ∧ getProvisioningConfig []
        (some { q with Map := { m with Provisioning := some p }
                  :: { m2 with Provisioning := some p2 } :: rest }) entitlementID
        = (some p, true)
    ∧ (∀ r, getProvisioningConfigStatic entitlementID statics = some r →
        getProvisioningConfig statics (some q) entitlementID = (some r, true)
        ∧ ∃ e ∈ statics, e.Id = entitlementID ∧ e.Provisioning = some r) := by
  refine ⟨?_, ?_, ?_⟩
  · intro h
    simp [getProvisioningConfig, getProvisioningConfigStatic_none entitlementID statics h,
      getProvisioningConfigDynamic]
  · simp [getProvisioningConfig, getProvisioningConfigStatic, getProvisioningConfigDynamic]
  · intro r hr
    exact ⟨by simp [getProvisioningConfig, hr],
      getProvisioningConfigStatic_some entitlementID r statics hr⟩

/-! ### Static and dynamic entitlements -/

theorem staticEntitlement_ok (celEval : Str → Except EvalError Value) (fmtS : Value → Str)
    (resource : V2Resource) (e : EntitlementMapping) (ent : V2Entitlement)
    (h : staticEntitlement celEval fmtS resource e = .ok ent) :
    ent.Slug = (if e.Slug = [] then e.Id else []) ∧ ent.GrantableTo = []
      ∧ ent.Id = NewEntitlementID resource e.Id := by
  unfold staticEntitlement at h
  simp only at h
  split at h
  · cases h
  · split at h
    · cases h
    · rename_i v hv
      by_cases hd : e.Description = []
      · simp only [hd, ne_eq, not_true_eq_false, if_false] at h
        cases h
        by_cases hs : e.Slug = [] <;> simp [hs, V2Entitlement.zero]
      · simp only [hd, ne_eq, not_false_eq_true, if_true] at h
        split at h
        · cases h
        · rename_i ent2 h2
          split at h2
          · cases h2
          · cases h2
            cases h
            by_cases hs : e.Slug = [] <;> simp [hs, V2Entitlement.zero]

theorem staticEntitlement_succeeds (celEval : Str → Except EvalError Value) (fmtS : Value → Str)
    (resource : V2Resource) (e : EntitlementMapping) (hn : e.DisplayName ≠ [])
    (h1 : (EvaluateString celEval fmtS e.DisplayName).2 = none)
    (h2 : e.Description ≠ [] → (EvaluateString celEval fmtS e.Description).2 = none) :
    ∃ ent, staticEntitlement celEval fmtS resource e = .ok ent := by
  unfold staticEntitlement
  simp only [hn, if_false]
  rcases hdn : EvaluateString celEval fmtS e.DisplayName with ⟨v, oe⟩
  rw [hdn] at h1
  simp only at h1
  subst h1
  simp only
  by_cases hd : e.Description = []
  · simp [hd]
  · rcases hde : EvaluateString celEval fmtS e.Description with ⟨w, oe2⟩
    have := h2 hd
    rw [hde] at this
    simp only at this
    subst this
    simp [hd]

theorem staticEntitlementsLoop_ok (celEval : Str → Except EvalError Value) (fmtS : Value → Str)
    (resource : V2Resource) :
    ∀ (entries : List EntitlementMapping) (ret ents : List V2Entitlement),
      staticEntitlementsLoop celEval fmtS resource entries ret = .ok ents →
      ∃ new, ents = ret ++ new
        ∧ List.Forall₂ (fun e ent => staticEntitlement celEval fmtS resource e = .ok ent)
            entries new := by
  intro entries
  induction entries with
  | nil =>
    intro ret ents h
    simp only [staticEntitlementsLoop, Except.ok.injEq] at h
    exact ⟨[], by simp [h], List.Forall₂.nil⟩
  | cons e rest ih =>
    intro ret ents h
    unfold staticEntitlementsLoop at h
    cases he : staticEntitlement celEval fmtS resource e with
    | error err => rw [he] at h; cases h
    | ok ent =>
      rw [he] at h
      obtain ⟨new, h1, h2⟩ := ih _ _ h
      exact ⟨ent :: new, by simp [h1], List.Forall₂.cons he h2⟩

theorem staticEntitlementsLoop_succeeds (celEval : Str → Except EvalError Value)
    (fmtS : Value → Str) (resource : V2Resource) :
    ∀ (entries : List EntitlementMapping) (ret : List V2Entitlement),
      (∀ e ∈ entries, ∃ ent, staticEntitlement celEval fmtS resource e = .ok ent) →
      ∃ ents, staticEntitlementsLoop celEval fmtS resource entries ret = .ok ents := by
  intro entries
  induction entries with
  | nil => intro ret _; exact ⟨ret, rfl⟩
  | cons e rest ih =>
    intro ret h
    obtain ⟨ent, he⟩ := h e (List.mem_cons_self _ _)
    unfold staticEntitlementsLoop
    rw [he]
    exact ih _ (fun e2 hm => h e2 (List.mem_cons_of_mem _ hm))

theorem staticEntitlements_fields (celEval : Str → Except EvalError Value) (fmtS : Value → Str)
    (resource : V2Resource) (entries : List EntitlementMapping) (ents : List V2Entitlement)
    (h : staticEntitlements celEval fmtS resource entries = .ok ents) :
    List.Forall₂ (fun e ent => ent.Slug = (if e.Slug = [] then e.Id else [])
        ∧ ent.GrantableTo = [] ∧ ent.Id = NewEntitlementID resource e.Id) entries ents := by
  obtain ⟨new, h1, h2⟩ := staticEntitlementsLoop_ok celEval fmtS resource entries [] ents h
  simp only [List.nil_append] at h1
  subst h1
  exact h2.imp (fun {e ent} he => staticEntitlement_ok celEval fmtS resource e ent he)

theorem staticEntitlements_succeeds (celEval : Str → Except EvalError Value) (fmtS : Value → Str)
    (resource : V2Resource) (entries : List EntitlementMapping)
    (h : ∀ e ∈ entries, e.DisplayName ≠ []
        ∧ (EvaluateString celEval fmtS e.DisplayName).2 = none
        ∧ (e.Description ≠ [] → (EvaluateString celEval fmtS e.Description).2 = none)) :
    ∃ ents, staticEntitlements celEval fmtS resource entries = .ok ents :=
  staticEntitlementsLoop_succeeds celEval fmtS resource entries []
    (fun e hm => staticEntitlement_succeeds celEval fmtS resource e (h e hm).1 (h e hm).2.1
      (h e hm).2.2)

theorem forall₂_map_eq {α β γ : Type} (f : α → γ) (g : β → γ) (l1 : List α) (l2 : List β)
    (h : List.Forall₂ (fun a b => g b = f a) l1 l2) : l2.map g = l1.map f := by
  induction h with
  | nil => rfl
  | cons hab _ ih => simp [hab, ih]

theorem grantableTo_foldl (rt : Str) :
    ∀ (rts ret : List V2ResourceType),
      rts.foldl (fun acc r => if r.Id = rt then acc ++ [r] else acc) ret
        = ret ++ rts.filter (fun r => decide (r.Id = rt)) := by
  intro rts
  induction rts with
  | nil => intro ret; simp
  | cons r rest ih =>
    intro ret
    by_cases h : r.Id = rt
    · simp [List.foldl_cons, h, ih, List.filter_cons]
    · simp [List.foldl_cons, h, ih, List.filter_cons]

theorem grantableToLoop_eq (rts : List V2ResourceType) :
    ∀ (ids : List Str) (ret : List V2ResourceType),
      grantableToLoop rts ids ret
        = ret ++ ids.flatMap (fun rt => rts.filter (fun r => decide (r.Id = rt))) := by
  intro ids
  induction ids with
  | nil => intro ret; simp [grantableToLoop]
  | cons rt rest ih =>
    intro ret
    simp [grantableToLoop, grantableTo_foldl, ih, List.flatMap_cons]

theorem filter_id_of_nodup (rt : Str) :
    ∀ rts : List V2ResourceType, (rts.map (fun r => r.Id)).Nodup →
      rts.filter (fun r => decide (r.Id = rt))
        = (rts.find? (fun r => decide (r.Id = rt))).toList := by
  intro rts
  induction rts with
  | nil => intro _; rfl
  | cons r rest ih =>
    intro hnd
    simp only [List.map_cons, List.nodup_cons] at hnd
    by_cases h : r.Id = rt
    · have hnone : rest.filter (fun r => decide (r.Id = rt)) = [] := by
        rw [List.filter_eq_nil_iff]
        intro x hx hxe
        simp only [decide_eq_true_eq] at hxe
        exact hnd.1 (List.mem_map.mpr ⟨x, hx, by rw [hxe, h]⟩)
      simp [List.filter_cons, List.find?_cons, h, hnone]
    · simp [List.filter_cons, List.find?_cons, h, ih hnd.2]

theorem flatMap_toList_eq_filterMap {α β : Type} (f : α → Option β) :
    ∀ l : List α, l.flatMap (fun a => (f a).toList) = l.filterMap f := by
  intro l
  induction l with
  | nil => rfl
  | cons a rest ih =>
    cases h : f a <;> simp [List.flatMap_cons, List.filterMap_cons, h, ih]

theorem mapEntitlement_grantableTo (celEval : Str → Except EvalError Value) (fmtS : Value → Str)
    (rts : List V2ResourceType) (resource : V2Resource) (m : EntitlementMapping)
    (ent : V2Entitlement)
    (h : mapEntitlement celEval fmtS (.ok rts) resource m = .ok (some ent)) :
    ent.GrantableTo = grantableToLoop rts m.GrantableTo [] := by
  unfold mapEntitlement at h
  simp only at h
  repeat' split at h
  all_goals cases h
  rename_i ent2 hdesc _ _ _ _ _ _ _
  have hg : ent2.GrantableTo = [] := by
    split at hdesc
    · split at hdesc
      · cases hdesc
      · cases hdesc
        rfl
    · cases hdesc
      rfl
  simp [hg]

theorem mapEntitlement_succeeds (celEval : Str → Except EvalError Value) (fmtS : Value → Str)
    (rts : List V2ResourceType) (resource : V2Resource) (m : EntitlementMapping)
    (hskip : m.SkipIf = []) (hid : m.Id ≠ []) (hdn : m.DisplayName ≠ []) (hslug : m.Slug ≠ [])
    (hev : ∀ expr, (EvaluateString celEval fmtS expr).2 = none) :
    ∃ ent, mapEntitlement celEval fmtS (.ok rts) resource m = .ok (some ent) := by
  have hev2 : ∀ expr, ∃ v, EvaluateString celEval fmtS expr = (v, none) := fun expr =>
    ⟨(EvaluateString celEval fmtS expr).1, Prod.ext rfl (hev expr)⟩
  obtain ⟨v1, h1⟩ := hev2 m.Id
  obtain ⟨v2, h2⟩ := hev2 m.DisplayName
  obtain ⟨v3, h3⟩ := hev2 m.Description
  obtain ⟨v4, h4⟩ := hev2 m.Slug
  obtain ⟨v5, h5⟩ := hev2 m.Purpose
  unfold mapEntitlement
  by_cases hd : m.Description = [] <;> by_cases hp : m.Purpose = [] <;>
    simp [hskip, hid, hdn, hslug, h1, h2, h3, h4, h5, hd, hp]

/-- C29: every entitlement that `staticEntitlements` emits for an entry `e` has the slug `e.Id`
when `e.Slug` is empty and the empty slug when `e.Slug` is set, so a configured slug never
reaches the emitted entitlement; and the call does emit one entitlement per entry whenever
every entry has a display name and its expressions evaluate. -/
theorem staticEntitlements_slug (celEval : Str → Except EvalError Value) (fmtS : Value → Str)
    (resource : V2Resource) (entries : List EntitlementMapping) :
    (∀ ents, staticEntitlements celEval fmtS resource entries = .ok ents →
      ents.map (fun ent => ent.Slug)
        = entries.map (fun e => if e.Slug = [] then e.Id else []))
    ∧ ((∀ e ∈ entries, e.DisplayName ≠ []
          ∧ (EvaluateString celEval fmtS e.DisplayName).2 = none
          ∧ (e.Description ≠ [] → (EvaluateString celEval fmtS e.Description).2 = none)) →
        ∃ ents, staticEntitlements celEval fmtS resource entries = .ok ents
          ∧ ents.length = entries.length) := by
  refine ⟨?_, ?_⟩
  · intro ents h
    exact forall₂_map_eq _ _ _ _
      ((staticEntitlements_fields celEval fmtS resource entries ents h).imp
        (fun {e ent} he => he.1))
  · intro h
    obtain ⟨ents, he⟩ := staticEntitlements_succeeds celEval fmtS resource entries h
    exact ⟨ents, he,
      (staticEntitlements_fields celEval fmtS resource entries ents he).length_eq.symm⟩

theorem staticEntitlements_slug_witness :
    (staticEntitlements (fun e => .ok (.str e)) fmtV ⟨"role".toList, "admin".toList, []⟩
      [{ Id := "member".toList, DisplayName := "a".toList, Description := [],
         GrantableTo := ["user".toList], Purpose := [], Slug := "my-slug".toList,
         Immutable := false, SkipIf := [], Provisioning := none },
       { Id := "owner".toList, DisplayName := "b".toList, Description := [],
         GrantableTo := [], Purpose := [], Slug := [],
         Immutable := false, SkipIf := [], Provisioning := none }]).map
      (fun ents => ents.map (fun ent => ent.Slug)) = .ok [[], "owner".toList] := by
  obtain ⟨ents, he, _⟩ := (staticEntitlements_slug (fun e => .ok (.str e)) fmtV
    ⟨"role".toList, "admin".toList, []⟩
    [{ Id := "member".toList, DisplayName := "a".toList, Description := [],
       GrantableTo := ["user".toList], Purpose := [], Slug := "my-slug".toList,
       Immutable := false, SkipIf := [], Provisioning := none },
     { Id := "owner".toList, DisplayName := "b".toList, Description := [],
       GrantableTo := [], Purpose := [], Slug := [],
       Immutable := false, SkipIf := [], Provisioning := none }]).2
    (by
      intro e he
      simp only [List.mem_cons, List.mem_singleton, List.not_mem_nil, or_false] at he
      rcases he with rfl | rfl
      · exact ⟨by decide, rfl, fun _ => rfl⟩
      · exact ⟨by decide, rfl, fun _ => rfl⟩)
  have hs := (staticEntitlements_slug (fun e => .ok (.str e)) fmtV
    ⟨"role".toList, "admin".toList, []⟩ _).1 ents he
  rw [he]
  simp only [Except.map, hs]
  rfl

/-- C30: every entitlement that `staticEntitlements` emits has an empty `GrantableTo`,
whatever `grantable_to` its entry configures, while an entitlement that `mapEntitlement`
returns lists, for each configured id in the configured order, the known resource types with
that id (with distinct ids: the one known resource type, if any), so that an unknown id adds
nothing and raises no error; both calls do return when the required fields are set and the
expressions evaluate. -/
theorem entitlements_grantableTo (celEval : Str → Except EvalError Value) (fmtS : Value → Str)
    (resource : V2Resource) (entries : List EntitlementMapping)
    (rts : List V2ResourceType) (m : EntitlementMapping) :
    (∀ ents, staticEntitlements celEval fmtS resource entries = .ok ents →
      ents.length = entries.length ∧ ∀ ent ∈ ents, ent.GrantableTo = [])
    ∧ (∀ ent, mapEntitlement celEval fmtS (.ok rts) resource m = .ok (some ent) →
        ent.GrantableTo
          = m.GrantableTo.flatMap (fun rt => rts.filter (fun r => decide (r.Id = rt)))
        ∧ ((rts.map (fun r => r.Id)).Nodup →
            ent.GrantableTo
              = m.GrantableTo.filterMap (fun rt => rts.find? (fun r => decide (r.Id = rt)))))
    ∧ ((∀ e ∈ entries, e.DisplayName ≠ []) →
        (∀ expr, (EvaluateString celEval fmtS expr).2 = none) →
        ∃ ents, staticEntitlements celEval fmtS resource entries = .ok ents)
    ∧ (m.SkipIf = [] → m.Id ≠ [] → m.DisplayName ≠ [] → m.Slug ≠ [] →
        (∀ expr, (EvaluateString celEval fmtS expr).2 = none) →
        ∃ ent, mapEntitlement celEval fmtS (.ok rts) resource m = .ok (some ent)) := by
  refine ⟨?_, ?_, ?_, ?_⟩
  · intro ents h
    have hf := staticEntitlements_fields celEval fmtS resource entries ents h
    refine ⟨hf.length_eq.symm, ?_⟩
    have hm := forall₂_map_eq (fun _ => ([] : List V2ResourceType))
      (fun ent : V2Entitlement => ent.GrantableTo) _ _ (hf.imp (fun {e ent} he => he.2.1))
    intro ent hent
    have : ent.GrantableTo ∈ ents.map (fun ent => ent.GrantableTo) :=
      List.mem_map.mpr ⟨ent, hent, rfl⟩
    rw [hm] at this
    obtain ⟨_, _, h2⟩ := List.mem_map.mp this
    exact h2.symm
  · intro ent h
    have hg := mapEntitlement_grantableTo celEval fmtS rts resource m ent h
    rw [grantableToLoop_eq, List.nil_append] at hg
    refine ⟨hg, fun hnd => ?_⟩
    rw [hg, ← flatMap_toList_eq_filterMap]
    congr 1
    funext rt
    exact filter_id_of_nodup rt rts hnd
  · intro hn hev
    exact staticEntitlements_succeeds celEval fmtS resource entries
      (fun e he => ⟨hn e he, hev _, fun _ => hev _⟩)
  · intro hskip hid hdn hslug hev
    exact mapEntitlement_succeeds celEval fmtS rts resource m hskip hid hdn hslug hev

theorem entitlements_grantableTo_witness :
    (mapEntitlement (fun e => .ok (.str e)) fmtV
      (.ok [⟨"user".toList, [], [], [], false⟩, ⟨"group".toList, [], [], [], false⟩])
      ⟨"role".toList, "admin".toList, []⟩
      { Id := "member".toList, DisplayName := "a".toList, Description := [],
        GrantableTo := ["group".toList, "team".toList, "user".toList], Purpose := [],
        Slug := "s".toList, Immutable := false, SkipIf := [], Provisioning := none }).map
      (fun r => r.map (fun ent => ent.GrantableTo))
      = .ok (some [⟨"group".toList, [], [], [], false⟩, ⟨"user".toList, [], [], [], false⟩]) := by
  obtain ⟨ent, he⟩ := (entitlements_grantableTo (fun e => .ok (.str e)) fmtV
    ⟨"role".toList, "admin".toList, []⟩ []
    [⟨"user".toList, [], [], [], false⟩, ⟨"group".toList, [], [], [], false⟩]
    { Id := "member".toList, DisplayName := "a".toList, Description := [],
      GrantableTo := ["group".toList, "team".toList, "user".toList], Purpose := [],
      Slug := "s".toList, Immutable := false, SkipIf := [], Provisioning := none }).2.2.2
    rfl (by decide) (by decide) (by decide)
    (by
      intro expr
      unfold EvaluateString Evaluate
      rfl)
  have hs := ((entitlements_grantableTo (fun e => .ok (.str e)) fmtV
    ⟨"role".toList, "admin".toList, []⟩ [] _ _).2.1 ent he).1
  rw [he]
  simp only [Except.map, Option.map, hs]
  rfl

/-! ### The status of a user trait -/

theorem userTraitStatus_of_lower (caseTable : Char → Char) (v w : Str)
    (h : stringsToLower caseTable w = stringsToLower caseTable v) :
    userTraitStatus caseTable w = userTraitStatus caseTable v := by
  simp only [userTraitStatus, h]

/-- C25: when the status expression evaluates to the string `v` (and the status-details
expression, if there is one, evaluates too), the status block of `mapUserTrait` returns
without error and appends one status option; its status depends only on the lowercased `v`:
`active` and `enabled` give ENABLED; `disabled`, `inactive`, `suspended` and `locked` give
DISABLED; `deleted` gives DELETED; every other string gives UNSPECIFIED with a warning. -/
theorem mapUserTrait_status (caseTable : Char → Char) (celEval : Str → Except EvalError Value)
    (fmtS : Value → Str) (status statusDetails v : Str) (opts : List UserTraitOption)
    (hs : status ≠ []) (hv : EvaluateString celEval fmtS status = (v, none))
    (hd : statusDetails ≠ [] → (EvaluateString celEval fmtS statusDetails).2 = none) :
    (mapUserTraitStatus caseTable celEval fmtS status statusDetails opts
        = .ok (opts ++ [if statusDetails ≠ [] then
                  .WithDetailedStatus (userTraitStatus caseTable v).1
                    (EvaluateString celEval fmtS statusDetails).1
                else .WithStatus (userTraitStatus caseTable v).1],
              (userTraitStatus caseTable v).2))
    ∧ (stringsToLower caseTable v = "active".toList
        ∨ stringsToLower caseTable v = "enabled".toList →
        userTraitStatus caseTable v = (.STATUS_ENABLED, false))
    ∧ (stringsToLower caseTable v = "disabled".toList
        ∨ stringsToLower caseTable v = "inactive".toList
        ∨ stringsToLower caseTable v = "suspended".toList
        ∨ stringsToLower caseTable v = "locked".toList →
        userTraitStatus caseTable v = (.STATUS_DISABLED, false))
    ∧ (stringsToLower caseTable v = "deleted".toList →
        userTraitStatus caseTable v = (.STATUS_DELETED, false))
    ∧ (stringsToLower caseTable v ≠ "active".toList
        → stringsToLower caseTable v ≠ "enabled".toList
        → stringsToLower caseTable v ≠ "disabled".toList
        → stringsToLower caseTable v ≠ "inactive".toList
        → stringsToLower caseTable v ≠ "suspended".toList
        → stringsToLower caseTable v ≠ "locked".toList
        → stringsToLower caseTable v ≠ "deleted".toList
        → userTraitStatus caseTable v = (.STATUS_UNSPECIFIED, true))
    ∧ (∀ w, stringsToLower caseTable w = stringsToLower caseTable v →
        userTraitStatus caseTable w = userTraitStatus caseTable v)
    ∧ userTraitStatus caseTable "Active".toList = (.STATUS_ENABLED, false)
    ∧ userTraitStatus caseTable "LOCKED".toList = (.STATUS_DISABLED, false)
    ∧ userTraitStatus caseTable "Deleted".toList = (.STATUS_DELETED, false)
    ∧ userTraitStatus caseTable "on leave".toList = (.STATUS_UNSPECIFIED, true) := by
  refine ⟨?_, ?_, ?_, ?_, ?_, ?_, by rfl, by rfl, by rfl, by rfl⟩
  · unfold mapUserTraitStatus
    simp only [hs, ne_eq, not_false_eq_true, if_true, hv]
    by_cases hsd : statusDetails = []
    · simp [hsd]
    · have h2 := hd hsd
      rcases he : EvaluateString celEval fmtS statusDetails with ⟨d, oe⟩
      rw [he] at h2
      simp only at h2
      subst h2
      simp [hsd]
  · rintro (h | h) <;> simp [userTraitStatus, h]
  · rintro (h | h | h | h) <;> simp [userTraitStatus, h]
  · intro h
    simp [userTraitStatus, h]
  · intro h1 h2 h3 h4 h5 h6 h7
    unfold userTraitStatus
    simp only [if_neg h1, if_neg h2, if_neg h3, if_neg h4, if_neg h5, if_neg h6, if_neg h7]
  · intro w hw
    exact userTraitStatus_of_lower caseTable v w hw

theorem mapUserTrait_status_witness :
    mapUserTraitStatus id (fun _ => .ok (.str "SUSPENDED".toList)) fmtV "x".toList [] []
      = .ok ([.WithStatus .STATUS_DISABLED], false) :=
  (mapUserTrait_status id (fun _ => .ok (.str "SUSPENDED".toList)) fmtV "x".toList []
    "SUSPENDED".toList [] (by decide) (by rfl) (fun h => absurd rfl h)).1

/-! ### Query inputs of account provisioning -/

theorem find?_filter_ne {β : Type} (k k2 : Str) (h : k2 ≠ k) :
    ∀ m : List (Str × β),
      (m.filter (fun kv => decide (kv.1 ≠ k))).find? (fun kv => decide (kv.1 = k2))
        = m.find? (fun kv => decide (kv.1 = k2)) := by
  intro m
  induction m with
  | nil => rfl
  | cons kv rest ih =>
    rcases kv with ⟨a, b⟩
    by_cases h1 : a = k
    · subst h1
      have h2 : ¬ a = k2 := fun e => h e.symm
      simp only [List.filter_cons, ne_eq, not_true_eq_false, decide_False, Bool.false_eq_true,
        if_false, List.find?_cons, h2]
      exact ih
    · by_cases h2 : a = k2
      · subst h2
        simp [List.filter_cons, List.find?_cons, h1]
      · simp only [List.filter_cons, ne_eq, h1, not_false_eq_true, decide_True, if_true,
          List.find?_cons, h2, decide_False]
        exact ih

theorem GoMap.index_assign {β : Type} (m : GoMap β) (k : Str) (v : β) (k2 : Str) :
    (m.assign k v).index k2 = if k2 = k then some v else m.index k2 := by
  unfold GoMap.assign GoMap.index
  by_cases h : k2 = k
  · subst h
    simp [List.find?_cons]
  · have hk : ¬ k = k2 := fun e => h e.symm
    simp only [List.find?_cons, hk, decide_False, h, if_false]
    rw [find?_filter_ne k k2 h]

theorem GoMap.index_nil {β : Type} (k : Str) : GoMap.index ([] : GoMap β) k = none := rfl

theorem GoMap.length_pos_of_index {β : Type} (m : GoMap β) (k : Str) (v : β)
    (h : m.index k = some v) : m.length > 0 := by
  cases m with
  | nil => simp [GoMap.index] at h
  | cons _ _ => simp

theorem schemaLoop_index (profile : Str → Option ProfileValue) (k : Str) :
    ∀ (schema : List AccountProvisioningField) (queryInputs : GoMap QueryInput)
      (schemaVars : GoMap InputValue),
      (schemaLoop profile schema (queryInputs, schemaVars)).1.index k
          = (match retainedValue profile schema k with
             | some v => some (.value v)
             | none => queryInputs.index k)
      ∧ (schemaLoop profile schema (queryInputs, schemaVars)).2.index k
          = (match retainedValue profile schema k with
             | some v => some v
             | none => schemaVars.index k) := by
  intro schema
  induction schema with
  | nil => intro qi sv; simp [schemaLoop, retainedValue]
  | cons field rest ih =>
    intro qi sv
    unfold schemaLoop retainedValue
    cases hp : profile field.Name with
    | none =>
      simp only [Option.none_bind]
      have := ih qi sv
      cases hr : retainedValue profile rest k with
      | none => rw [hr] at this; simpa using this
      | some v => rw [hr] at this; simpa using this
    | some value =>
      simp only [Option.some_bind]
      cases hv : parseProfileValue field.FieldType value with
      | none =>
        have := ih qi sv
        cases hr : retainedValue profile rest k with
        | none => rw [hr] at this; simpa using this
        | some v => rw [hr] at this; simpa using this
      | some parsed =>
        have := ih (qi.assign field.Name (.value parsed)) (sv.assign field.Name parsed)
        cases hr : retainedValue profile rest k with
        | none =>
          rw [hr] at this
          simp only [GoMap.index_assign] at this
          by_cases hk : k = field.Name
          · subst hk
            simpa using this
          · have hk2 : ¬ field.Name = k := fun e => hk e.symm
            simpa [hk, hk2] using this
        | some v => rw [hr] at this; simpa using this

theorem retainedValue_none_iff (profile : Str → Option ProfileValue) (name : Str) :
    ∀ schema : List AccountProvisioningField,
      retainedValue profile schema name = none
        ↔ ∀ field ∈ schema, field.Name = name →
            ∀ value, profile name = some value →
              parseProfileValue field.FieldType value = none := by
  intro schema
  induction schema with
  | nil => simp [retainedValue]
  | cons field rest ih =>
    unfold retainedValue
    constructor
    · intro h g hg hname value hval
      cases hr : retainedValue profile rest name with
      | some v => rw [hr] at h; cases h
      | none =>
        rw [hr] at h
        rcases List.mem_cons.mp hg with rfl | hg2
        · simp only [hname, if_true, hval, Option.some_bind] at h
          exact h
        · exact (ih.mp hr) g hg2 hname value hval
    · intro h
      have hr : retainedValue profile rest name = none :=
        ih.mpr (fun g hg => h g (List.mem_cons_of_mem _ hg))
      rw [hr]
      by_cases hn : field.Name = name
      · simp only [hn, if_true]
        cases hp : profile name with
        | none => rfl
        | some value =>
          simp only [Option.some_bind]
          exact h field (List.mem_cons_self _ _) hn value hp
      · simp [hn]

theorem retainedValue_of_nodup (profile : Str → Option ProfileValue) :
    ∀ schema : List AccountProvisioningField, (schema.map (fun f => f.Name)).Nodup →
      ∀ field ∈ schema,
        retainedValue profile schema field.Name
          = (profile field.Name).bind (parseProfileValue field.FieldType) := by
  intro schema
  induction schema with
  | nil => intro _ f hf; cases hf
  | cons g rest ih =>
    intro hnd f hf
    simp only [List.map_cons, List.nodup_cons] at hnd
    unfold retainedValue
    rcases List.mem_cons.mp hf with rfl | hf2
    · have hr : retainedValue profile rest f.Name = none := by
        rw [retainedValue_none_iff]
        intro g2 hg2 hname
        exact absurd (List.mem_map.mpr ⟨g2, hg2, hname⟩) hnd.1
      rw [hr]
      simp
    · rw [ih hnd.2 f hf2]
      have hne : ¬ g.Name = f.Name := fun e =>
        hnd.1 (List.mem_map.mpr ⟨f, hf2, e.symm⟩)
      cases (profile f.Name).bind (parseProfileValue f.FieldType) <;> simp [hne]

theorem addNamespace_index (queryInputs : GoMap QueryInput) (key : Str) (m : GoMap InputValue)
    (k : Str) :
    (addNamespace queryInputs key m).index k
      = if k = key ∧ m.length > 0 ∧ queryInputs.index key = none then some (.submap m)
        else queryInputs.index k := by
  unfold addNamespace
  by_cases hm : m.length > 0
  · cases hq : queryInputs.index key with
    | none =>
      simp only [hm, if_true, GoMap.index_assign, true_and, and_true]
    | some x =>
      simp [hm]
  · simp [hm]

/-- The inputs that `prepareQueryInputs` returns, key by key: `password` is the one of
`addCredentials`, a retained field keeps its value, and the namespaces are added last. -/
theorem prepareQueryInputs_ok (generateRandomPassword : RandomPasswordOptions → Except Str Str)
    (schema : List AccountProvisioningField) (profile : Str → Option ProfileValue)
    (credentialOptions : Option CredentialOptions)
    (queryInputs : GoMap QueryInput) (credentials : GoMap InputValue)
    (plaintextDataList : List PlaintextData)
    (hc : addCredentials generateRandomPassword credentialOptions
        (schemaLoop profile schema ([], [])).1 = .ok (queryInputs, credentials, plaintextDataList)) :
    prepareQueryInputs generateRandomPassword schema profile credentialOptions
      = .ok (addNamespace (addNamespace queryInputs "input".toList
                (schemaLoop profile schema ([], [])).2) "credentials".toList credentials,
             plaintextDataList) := by
  unfold prepareQueryInputs
  simp only [hc]

theorem addCredentials_cases (generateRandomPassword : RandomPasswordOptions → Except Str Str)
    (credentialOptions : Option CredentialOptions) (queryInputs : GoMap QueryInput)
    (hco : credentialOptions = none ∨ credentialOptions = some .NoPassword
      ∨ ∃ o p, credentialOptions = some (.RandomPassword (some o))
          ∧ generateRandomPassword o = .ok p) :
    (∃ o p, credentialOptions = some (.RandomPassword (some o))
        ∧ generateRandomPassword o = .ok p
        ∧ addCredentials generateRandomPassword credentialOptions queryInputs
          = .ok (queryInputs.assign "password".toList (.value (.str p)),
                 [("password".toList, .str p)],
                 [{ Name := "password".toList, Bytes := p }]))
    ∨ ((credentialOptions = none ∨ credentialOptions = some .NoPassword)
        ∧ addCredentials generateRandomPassword credentialOptions queryInputs
          = .ok (queryInputs, [], [])) := by
  rcases hco with h | h | ⟨o, p, h, hg⟩
  · right; subst h; exact ⟨Or.inl rfl, rfl⟩
  · right; subst h; exact ⟨Or.inr rfl, rfl⟩
  · left
    refine ⟨o, p, h, hg, ?_⟩
    subst h
    simp [addCredentials, generateCredentials, hg, GoMap.assign]

theorem input_ne_credentials : "input".toList ≠ "credentials".toList := by decide
theorem input_ne_password : "input".toList ≠ "password".toList := by decide
theorem credentials_ne_password : "credentials".toList ≠ "password".toList := by decide

theorem prepareQueryInputs_index (generateRandomPassword : RandomPasswordOptions → Except Str Str)
    (schema : List AccountProvisioningField) (profile : Str → Option ProfileValue)
    (credentialOptions : Option CredentialOptions)
    (hco : credentialOptions = none ∨ credentialOptions = some .NoPassword
      ∨ ∃ o p, credentialOptions = some (.RandomPassword (some o))
          ∧ generateRandomPassword o = .ok p) :
    ∃ inputs plaintext sv cr,
      prepareQueryInputs generateRandomPassword schema profile credentialOptions
        = .ok (inputs, plaintext)
      ∧ (∀ n, sv.index n = retainedValue profile schema n)
      ∧ (sv.length > 0 ↔ ∃ n v, retainedValue profile schema n = some v)
      ∧ ((∃ o p, credentialOptions = some (.RandomPassword (some o))
            ∧ generateRandomPassword o = .ok p ∧ cr = [("password".toList, .str p)]
            ∧ plaintext = [{ Name := "password".toList, Bytes := p }]
            ∧ inputs.index "password".toList = some (.value (.str p)))
          ∨ ((credentialOptions = none ∨ credentialOptions = some .NoPassword) ∧ cr = []
            ∧ plaintext = []
            ∧ inputs.index "password".toList
                = (retainedValue profile schema "password".toList).map .value))
      ∧ inputs.index "input".toList
          = (match retainedValue profile schema "input".toList with
             | some v => some (.value v)
             | none => if sv.length > 0 then some (.submap sv) else none)
      ∧ inputs.index "credentials".toList
          = (match retainedValue profile schema "credentials".toList with
             | some v => some (.value v)
             | none => if cr.length > 0 then some (.submap cr) else none)
      ∧ (∀ n, n ≠ "input".toList → n ≠ "credentials".toList → n ≠ "password".toList →
          inputs.index n = (retainedValue profile schema n).map .value) := by
  have hsv : ∀ n, (schemaLoop profile schema ([], [])).2.index n
      = retainedValue profile schema n := by
    intro n
    rw [(schemaLoop_index profile n schema [] []).2]
    cases retainedValue profile schema n <;> simp [GoMap.index_nil]
  have hqi : ∀ n, (schemaLoop profile schema ([], [])).1.index n
      = (retainedValue profile schema n).map .value := by
    intro n
    rw [(schemaLoop_index profile n schema [] []).1]
    cases retainedValue profile schema n <;> simp [GoMap.index_nil]
  have hlen : (schemaLoop profile schema ([], [])).2.length > 0
      ↔ ∃ n v, retainedValue profile schema n = some v := by
    constructor
    · intro h
      cases hs : (schemaLoop profile schema ([], [])).2 with
      | nil => rw [hs] at h; simp at h
      | cons kv rest =>
        refine ⟨kv.1, kv.2, ?_⟩
        rw [← hsv, hs]
        simp [GoMap.index, List.find?_cons]
    · rintro ⟨n, v, h⟩
      rw [← hsv] at h
      exact GoMap.length_pos_of_index _ n v h
  have h1 := input_ne_credentials
  have h2 := input_ne_password
  have h3 := credentials_ne_password
  rcases addCredentials_cases generateRandomPassword credentialOptions
      (schemaLoop profile schema ([], [])).1 hco with ⟨o, p, hc, hg, ha⟩ | ⟨hc, ha⟩
  · refine ⟨_, _, (schemaLoop profile schema ([], [])).2, [("password".toList, .str p)],
      prepareQueryInputs_ok _ _ _ _ _ _ _ ha, hsv, hlen,
      Or.inl ⟨o, p, hc, hg, rfl, rfl, ?_⟩, ?_, ?_, ?_⟩
    · simp only [addNamespace_index, GoMap.index_assign, h2.symm, h3.symm, false_and, if_false,
        if_true]
    · simp only [addNamespace_index, GoMap.index_assign, h1, h2, false_and, if_false,
        true_and, hqi]
      cases hr : retainedValue profile schema "input".toList <;> simp
    · simp only [addNamespace_index, GoMap.index_assign, h1.symm, h3, false_and, if_false,
        true_and, hqi]
      cases hr : retainedValue profile schema "credentials".toList <;> simp
    · intro n hn1 hn2 hn3
      simp only [addNamespace_index, GoMap.index_assign, hn1, hn2, hn3, false_and, if_false,
        hqi]
  · refine ⟨_, _, (schemaLoop profile schema ([], [])).2, [],
      prepareQueryInputs_ok _ _ _ _ _ _ _ ha, hsv, hlen,
      Or.inr ⟨hc, rfl, rfl, ?_⟩, ?_, ?_, ?_⟩
    · simp only [addNamespace_index, h2.symm, h3.symm, false_and, if_false, hqi]
    · simp only [addNamespace_index, h1, false_and, if_false, true_and, hqi]
      cases hr : retainedValue profile schema "input".toList <;> simp
    · simp only [addNamespace_index, h1.symm, false_and, if_false, true_and, hqi]
      cases hr : retainedValue profile schema "credentials".toList <;> simp
    · intro n hn1 hn2 hn3
      simp only [addNamespace_index, hn1, hn2, false_and, if_false, hqi]

/-- C22: when the credential options are supported and the password is generated,
`prepareQueryInputs` returns inputs in which a retained schema field named `input`
(respectively `credentials`) keeps its own value, not the submap; when no field of that name
is retained, `input` is bound to the map of all retained schema fields as soon as one field is
retained, and `credentials` to the map of the generated credentials (the password) as soon as
a password was generated. With distinct field names the retained value of a field is the
parsed profile value of that field. -/
theorem prepareQueryInputs_collision
    (generateRandomPassword : RandomPasswordOptions → Except Str Str)
    (schema : List AccountProvisioningField) (profile : Str → Option ProfileValue)
    (credentialOptions : Option CredentialOptions)
    (hco : credentialOptions = none ∨ credentialOptions = some .NoPassword
      ∨ ∃ o p, credentialOptions = some (.RandomPassword (some o))
          ∧ generateRandomPassword o = .ok p) :
    ∃ inputs plaintext,
      prepareQueryInputs generateRandomPassword schema profile credentialOptions
        = .ok (inputs, plaintext)
      ∧ (∀ v, retainedValue profile schema "input".toList = some v →
          inputs.index "input".toList = some (.value v))
      ∧ (∀ v, retainedValue profile schema "credentials".toList = some v →
          inputs.index "credentials".toList = some (.value v))
      ∧ (retainedValue profile schema "input".toList = none →
          (∃ n v, retainedValue profile schema n = some v) →
          ∃ sv, inputs.index "input".toList = some (.submap sv)
            ∧ ∀ n, sv.index n = retainedValue profile schema n)
      ∧ (retainedValue profile schema "credentials".toList = none →
          ∀ o p, credentialOptions = some (.RandomPassword (some o)) →
            generateRandomPassword o = .ok p →
            inputs.index "credentials".toList
              = some (.submap [("password".toList, .str p)]))
      ∧ ((schema.map (fun f => f.Name)).Nodup → ∀ field ∈ schema,
          retainedValue profile schema field.Name
            = (profile field.Name).bind (parseProfileValue field.FieldType)) := by
  obtain ⟨inputs, plaintext, sv, cr, h, hsv, hlen, hcr, hin, hcred, _⟩ :=
    prepareQueryInputs_index generateRandomPassword schema profile credentialOptions hco
  refine ⟨inputs, plaintext, h, ?_, ?_, ?_, ?_, retainedValue_of_nodup profile schema⟩
  · intro v hv
    rw [hin, hv]
  · intro v hv
    rw [hcred, hv]
  · intro hn hex
    refine ⟨sv, ?_, hsv⟩
    rw [hin, hn]
    simp [hlen.mpr hex]
  · intro hn o p ho hg
    rw [hcred, hn]
    rcases hcr with ⟨o2, p2, ho2, hg2, hcr2, _, _⟩ | ⟨hnone, _⟩
    · rw [ho] at ho2
      simp only [Option.some.injEq, CredentialOptions.RandomPassword.injEq] at ho2
      subst ho2
      rw [hg] at hg2
      simp only [Except.ok.injEq] at hg2
      subst hg2
      simp [hcr2]
    · rcases hnone with h0 | h0 <;> rw [ho] at h0 <;> cases h0

theorem prepareQueryInputs_collision_witness :
    ∃ inputs plaintext,
      prepareQueryInputs (fun _ => .ok "pw".toList)
        [{ Name := "input".toList, Description := [], FieldType := "string".toList,
           Placeholder := [], Required := false },
         { Name := "username".toList, Description := [], FieldType := "string".toList,
           Placeholder := [], Required := false }]
        (fun k => if k = "input".toList then some (.string "user_defined_input".toList)
          else if k = "username".toList then some (.string "test_user".toList) else none)
        (some (.RandomPassword (some { Length := 12 }))) = .ok (inputs, plaintext)
      ∧ inputs.index "input".toList = some (.value (.str "user_defined_input".toList))
      ∧ inputs.index "credentials".toList
          = some (.submap [("password".toList, .str "pw".toList)]) := by
  obtain ⟨inputs, plaintext, h, h1, _, _, h4, _⟩ :=
    prepareQueryInputs_collision (fun _ => .ok "pw".toList)
      [{ Name := "input".toList, Description := [], FieldType := "string".toList,
         Placeholder := [], Required := false },
       { Name := "username".toList, Description := [], FieldType := "string".toList,
         Placeholder := [], Required := false }]
      (fun k => if k = "input".toList then some (.string "user_defined_input".toList)
        else if k = "username".toList then some (.string "test_user".toList) else none)
      (some (.RandomPassword (some { Length := 12 })))
      (Or.inr (Or.inr ⟨{ Length := 12 }, "pw".toList, rfl, rfl⟩))
  exact ⟨inputs, plaintext, h, h1 _ (by decide), h4 (by decide) _ _ rfl rfl⟩

/-- C23 (counterexample): a boolean field whose profile value is `false` and a string-list
field whose profile value is the empty list are retained, at the top level and in the
`input` submap. -/
theorem prepareQueryInputs_keeps_false_and_empty_list :
    prepareQueryInputs (fun _ => .ok "pw".toList)
      [{ Name := "admin".toList, Description := [], FieldType := "boolean".toList,
         Placeholder := [], Required := false },
       { Name := "roles".toList, Description := [], FieldType := "string_list".toList,
         Placeholder := [], Required := false }]
      (fun k => if k = "admin".toList then some (.bool false)
        else if k = "roles".toList then some (.list []) else none)
      none
    = .ok ([("input".toList, .submap [("roles".toList, .strList []),
                                       ("admin".toList, .bool false)]),
            ("roles".toList, .value (.strList [])),
            ("admin".toList, .value (.bool false))], []) := by
  rfl

/-- C23 (amended): the schema loop drops a field whose profile key is missing or whose value
is not parsed: a `string` field whose value is not a non-empty string, an `int` field whose
value is not a non-zero number, a `map` field whose value is not a struct, a `string_list`
field whose value is not a list, a field of any other type but `boolean`, and with them every
null value of these types. When every schema field named `n` is dropped, `n` is absent from
the `input` submap, and absent from the returned inputs unless `n` is one of the names
`input`, `credentials` and `password` that the function binds itself. A `boolean` field is
never dropped: a false or null value is retained as `false`; and a list value is retained
even when no element is left. -/
theorem prepareQueryInputs_dropped
    (generateRandomPassword : RandomPasswordOptions → Except Str Str)
    (schema : List AccountProvisioningField) (profile : Str → Option ProfileValue)
    (credentialOptions : Option CredentialOptions) (n : Str)
    (hco : credentialOptions = none ∨ credentialOptions = some .NoPassword
      ∨ ∃ o p, credentialOptions = some (.RandomPassword (some o))
          ∧ generateRandomPassword o = .ok p)
    (hdrop : ∀ field ∈ schema, field.Name = n → ∀ value, profile n = some value →
      parseProfileValue field.FieldType value = none) :
    (∃ inputs plaintext,
      prepareQueryInputs generateRandomPassword schema profile credentialOptions
        = .ok (inputs, plaintext)
      ∧ (∀ sv, inputs.index "input".toList = some (.submap sv) → sv.index n = none)
      ∧ (n ≠ "input".toList → n ≠ "credentials".toList → n ≠ "password".toList →
          inputs.index n = none)
      ∧ (∀ v, inputs.index n ≠ some (.value v) ∨ n = "password".toList))
    ∧ (∀ value, (parseProfileValue "string".toList value = none ↔ value.GetStringValue = [])
        ∧ (parseProfileValue "int".toList value = none ↔ value.GetNumberValue.nonZero = false)
        ∧ (parseProfileValue "map".toList value = none ↔ value.GetStructValue = none)
        ∧ (parseProfileValue "string_list".toList value = none ↔ value.GetListValue = none)
        ∧ parseProfileValue "boolean".toList value = some (.bool value.GetBoolValue))
    ∧ parseProfileValue "string".toList .null = none
    ∧ parseProfileValue "string".toList (.string []) = none
    ∧ parseProfileValue "int".toList .null = none
    ∧ parseProfileValue "int".toList (.number { nonZero := false, toInt := 0 }) = none
    ∧ parseProfileValue "map".toList .null = none
    ∧ parseProfileValue "string_list".toList .null = none
    ∧ parseProfileValue "string_list".toList (.list []) = some (.strList [])
    ∧ parseProfileValue "boolean".toList .null = some (.bool false)
    ∧ parseProfileValue "boolean".toList (.bool false) = some (.bool false) := by
  have hr : retainedValue profile schema n = none :=
    (retainedValue_none_iff profile n schema).mpr hdrop
  refine ⟨?_, ?_, by decide, by decide, by decide, by decide, by decide, by decide, by decide,
    by decide, by decide⟩
  · obtain ⟨inputs, plaintext, sv, cr, h, hsv, hlen, hcr, hin, hcred, hrest⟩ :=
      prepareQueryInputs_index generateRandomPassword schema profile credentialOptions hco
    refine ⟨inputs, plaintext, h, ?_, ?_, ?_⟩
    · intro sv2 hs
      rw [hin] at hs
      cases hri : retainedValue profile schema "input".toList with
      | some v => rw [hri] at hs; simp at hs
      | none =>
        rw [hri] at hs
        by_cases hl : sv.length > 0
        · simp only [hl, if_true, Option.some.injEq, QueryInput.submap.injEq] at hs
          rw [← hs, hsv, hr]
        · simp [hl] at hs
    · intro h1 h2 h3
      rw [hrest n h1 h2 h3, hr]
      rfl
    · intro v
      by_cases h3 : n = "password".toList
      · exact Or.inr h3
      · left
        by_cases h1 : n = "input".toList
        · subst h1
          rw [hin, hr]
          by_cases hl : sv.length > 0 <;> simp [hl]
        · by_cases h2 : n = "credentials".toList
          · subst h2
            rw [hcred, hr]
            by_cases hl : cr.length > 0 <;> simp [hl]
          · rw [hrest n h1 h2 h3, hr]
            simp
  · intro value
    refine ⟨?_, ?_, ?_, ?_, ?_⟩
    · by_cases h : value.GetStringValue = [] <;> simp [parseProfileValue, h]
    · cases h : value.GetNumberValue.nonZero <;> simp [parseProfileValue, h]
    · cases h : value.GetStructValue <;> simp [parseProfileValue, h]
    · cases h : value.GetListValue <;> simp [parseProfileValue, h]
    · simp [parseProfileValue]

theorem prepareQueryInputs_dropped_witness :
    ∃ inputs plaintext,
      prepareQueryInputs (fun _ => .ok "pw".toList)
        [{ Name := "email".toList, Description := [], FieldType := "string".toList,
           Placeholder := [], Required := false },
         { Name := "username".toList, Description := [], FieldType := "string".toList,
           Placeholder := [], Required := false }]
        (fun k => if k = "email".toList then some (.string [])
          else if k = "username".toList then some (.string "test_user".toList) else none)
        none = .ok (inputs, plaintext)
      ∧ inputs.index "email".toList = none := by
  obtain ⟨⟨inputs, plaintext, h, _, h2, _⟩, _⟩ :=
    prepareQueryInputs_dropped (fun _ => .ok "pw".toList)
      [{ Name := "email".toList, Description := [], FieldType := "string".toList,
         Placeholder := [], Required := false },
       { Name := "username".toList, Description := [], FieldType := "string".toList,
         Placeholder := [], Required := false }]
      (fun k => if k = "email".toList then some (.string [])
        else if k = "username".toList then some (.string "test_user".toList) else none)
      none "email".toList (Or.inl rfl)
      (by
        intro field hf hname value hv
        simp only [List.mem_cons, List.mem_singleton, List.not_mem_nil, or_false] at hf
        simp only [if_true, Option.some.injEq] at hv
        subst hv
        rcases hf with rfl | rfl
        · decide
        · exact absurd hname (by decide))
  exact ⟨inputs, plaintext, h, h2 (by decide) (by decide) (by decide)⟩

/-! ### Lower-casing the characters of a placeholder -/

theorem toNat_ofNat_ascii : ∀ n, n < 128 → (Char.ofNat n).toNat = n := by
  decide

/-- The code of a lower-cased character, when the Unicode tables are not consulted. -/
theorem unicodeToLower_toNat (caseTable : Char → Char) (c : Char) (h : c.toNat ≤ 127) :
    (unicodeToLower caseTable c).toNat
      = if 65 ≤ c.toNat ∧ c.toNat ≤ 90 then c.toNat + 32 else c.toNat := by
  unfold unicodeToLower
  rw [if_pos h]
  split
  · next hu => exact toNat_ofNat_ascii _ (by omega)
  · rfl

theorem isWordChar_iff (c : Char) :
    isWordChar c = true ↔
      (48 ≤ c.toNat ∧ c.toNat ≤ 57) ∨ (65 ≤ c.toNat ∧ c.toNat ≤ 90) ∨ c.toNat = 95
        ∨ (97 ≤ c.toNat ∧ c.toNat ≤ 122) := by
  have h95 : c = '_' ↔ c.toNat = 95 := by
    constructor
    · intro h; rw [h]; rfl
    · intro h
      have := Char.ofNat_toNat c
      rw [h] at this
      rw [← this]
  simp only [isWordChar, Bool.or_eq_true, Bool.and_eq_true, decide_eq_true_eq, beq_iff_eq, h95,
    or_assoc]

theorem isWordChar_toLower (caseTable : Char → Char) (c : Char) (h : isWordChar c = true) :
    isWordChar (unicodeToLower caseTable c) = true ∧
      (unicodeToLower caseTable c).toNat ≤ 127 ∧
      ¬ (65 ≤ (unicodeToLower caseTable c).toNat ∧ (unicodeToLower caseTable c).toNat ≤ 90) := by
  rw [isWordChar_iff] at h ⊢
  have hle : c.toNat ≤ 127 := by omega
  rw [unicodeToLower_toNat caseTable c hle]
  split <;> omega

theorem unicodeToLower_idem (caseTable : Char → Char) (c : Char) (h : isWordChar c = true) :
    unicodeToLower caseTable (unicodeToLower caseTable c) = unicodeToLower caseTable c := by
  obtain ⟨_, h2, h3⟩ := isWordChar_toLower caseTable c h
  have key : ∀ x : Char, x.toNat ≤ 127 → ¬ (65 ≤ x.toNat ∧ x.toNat ≤ 90) →
      unicodeToLower caseTable x = x := by
    intro x hx1 hx2
    simp [unicodeToLower, hx1, hx2]
  exact key _ h2 h3

theorem stringsToLower_wordChars (caseTable : Char → Char) (s : Str)
    (h : ∀ c ∈ s, isWordChar c = true) :
    (∀ c ∈ stringsToLower caseTable s, isWordChar c = true) ∧
      stringsToLower caseTable (stringsToLower caseTable s) = stringsToLower caseTable s := by
  constructor
  · intro c hc
    simp only [stringsToLower, List.mem_map] at hc
    obtain ⟨a, ha, rfl⟩ := hc
    exact (isWordChar_toLower caseTable a (h a ha)).1
  · simp only [stringsToLower, List.map_map]
    exact List.map_congr_left (fun c hc => unicodeToLower_idem caseTable c (h c hc))

theorem stringsSplit_wordChars (s : Str) (h : ∀ c ∈ s, isWordChar c = true) :
    stringsSplit s ',' = [s] := by
  unfold stringsSplit List.splitOn
  apply List.splitOnP_eq_single
  intro c hc hcomma
  have hw := h c hc
  simp only [beq_iff_eq] at hcomma
  rw [hcomma] at hw
  revert hw
  decide

theorem isWordChar_not_space (c : Char) (h : isWordChar c = true) :
    unicodeIsSpace c = false := by
  rw [isWordChar_iff] at h
  simp only [unicodeIsSpace, Bool.or_eq_false_iff, Bool.and_eq_false_iff, decide_eq_false_iff_not,
    beq_eq_false_iff_ne, ne_eq]
  omega

theorem dropWhile_space_wordChars (s : Str) (h : ∀ c ∈ s, isWordChar c = true) :
    s.dropWhile unicodeIsSpace = s := by
  cases s with
  | nil => rfl
  | cons c cs =>
    simp [List.dropWhile, isWordChar_not_space c (h c (List.mem_cons_self _ _))]

theorem stringsTrimSpace_wordChars (s : Str) (h : ∀ c ∈ s, isWordChar c = true) :
    stringsTrimSpace s = s := by
  unfold stringsTrimSpace
  rw [dropWhile_space_wordChars s h,
    dropWhile_space_wordChars s.reverse (fun c hc => h c (List.mem_reverse.mp hc)),
    List.reverse_reverse]


/-! ### Failing placeholders -/

theorem queryOptRegexAt_plain (k rest : Str) (hne : k ≠ [])
    (hk : ∀ c ∈ k, isWordChar c = true) :
    queryOptRegexAt ('?' :: '<' :: (k ++ '>' :: rest)) = some (k.length + 3, k, []) := by
  have h1 := takeWhile_append_stop isWordChar k '>' rest hk (by decide)
  simp only [queryOptRegexAt, h1.1, h1.2, hne, if_false]

theorem queryOptRegexAt_option (k o rest : Str) (hne : k ≠ []) (hno : o ≠ [])
    (hk : ∀ c ∈ k, isWordChar c = true) (ho : ∀ c ∈ o, isWordChar c = true) :
    queryOptRegexAt ('?' :: '<' :: (k ++ '|' :: (o ++ '>' :: rest)))
      = some (k.length + o.length + 4, k, o) := by
  have h1 := takeWhile_append_stop isWordChar k '|' (o ++ '>' :: rest) hk (by decide)
  have h2 := takeWhile_append_stop isWordChar o '>' rest ho (by decide)
  simp only [queryOptRegexAt, h1.1, h1.2, h2.1, h2.2, hne, hno, if_false]

theorem parseToken_plain (caseTable : Char → Char) (k : Str) (hne : k ≠ [])
    (hk : ∀ c ∈ k, isWordChar c = true) :
    parseToken caseTable ("?<".toList ++ k ++ ">".toList)
      = .ok { Key := stringsToLower caseTable k, Unquoted := false } := by
  have hshape : "?<".toList ++ k ++ ">".toList = '?' :: '<' :: (k ++ '>' :: []) := by simp
  rw [hshape]
  unfold parseToken
  simp only [queryOptRegexFindStringSubmatch, queryOptRegexAt_plain k [] hne hk]
  rfl

theorem parseToken_option (caseTable : Char → Char) (k o : Str) (hne : k ≠ []) (hno : o ≠ [])
    (hk : ∀ c ∈ k, isWordChar c = true) (ho : ∀ c ∈ o, isWordChar c = true) :
    parseToken caseTable ("?<".toList ++ k ++ "|".toList ++ o ++ ">".toList)
      = if stringsToLower caseTable o = unquotedKey then
          .ok { Key := stringsToLower caseTable k, Unquoted := true }
        else .error (.unknownOption (stringsToLower caseTable o)) := by
  have hshape : "?<".toList ++ k ++ "|".toList ++ o ++ ">".toList
      = '?' :: '<' :: (k ++ '|' :: (o ++ '>' :: [])) := by simp
  rw [hshape]
  obtain ⟨hw, hidem⟩ := stringsToLower_wordChars caseTable o ho
  have hlne : stringsToLower caseTable o ≠ [] := by
    cases o with
    | nil => exact absurd rfl hno
    | cons c cs => simp [stringsToLower]
  unfold parseToken
  simp only [queryOptRegexFindStringSubmatch, queryOptRegexAt_option k o [] hne hno hk ho,
    hlne, if_false, stringsSplit_wordChars _ hw, parseTokenOptions, hidem,
    stringsTrimSpace_wordChars _ hw]

theorem parseQueryOptsReplace_failure (caseTable : Char → Char) (d : DbEngine)
    (pCtx : Option paginationContext) (vars : Str → Option Value) (st : ParseState) (t : Str)
    (h : (parseQueryOptsReplace caseTable d pCtx vars st t).2.panicked = false) :
    st.panicked = false
      ∧ (parseQueryOptsReplace caseTable d pCtx vars st t).2.parseErr
          = st.parseErr ++ (placeholderFailure caseTable vars t).toList := by
  have hp : st.panicked = false :=
    (parseQueryOptsReplace_flag caseTable d pCtx vars st t).1 h
  refine ⟨hp, ?_⟩
  unfold parseQueryOptsReplace placeholderFailure at *
  simp only [hp, Bool.false_eq_true, if_false] at h ⊢
  cases hpt : parseToken caseTable t with
  | error err => simp
  | ok opts =>
    rw [hpt] at h
    simp only at h ⊢
    have e1 : ¬ offsetKey = limitKey := by decide
    have e2 : ¬ cursorKey = limitKey := by decide
    have e3 : ¬ cursorKey = offsetKey := by decide
    by_cases h1 : opts.Key = limitKey
    · simp only [h1, if_true, true_or] at h ⊢
      cases pCtx with
      | none => simp at h
      | some p => simp [substituteValue_parseErr]
    · by_cases h2 : opts.Key = offsetKey
      · simp only [h2, e1, if_true, if_false, true_or, or_true] at h ⊢
        cases pCtx with
        | none => simp at h
        | some p => simp [substituteValue_parseErr]
      · by_cases h3 : opts.Key = cursorKey
        · simp only [h3, e2, e3, if_true, if_false, or_true] at h ⊢
          cases pCtx with
          | none => simp at h
          | some p => simp [substituteValue_parseErr]
        · simp only [h1, h2, h3, if_false, or_self] at h ⊢
          cases hv : vars opts.Key with
          | none => simp
          | some v => simp [substituteValue_parseErr]

theorem parseQueryOptsReplace_no_panic (caseTable : Char → Char) (d : DbEngine)
    (pCtx : Option paginationContext) (vars : Str → Option Value) (st : ParseState) (t : Str)
    (hp : st.panicked = false)
    (hctx : pCtx = none → isPaginationPlaceholder caseTable t = false) :
    (parseQueryOptsReplace caseTable d pCtx vars st t).2.panicked = false := by
  unfold parseQueryOptsReplace
  simp only [hp, Bool.false_eq_true, if_false]
  cases hpt : parseToken caseTable t with
  | error err => simp [hp]
  | ok opts =>
    have hpag := isPaginationPlaceholder_of_parseToken caseTable t opts hpt
    simp only
    cases pCtx with
    | some p =>
      simp only
      split
      · simp [substituteValue_panicked, hp]
      · split
        · simp [substituteValue_panicked, hp]
        · split
          · simp [substituteValue_panicked, hp]
          · split <;> simp [substituteValue_panicked, hp]
    | none =>
      have hf := hctx rfl
      rw [hpag] at hf
      simp only [decide_eq_false_iff_not, not_or] at hf
      simp only [hf.1, hf.2.1, hf.2.2, if_false]
      split <;> simp [substituteValue_panicked, hp]

/-- The tokens among the pieces. -/
theorem applyPieces_failures (caseTable : Char → Char) (d : DbEngine)
    (pCtx : Option paginationContext) (vars : Str → Option Value) (ps : List Piece) :
    ∀ (st : ParseState),
      (applyPieces (parseQueryOptsReplace caseTable d pCtx vars) ps st).2.panicked = false →
      st.panicked = false
        ∧ (applyPieces (parseQueryOptsReplace caseTable d pCtx vars) ps st).2.parseErr
            = st.parseErr ++ (ps.filterMap (fun p => match p with
                | .tok t => some t
                | .lit _ => none)).filterMap (placeholderFailure caseTable vars) := by
  induction ps with
  | nil => intro st h; exact ⟨h, by simp [applyPieces]⟩
  | cons p ps ih =>
    intro st h
    cases p with
    | lit c =>
      simp only [applyPieces] at h ⊢
      obtain ⟨i1, i2⟩ := ih st h
      exact ⟨i1, by simpa using i2⟩
    | tok t =>
      simp only [applyPieces] at h ⊢
      obtain ⟨i1, i2⟩ := ih _ h
      obtain ⟨f1, f2⟩ := parseQueryOptsReplace_failure caseTable d pCtx vars st t i1
      refine ⟨f1, ?_⟩
      rw [i2, f2]
      cases hpf : placeholderFailure caseTable vars t <;> simp [List.filterMap_cons, hpf]

theorem applyPieces_no_panic (caseTable : Char → Char) (d : DbEngine)
    (pCtx : Option paginationContext) (vars : Str → Option Value) (ps : List Piece) :
    ∀ (st : ParseState), st.panicked = false →
      (pCtx = none → ∀ t ∈ ps.filterMap (fun p => match p with
                | .tok t => some t
                | .lit _ => none), isPaginationPlaceholder caseTable t = false) →
      (applyPieces (parseQueryOptsReplace caseTable d pCtx vars) ps st).2.panicked = false := by
  induction ps with
  | nil => intro st h _; simpa [applyPieces] using h
  | cons p ps ih =>
    intro st h hctx
    cases p with
    | lit c =>
      simp only [applyPieces]
      exact ih st h (fun hn t ht => hctx hn t (by simpa [List.filterMap_cons] using ht))
    | tok t =>
      simp only [applyPieces]
      refine ih _ (parseQueryOptsReplace_no_panic caseTable d pCtx vars st t h
        (fun hn => hctx hn t (by simp [List.filterMap_cons])))
        (fun hn t2 ht2 => hctx hn t2 (by simp [List.filterMap_cons, ht2]))

/-- The result of `parseQueryOpts` whenever it returns: the error joins the failures of the
placeholders, in their order, and there is no error when no placeholder fails. -/
theorem parseQueryOpts_returns (caseTable : Char → Char) (d : DbEngine)
    (pCtx : Option paginationContext) (query : Str) (vars : Str → Option Value)
    (r : ParseResult) (h : parseQueryOpts caseTable d pCtx query vars = .returns r) :
    (placeholderFailures caseTable vars query ≠ [] →
      r = { query := [], args := [], paginationUsed := false,
            err := some (.joined (placeholderFailures caseTable vars query)) })
    ∧ (placeholderFailures caseTable vars query = [] → r.err = none) := by
  unfold parseQueryOpts at h
  rw [regexpReplaceAllStringFunc_eq_pieces] at h
  simp only at h
  by_cases hp : (applyPieces (parseQueryOptsReplace caseTable d pCtx vars)
      (regexpPieces queryOptRegex query 0)
      { qArgs := [], parseErr := [], paginationOptSet := false, panicked := false }).2.panicked
      = true
  · simp [hp] at h
  · have hp2 := Bool.eq_false_iff.mpr hp
    obtain ⟨_, herr⟩ := applyPieces_failures caseTable d pCtx vars _ _ hp2
    simp only [List.nil_append] at herr
    have herr2 : (applyPieces (parseQueryOptsReplace caseTable d pCtx vars)
        (regexpPieces queryOptRegex query 0)
        { qArgs := [], parseErr := [], paginationOptSet := false, panicked := false }).2.parseErr
        = placeholderFailures caseTable vars query := herr
    simp only [hp2, Bool.false_eq_true, if_false, herr2] at h
    constructor
    · intro hne
      rw [if_pos hne] at h
      simp only [GoResult.returns.injEq] at h
      exact h.symm
    · intro he
      rw [if_neg (not_not.mpr he)] at h
      simp only [GoResult.returns.injEq] at h
      rw [← h]

theorem parseQueryOpts_does_return (caseTable : Char → Char) (d : DbEngine)
    (pCtx : Option paginationContext) (query : Str) (vars : Str → Option Value)
    (hctx : pCtx = none → ∀ t ∈ placeholders query, isPaginationPlaceholder caseTable t = false) :
    ∃ r, parseQueryOpts caseTable d pCtx query vars = .returns r := by
  have hp := applyPieces_no_panic caseTable d pCtx vars (regexpPieces queryOptRegex query 0)
    { qArgs := [], parseErr := [], paginationOptSet := false, panicked := false } rfl hctx
  unfold parseQueryOpts
  rw [regexpReplaceAllStringFunc_eq_pieces]
  simp only [hp, Bool.false_eq_true, if_false]
  split <;> exact ⟨_, rfl⟩

theorem placeholderFailure_plain (caseTable : Char → Char) (vars : Str → Option Value)
    (k : Str) (hne : k ≠ []) (hk : ∀ c ∈ k, isWordChar c = true)
    (h1 : stringsToLower caseTable k ≠ limitKey) (h2 : stringsToLower caseTable k ≠ offsetKey)
    (h3 : stringsToLower caseTable k ≠ cursorKey)
    (hv : vars (stringsToLower caseTable k) = none) :
    placeholderFailure caseTable vars ("?<".toList ++ k ++ ">".toList)
      = some (.unknownToken ("?<".toList ++ k ++ ">".toList)) := by
  unfold placeholderFailure
  rw [parseToken_plain caseTable k hne hk]
  simp [h1, h2, h3, hv]

theorem placeholderFailure_option (caseTable : Char → Char) (vars : Str → Option Value)
    (k o : Str) (hne : k ≠ []) (hno : o ≠ []) (hk : ∀ c ∈ k, isWordChar c = true)
    (ho : ∀ c ∈ o, isWordChar c = true) (hbad : stringsToLower caseTable o ≠ unquotedKey) :
    placeholderFailure caseTable vars ("?<".toList ++ k ++ "|".toList ++ o ++ ">".toList)
      = some (.inToken ("?<".toList ++ k ++ "|".toList ++ o ++ ">".toList)
          (.unknownOption (stringsToLower caseTable o))) := by
  unfold placeholderFailure
  rw [parseToken_option caseTable k o hne hno hk ho]
  simp [hbad]

theorem placeholderFailures_ne_nil (caseTable : Char → Char) (vars : Str → Option Value)
    (query t : Str) (e : QueryError) (ht : t ∈ placeholders query)
    (hf : placeholderFailure caseTable vars t = some e) :
    placeholderFailures caseTable vars query ≠ [] := by
  intro hnil
  have : e ∈ placeholderFailures caseTable vars query :=
    List.mem_filterMap.mpr ⟨t, ht, hf⟩
  rw [hnil] at this
  cases this


theorem length_filterMap_eq_filter {α β : Type} (f : α → Option β) (l : List α) :
    (l.filterMap f).length = (l.filter (fun a => (f a).isSome)).length := by
  induction l with
  | nil => rfl
  | cons a rest ih =>
    cases h : f a <;> simp [List.filterMap_cons, List.filter_cons, h, ih]

theorem placeholderFailure_unknown (caseTable : Char → Char) (vars : Str → Option Value)
    (t : Str) (opts : queryTokenOpts) (hpt : parseToken caseTable t = .ok opts)
    (h1 : opts.Key ≠ limitKey) (h2 : opts.Key ≠ offsetKey) (h3 : opts.Key ≠ cursorKey)
    (hv : vars opts.Key = none) :
    placeholderFailure caseTable vars t = some (.unknownToken t) := by
  unfold placeholderFailure
  rw [hpt]
  simp [h1, h2, h3, hv]

/-! ### Keys of `vars` with an uppercase letter -/

theorem map_eq_self_iff {α : Type} (f : α → α) (l : List α) (h : l.map f = l) :
    ∀ a ∈ l, f a = a := by
  induction l with
  | nil => intro a ha; cases ha
  | cons b rest ih =>
    simp only [List.map_cons, List.cons.injEq] at h
    intro a ha
    rcases List.mem_cons.mp ha with rfl | ha2
    · exact h.1
    · exact ih h.2 a ha2

theorem stringsToLower_ne_of_upper (caseTable : Char → Char) (k : Str)
    (h : ∃ c ∈ k, 65 ≤ c.toNat ∧ c.toNat ≤ 90) : stringsToLower caseTable k ≠ k := by
  obtain ⟨c, hc, h1, h2⟩ := h
  intro heq
  have hfix := map_eq_self_iff (unicodeToLower caseTable) k heq c hc
  have := unicodeToLower_toNat caseTable c (by omega)
  rw [hfix] at this
  simp only [h1, h2, and_self, if_true] at this
  omega

theorem prepareProvisioningQueryReplace_errors (caseTable : Char → Char) (d : DbEngine)
    (vars : Str → Option Value) (st : ProvisioningParseState) (t : Str) :
    (∀ e ∈ st.parseErr, e ∈ (prepareProvisioningQueryReplace caseTable d vars st t).2.parseErr)
    ∧ (∀ opts, parseToken caseTable t = .ok opts → vars opts.Key = none →
        QueryError.unknownToken t
          ∈ (prepareProvisioningQueryReplace caseTable d vars st t).2.parseErr) := by
  unfold prepareProvisioningQueryReplace
  cases hpt : parseToken caseTable t with
  | error err =>
    refine ⟨fun e he => by simp [he], fun opts h => by cases h⟩
  | ok opts =>
    simp only
    cases hv : vars opts.Key with
    | none =>
      refine ⟨fun e he => by simp [he], fun opts2 h hv2 => by simp⟩
    | some v =>
      refine ⟨fun e he => ?_, fun opts2 h hv2 => ?_⟩
      · simp only
        split <;> exact he
      · simp only [Except.ok.injEq] at h
        subst h
        rw [hv] at hv2
        cases hv2

theorem applyPieces_provisioning_errors (caseTable : Char → Char) (d : DbEngine)
    (vars : Str → Option Value) (ps : List Piece) :
    ∀ (st : ProvisioningParseState),
      (∀ e ∈ st.parseErr,
        e ∈ (applyPieces (prepareProvisioningQueryReplace caseTable d vars) ps st).2.parseErr)
      ∧ (∀ t ∈ ps.filterMap (fun p => match p with
                | .tok t => some t
                | .lit _ => none),
          ∀ opts, parseToken caseTable t = .ok opts → vars opts.Key = none →
          QueryError.unknownToken t
            ∈ (applyPieces (prepareProvisioningQueryReplace caseTable d vars) ps st).2.parseErr) := by
  induction ps with
  | nil => intro st; exact ⟨fun e he => by simpa [applyPieces] using he, fun t ht => by cases ht⟩
  | cons p ps ih =>
    intro st
    cases p with
    | lit c =>
      simp only [applyPieces]
      exact ⟨(ih st).1, fun t ht => (ih st).2 t (by simpa [List.filterMap_cons] using ht)⟩
    | tok t =>
      simp only [applyPieces]
      obtain ⟨s1, s2⟩ := prepareProvisioningQueryReplace_errors caseTable d vars st t
      obtain ⟨i1, i2⟩ := ih (prepareProvisioningQueryReplace caseTable d vars st t).2
      refine ⟨fun e he => i1 e (s1 e he), fun t2 ht2 opts hpt hv => ?_⟩
      simp only [List.filterMap_cons, List.mem_cons] at ht2
      rcases ht2 with rfl | ht2
      · exact i1 _ (s2 opts hpt hv)
      · exact i2 t2 ht2 opts hpt hv

theorem prepareProvisioningQuery_unknown (caseTable : Char → Char) (d : DbEngine)
    (vars : Str → Option Value) (query t : Str) (opts : queryTokenOpts)
    (hmem : t ∈ placeholders query) (hpt : parseToken caseTable t = .ok opts)
    (hv : vars opts.Key = none) :
    ∃ errs, prepareProvisioningQuery caseTable d query vars = ([], [], some (.joined errs))
      ∧ QueryError.unknownToken t ∈ errs := by
  have h := (applyPieces_provisioning_errors caseTable d vars (regexpPieces queryOptRegex query 0)
    { qArgs := [], parseErr := [] }).2 t hmem opts hpt hv
  unfold prepareProvisioningQuery
  rw [regexpReplaceAllStringFunc_eq_pieces]
  simp only
  have hne : (applyPieces (prepareProvisioningQueryReplace caseTable d vars)
      (regexpPieces queryOptRegex query 0) { qArgs := [], parseErr := [] }).2.parseErr ≠ [] :=
    List.ne_nil_of_mem h
  rw [if_pos hne]
  exact ⟨_, rfl, h⟩

/-- C28 (counterexample): the key `Limit` of `vars` has an uppercase letter and `limit` is
not a key, yet `parseQueryOpts` accepts the placeholder `?<Limit>`: it is served by the
pagination context. -/
theorem parseQueryOpts_uppercase_limit_var :
    parseQueryOpts id .MySQL
        (some { Strategy := offsetKey, Limit := 10, Offset := 0, Cursor := [], PrimaryKey := [] })
        "?<Limit>".toList (fun k => if k = "Limit".toList then some (.int 5) else none)
      = .returns { query := "?".toList, args := [.int64 11], paginationUsed := true,
                   err := none }
    ∧ (fun k => if k = "Limit".toList then some (Value.int 5) else none) "Limit".toList
        = some (.int 5)
    ∧ (fun k => if k = "Limit".toList then some (Value.int 5) else none)
        (stringsToLower id "Limit".toList) = none := by
  decide

/-- C28 (amended): let `k` be a key whose lowercase form is not bound in `vars` (as for a key
with an uppercase letter, which differs from its lowercase form, when that form is not itself
a key), and let the placeholder `?<k2>` or `?<k2|unquoted>` name `k` in any letter case. Then
`prepareProvisioningQuery` fails on every query with this placeholder, with an error that
joins `unknown token` for it; and when the lowercase form is none of `limit`, `offset` and
`cursor`, so does `parseQueryOpts` whenever it returns, and it returns whenever there is a
pagination context or the query has no pagination placeholder. -/
theorem uppercase_var_unreachable (caseTable : Char → Char) (d : DbEngine)
    (pCtx : Option paginationContext) (vars : Str → Option Value) (k k2 query t : Str)
    (hne : k2 ≠ []) (hk2 : ∀ c ∈ k2, isWordChar c = true)
    (hcase : stringsToLower caseTable k2 = stringsToLower caseTable k)
    (hv : vars (stringsToLower caseTable k) = none)
    (ht : t = "?<".toList ++ k2 ++ ">".toList ∨ t = "?<".toList ++ k2 ++ "|unquoted>".toList)
    (hmem : t ∈ placeholders query) :
    (∃ errs, prepareProvisioningQuery caseTable d query vars = ([], [], some (.joined errs))
      ∧ QueryError.unknownToken t ∈ errs)
    ∧ (stringsToLower caseTable k ≠ limitKey → stringsToLower caseTable k ≠ offsetKey →
        stringsToLower caseTable k ≠ cursorKey →
        (parseQueryOpts caseTable d pCtx query vars = .panics
          ∨ ∃ errs, parseQueryOpts caseTable d pCtx query vars
              = .returns { query := [], args := [], paginationUsed := false,
                           err := some (.joined errs) }
            ∧ QueryError.unknownToken t ∈ errs)
        ∧ ((pCtx = none →
              ∀ t2 ∈ placeholders query, isPaginationPlaceholder caseTable t2 = false) →
            ∃ errs, parseQueryOpts caseTable d pCtx query vars
              = .returns { query := [], args := [], paginationUsed := false,
                           err := some (.joined errs) }
            ∧ QueryError.unknownToken t ∈ errs))
    ∧ ((∃ c ∈ k, 65 ≤ c.toNat ∧ c.toNat ≤ 90) → stringsToLower caseTable k ≠ k) := by
  obtain ⟨opts, hpt, hkey⟩ : ∃ opts, parseToken caseTable t = .ok opts
      ∧ opts.Key = stringsToLower caseTable k := by
    rcases ht with rfl | rfl
    · exact ⟨_, parseToken_plain caseTable k2 hne hk2, hcase⟩
    · exact ⟨_, parseToken_unquoted caseTable k2 hne hk2, hcase⟩
  have hv2 : vars opts.Key = none := by rw [hkey]; exact hv
  refine ⟨prepareProvisioningQuery_unknown caseTable d vars query t opts hmem hpt hv2, ?_,
    stringsToLower_ne_of_upper caseTable k⟩
  intro h1 h2 h3
  have hf : placeholderFailure caseTable vars t = some (.unknownToken t) :=
    placeholderFailure_unknown caseTable vars t opts hpt (hkey ▸ h1) (hkey ▸ h2) (hkey ▸ h3) hv2
  have hin : QueryError.unknownToken t ∈ placeholderFailures caseTable vars query :=
    List.mem_filterMap.mpr ⟨t, hmem, hf⟩
  have hnn : placeholderFailures caseTable vars query ≠ [] := List.ne_nil_of_mem hin
  have hret : ∀ r, parseQueryOpts caseTable d pCtx query vars = .returns r →
      ∃ errs, parseQueryOpts caseTable d pCtx query vars
          = .returns { query := [], args := [], paginationUsed := false,
                       err := some (.joined errs) }
        ∧ QueryError.unknownToken t ∈ errs := by
    intro r hr
    refine ⟨placeholderFailures caseTable vars query, ?_, hin⟩
    rw [hr, (parseQueryOpts_returns caseTable d pCtx query vars r hr).1 hnn]
  refine ⟨?_, ?_⟩
  · cases hr : parseQueryOpts caseTable d pCtx query vars with
    | panics => exact Or.inl rfl
    | returns r => exact Or.inr (hr ▸ hret r hr)
  · intro hctx
    obtain ⟨r, hr⟩ := parseQueryOpts_does_return caseTable d pCtx query vars hctx
    exact hret r hr

theorem uppercase_var_unreachable_witness :
    ∃ errs, prepareProvisioningQuery id .MySQL "SET ?<UserID>".toList
        (fun k => if k = "UserID".toList then some (.int 5) else none)
      = ([], [], some (.joined errs))
      ∧ QueryError.unknownToken "?<UserID>".toList ∈ errs :=
  (uppercase_var_unreachable id .MySQL none
    (fun k => if k = "UserID".toList then some (.int 5) else none)
    "UserID".toList "UserID".toList "SET ?<UserID>".toList "?<UserID>".toList
    (by decide) (by decide) rfl (by decide) (Or.inl (by decide)) (by decide)).1

/-! ### Successive pages under the offset strategy -/

theorem clampPageSize_of_range (L : Int) (h1 : 1 ≤ L) (h2 : L ≤ 1000) : clampPageSize L = L := by
  unfold clampPageSize maxPageSize minPageSize defaultPageSize
  have e1 : ¬ L = 0 := by omega
  have e2 : ¬ L > 1000 := by omega
  have e3 : ¬ L < 1 := by omega
  simp only [e1, e2, e3, if_false]

theorem pageOffset_lt_succ (L : Nat) (hL : 1 ≤ L) (n : Nat) :
    pageOffset L n < pageOffset L (n + 1) := by
  show pageOffset L n < (pageOffset L n + 1) * L
  calc pageOffset L n < pageOffset L n + 1 := Nat.lt_succ_self _
    _ = (pageOffset L n + 1) * 1 := (Nat.mul_one _).symm
    _ ≤ (pageOffset L n + 1) * L := Nat.mul_le_mul_left _ hL

theorem pageOffset_mono (L : Nat) (hL : 1 ≤ L) (m n : Nat) (h : m ≤ n) :
    pageOffset L m ≤ pageOffset L n := by
  induction n with
  | zero =>
    have : m = 0 := by omega
    subst this
    exact le_refl _
  | succ n ih =>
    rcases Nat.lt_or_ge m (n + 1) with hlt | hge
    · exact le_trans (ih (by omega)) (le_of_lt (pageOffset_lt_succ L hL n))
    · have : m = n + 1 := by omega
      subst this
      exact le_refl _

theorem offsetPageContext_eq (L : Nat) (pk : Str) (hL1 : 1 ≤ L) (hL2 : L ≤ 1000) :
    ∀ n, pageOffset L n < 2 ^ 63 →
      offsetPageContext (L : Int) pk n
        = .returns (some { Strategy := offsetKey, Limit := (L : Int),
                           Offset := (pageOffset L n : Int), Cursor := [],
                           PrimaryKey := pk }, none) := by
  have hc : clampPageSize (L : Int) = (L : Int) :=
    clampPageSize_of_range _ (by omega) (by omega)
  intro n
  induction n with
  | zero =>
    intro _
    simp [offsetPageContext, setupPagination, hc, pageOffset]
  | succ n ih =>
    intro hfit
    have hprev : pageOffset L n < 2 ^ 63 :=
      lt_trans (pageOffset_lt_succ L hL1 n) hfit
    unfold offsetPageContext
    rw [ih hprev]
    simp only
    rw [nextPageToken_offset _ _ rfl]
    simp only
    have hcast : (pageOffset L n : Int) * (L : Int) + (L : Int)
        = ((pageOffset L (n + 1) : Nat) : Int) := by
      show _ = (((pageOffset L n + 1) * L : Nat) : Int)
      push_cast
      ring
    rw [hcast]
    have hrange : -(2 : Int) ^ 63 ≤ ((pageOffset L (n + 1) : Nat) : Int)
        ∧ ((pageOffset L (n + 1) : Nat) : Int) < (2 : Int) ^ 63 := by
      constructor
      · have : (0 : Int) ≤ ((pageOffset L (n + 1) : Nat) : Int) := Int.ofNat_nonneg _
        have h2 : -(2 : Int) ^ 63 ≤ 0 := by norm_num
        omega
      · exact_mod_cast hfit
    rw [wrapInt64_of_range _ hrange]
    have hset := setupPagination_offset_parsed (L : Int) pk
      (strconvItoa ((pageOffset L (n + 1) : Nat) : Int)) ((pageOffset L (n + 1) : Nat) : Int)
      (strconvItoa_ne_nil _) (strconvParseInt_strconvItoa _ hrange)
    rw [hset, hc]

theorem pageOffset_two (L : Nat) : pageOffset L 2 = L * L + L := by
  simp only [pageOffset]
  ring

theorem pageOffset_gap (L : Nat) (hL : 2 ≤ L) (n x : Nat) (h1 : 2 * L < x)
    (h2 : x < L * L + L) : ¬ (pageOffset L n ≤ x ∧ x ≤ pageOffset L n + L) := by
  rintro ⟨ha, hb⟩
  rcases Nat.lt_or_ge n 2 with hn | hn
  · interval_cases n
    · simp only [pageOffset] at hb
      omega
    · simp only [pageOffset] at hb
      omega
  · have := pageOffset_mono L (by omega) 2 n hn
    rw [pageOffset_two] at this
    omega

theorem pageOffset_gap_visited (L : Nat) (hL : 2 ≤ L) (n x : Nat) (h1 : 2 * L ≤ x)
    (h2 : x < L * L + L) : ¬ (pageOffset L n ≤ x ∧ x < pageOffset L n + L) := by
  rintro ⟨ha, hb⟩
  rcases Nat.lt_or_ge n 2 with hn | hn
  · interval_cases n
    · simp only [pageOffset] at hb
      omega
    · simp only [pageOffset] at hb
      omega
  · have := pageOffset_mono L (by omega) 2 n hn
    rw [pageOffset_two] at this
    omega

theorem parseQueryOpts_limit_offset (caseTable : Char → Char) (p : paginationContext)
    (vars : Str → Option Value) :
    parseQueryOpts caseTable .MySQL (some p) "LIMIT ?<limit> OFFSET ?<offset>".toList vars
      = .returns { query := "LIMIT ? OFFSET ?".toList,
                   args := [.int64 (wrapInt64 (p.Limit + 1)), .int64 p.Offset],
                   paginationUsed := true, err := none } := by
  with_unfolding_all rfl

/-- C27 (counterexample): with the page size 2 the second page has the offset 2 and its query
asks for 3 rows, the rows at the positions 2, 3 and 4; the position 4 = 2L is requested. -/
theorem offset_second_page_requests_2L :
    offsetPageContext 2 [] 1
      = .returns (some { Strategy := offsetKey, Limit := 2, Offset := 2, Cursor := [],
                         PrimaryKey := [] }, none)
    ∧ parseQueryOpts id .MySQL
        (some { Strategy := offsetKey, Limit := 2, Offset := 2, Cursor := [], PrimaryKey := [] })
        "LIMIT ?<limit> OFFSET ?<offset>".toList (fun _ => none)
      = .returns { query := "LIMIT ? OFFSET ?".toList, args := [.int64 3, .int64 2],
                   paginationUsed := true, err := none }
    ∧ ((2 : Int) ≤ 2 * 2 ∧ (2 : Int) * 2 < 2 + 3) := by
  decide

/-- C27 (amended): under the offset strategy with a constant page size `L` between 1 and 1000,
page `n` uses the offset `o_n` of the recurrence `o_0 = 0`, `o_(n+1) = (o_n + 1) * L` as long
as `o_n` is below `2^63`, so the second page uses `L` and the third `L * L + L`, which for
`L ≥ 2` is greater than `2 * L`. The query `LIMIT ?<limit> OFFSET ?<offset>` of page `n` asks
for `L + 1` rows from `o_n` on (one lookahead row): no page requests a row at a position from
`2 * L + 1` to `L * L + L - 1`, and no page has a row from `2 * L` to `L * L + L - 1` among
its first `L` rows, while the second page does request the row at `2 * L` as its lookahead
row. -/
theorem offset_pages (caseTable : Char → Char) (vars : Str → Option Value) (L : Nat) (pk : Str)
    (n : Nat) (hL1 : 1 ≤ L) (hL2 : L ≤ 1000) (hfit : pageOffset L n < 2 ^ 63) :
    offsetPageContext (L : Int) pk n
      = .returns (some { Strategy := offsetKey, Limit := (L : Int),
                         Offset := (pageOffset L n : Int), Cursor := [],
                         PrimaryKey := pk }, none)
    ∧ parseQueryOpts caseTable .MySQL
        (some { Strategy := offsetKey, Limit := (L : Int), Offset := (pageOffset L n : Int),
                Cursor := [], PrimaryKey := pk })
        "LIMIT ?<limit> OFFSET ?<offset>".toList vars
      = .returns { query := "LIMIT ? OFFSET ?".toList,
                   args := [.int64 ((L : Int) + 1), .int64 (pageOffset L n : Int)],
                   paginationUsed := true, err := none }
    ∧ pageOffset L 0 = 0 ∧ pageOffset L 1 = L ∧ pageOffset L 2 = L * L + L
    ∧ (2 ≤ L → 2 * L < pageOffset L 2)
    ∧ (2 ≤ L → ∀ x, 2 * L < x → x < L * L + L →
        ¬ (pageOffset L n ≤ x ∧ x ≤ pageOffset L n + L))
    ∧ (2 ≤ L → ∀ x, 2 * L ≤ x → x < L * L + L →
        ¬ (pageOffset L n ≤ x ∧ x < pageOffset L n + L))
    ∧ (pageOffset L 1 ≤ 2 * L ∧ 2 * L ≤ pageOffset L 1 + L) := by
  refine ⟨offsetPageContext_eq L pk hL1 hL2 n hfit, ?_, rfl, by simp [pageOffset],
    pageOffset_two L, ?_, fun h x h1 h2 => pageOffset_gap L h n x h1 h2,
    fun h x h1 h2 => pageOffset_gap_visited L h n x h1 h2, ?_⟩
  · rw [parseQueryOpts_limit_offset]
    rw [wrapInt64_of_range _ ⟨by norm_num; omega, by norm_num; omega⟩]
  · intro h
    rw [pageOffset_two]
    nlinarith
  · simp only [pageOffset]
    omega

theorem offset_pages_witness :
    offsetPageContext 10 "id".toList 2
      = .returns (some { Strategy := offsetKey, Limit := 10, Offset := 110, Cursor := [],
                         PrimaryKey := "id".toList }, none) :=
  (offset_pages id (fun _ => none) 10 "id".toList 2 (by decide) (by decide) (by decide)).1

/-! ### The page bag of the grants -/

theorem pushGrantQueries_states (b : Bag) (n : Nat) :
    (pushGrantQueries b n).states = (List.range n).reverse.map grantQueryState ++ b.states := by
  unfold pushGrantQueries
  induction n with
  | zero => simp
  | succ n ih =>
    rw [List.range_succ, List.foldl_append]
    simp only [Bag.Push] at ih ⊢
    simp only [List.foldl_cons, List.foldl_nil, ih, List.reverse_append,
      List.reverse_cons, List.reverse_nil, List.nil_append, List.singleton_append, List.map_cons,
      List.cons_append]

theorem pushGrantQueries_empty (n : Nat) :
    (pushGrantQueries { states := [] } (n + 1)).states = grantStates n [] := by
  rw [pushGrantQueries_states, List.range_succ]
  simp [grantStates, grantQueryState]

theorem strconvParseInt_index (i : Nat) (h : i < 2 ^ 63) :
    strconvParseInt (strconvItoa (i : Int)) = some (i : Int) := by
  apply strconvParseInt_strconvItoa
  constructor
  · have : (0 : Int) ≤ (i : Int) := Int.ofNat_nonneg _
    have h2 : -(2 : Int) ^ 63 ≤ 0 := by norm_num
    omega
  · exact_mod_cast h

/-- The call of `Grants` on a token that decodes to a bag whose top state names the grants
query `i`: that query is run with the inner token of the top state. -/
theorem Grants_of_top {G Q : Type} (codec : BagCodec) (grants : List Q)
    (listGrants : PageToken → Q → Except Str (List G × Str)) (size : Int) (token : Str)
    (i : Nat) (tok : Str) (rest : List PageState) (grantConfig : Q)
    (hbig : i < 2 ^ 63) (hq : grants.get? i = some grantConfig)
    (hu : codec.Unmarshal token
      = .ok { states := { grantQueryState i with Token := tok } :: rest }) :
    Grants codec grants listGrants (some { Size := size, Token := token })
      = grantsOutcome codec listGrants size { grantQueryState i with Token := tok } rest
          grantConfig := by
  have hlen : ¬ grants.length = 0 := by
    intro h0
    rw [List.length_eq_zero] at h0
    rw [h0] at hq
    simp at hq
  have hnn : ¬ ((i : Int) < 0) := by omega
  unfold Grants grantsOutcome
  simp only [hlen, if_false, hu, Bag.Current, List.head?_cons, reduceCtorEq, grantQueryState,
    if_true, strconvParseInt_index i hbig, hnn, Int.toNat_ofNat, hq, Bag.Next]
  cases listGrants { Size := size, Token := tok } grantConfig with
  | error msg => rfl
  | ok r =>
    obtain ⟨found, npt⟩ := r
    by_cases hn : npt = []
    · simp [hn]
    · simp [hn]

/-- The call of `Grants` on a token that decodes to the empty bag: the states of all the
queries are pushed and the last query is run with the empty inner token. -/
theorem Grants_of_empty {G Q : Type} (codec : BagCodec) (grants : List Q)
    (listGrants : PageToken → Q → Except Str (List G × Str)) (size : Int) (token : Str)
    (n : Nat) (grantConfig : Q)
    (hbig : n < 2 ^ 63) (hlen : grants.length = n + 1) (hq : grants.get? n = some grantConfig)
    (hu : codec.Unmarshal token = .ok { states := [] }) :
    Grants codec grants listGrants (some { Size := size, Token := token })
      = grantsOutcome codec listGrants size (grantQueryState n)
          ((List.range n).reverse.map grantQueryState) grantConfig := by
  have hlen0 : ¬ grants.length = 0 := by omega
  have hnn : ¬ ((n : Int) < 0) := by omega
  have hpush : pushGrantQueries { states := [] } (n + 1)
      = { states := grantQueryState n :: (List.range n).reverse.map grantQueryState } := by
    have := pushGrantQueries_empty n
    cases hb : pushGrantQueries { states := [] } (n + 1) with
    | mk states =>
      rw [hb] at this
      simp only at this
      rw [this]
      simp [grantStates, grantQueryState]
  unfold Grants grantsOutcome
  simp only [hlen0, if_false, hu, Bag.Current, List.head?_nil, if_true, hlen, hpush,
    List.head?_cons, grantQueryState, strconvParseInt_index n hbig, hnn, Int.toNat_ofNat, hq,
    Bag.Next]
  cases listGrants { Size := size, Token := [] } grantConfig with
  | error msg => rfl
  | ok r =>
    obtain ⟨found, npt⟩ := r
    by_cases hn : npt = []
    · simp [hn]
    · simp [hn]

/-- C24: for a resource type with `n + 1` grants queries, a `Grants` call whose token decodes
to the empty bag (as the empty token does) pushes one page state per query, the state of query
`n` on top, and runs query `n` with the empty inner token; a call whose token decodes to a bag
with the state of query `i` on top runs query `i` with the inner token of that state; and the
bag that a call serializes has the same query on top with the new inner token when the query
returned a non-empty next-page token, and otherwise, only then, the next lower query with the
empty inner token (the empty bag after query `0`): query `i` is first run only after query
`i + 1` returned an empty next-page token. -/
theorem Grants_lifo {G Q : Type} (codec : BagCodec) (grants : List Q)
    (listGrants : PageToken → Q → Except Str (List G × Str)) (size : Int) (n : Nat)
    (hlen : grants.length = n + 1) (hbig : n < 2 ^ 63)
    (hu0 : codec.Unmarshal [] = .ok { states := [] }) :
    ((pushGrantQueries { states := [] } grants.length).states = grantStates n []
      ∧ ∃ q, grants.get? n = some q
        ∧ Grants codec grants listGrants (some { Size := size, Token := [] })
          = grantsOutcome codec listGrants size (grantQueryState n)
              ((List.range n).reverse.map grantQueryState) q)
    ∧ (∀ token i tok rest, i ≤ n →
        codec.Unmarshal token = .ok { states := { grantQueryState i with Token := tok } :: rest } →
        ∃ q, grants.get? i = some q
          ∧ Grants codec grants listGrants (some { Size := size, Token := token })
            = grantsOutcome codec listGrants size { grantQueryState i with Token := tok } rest q)
    ∧ (∀ i tok q found npt, listGrants { Size := size, Token := tok } q = .ok (found, npt) →
        grantsOutcome codec listGrants size { grantQueryState i with Token := tok }
            ((List.range i).reverse.map grantQueryState) q
          = (match codec.Marshal
                { states := if npt ≠ [] then grantStates i npt
                            else (match i with
                              | 0 => []
                              | j + 1 => grantStates j []) } with
             | .error msg => .returns (.error (.bag msg))
             | .ok nextPageToken => .returns (.ok (found, nextPageToken)))) := by
  have hget : ∀ i, i ≤ n → ∃ q, grants.get? i = some q := by
    intro i hi
    have hlt : i < grants.length := by omega
    exact ⟨grants.get ⟨i, hlt⟩, List.get?_eq_get hlt⟩
  refine ⟨⟨?_, ?_⟩, ?_, ?_⟩
  · rw [hlen]
    exact pushGrantQueries_empty n
  · obtain ⟨q, hq⟩ := hget n (le_refl n)
    exact ⟨q, hq, Grants_of_empty codec grants listGrants size [] n q hbig hlen hq hu0⟩
  · intro token i tok rest hi hu
    obtain ⟨q, hq⟩ := hget i hi
    exact ⟨q, hq, Grants_of_top codec grants listGrants size token i tok rest q
      (lt_of_le_of_lt hi hbig) hq hu⟩
  · intro i tok q found npt hl
    unfold grantsOutcome
    simp only [hl]
    by_cases hn : npt = []
    · cases i with
      | zero => simp [hn]
      | succ j =>
        have he : ({ grantQueryState j with Token := [] } : PageState) = grantQueryState j := rfl
        simp [hn, grantStates, List.range_succ, he]
    · simp [hn, grantStates]

theorem Grants_lifo_witness :
    Grants exampleBagCodec ["q0".toList, "q1".toList]
        (fun t q => .ok ([q ++ t.Token], if t.Token = [] then "p2".toList else []))
        (some { Size := 10, Token := [] })
      = .returns (.ok (["q1".toList], "grant-query,1,p2;grant-query,0,;".toList)) := by
  obtain ⟨_, q, hq, hg⟩ := (Grants_lifo exampleBagCodec ["q0".toList, "q1".toList]
    (fun t q => Except.ok ([q ++ t.Token], if t.Token = [] then "p2".toList else []))
    10 1 rfl (by decide) (by rfl)).1
  rw [hg]
  simp only [List.get?_cons_succ, List.get?_cons_zero, Option.some.injEq] at hq
  subst hq
  rfl

/-! ### Letter case of placeholders -/

theorem asciiToLower_toNat (c : Char) :
    (asciiToLower c).toNat = if 65 ≤ c.toNat ∧ c.toNat ≤ 90 then c.toNat + 32 else c.toNat := by
  unfold asciiToLower
  split
  · next hu => exact toNat_ofNat_ascii _ (by omega)
  · rfl

theorem char_eq_of_toNat_eq (a b : Char) (h : a.toNat = b.toNat) : a = b := by
  have ha := Char.ofNat_toNat a
  have hb := Char.ofNat_toNat b
  rw [← ha, ← hb, h]

theorem asciiToLower_eq_iff (c x : Char) (hx : ¬ (97 ≤ x.toNat ∧ x.toNat ≤ 122))
    (hx2 : ¬ (65 ≤ x.toNat ∧ x.toNat ≤ 90)) : asciiToLower c = x ↔ c = x := by
  constructor
  · intro h
    have ht := asciiToLower_toNat c
    rw [h] at ht
    by_cases hu : 65 ≤ c.toNat ∧ c.toNat ≤ 90
    · rw [if_pos hu] at ht
      omega
    · rw [if_neg hu] at ht
      exact (char_eq_of_toNat_eq _ _ ht).symm
  · intro h
    subst h
    unfold asciiToLower
    rw [if_neg hx2]

theorem isWordChar_asciiToLower (c : Char) : isWordChar (asciiToLower c) = isWordChar c := by
  have h1 := isWordChar_iff (asciiToLower c)
  have h2 := isWordChar_iff c
  rw [asciiToLower_toNat] at h1
  rw [Bool.eq_iff_iff, h1, h2]
  split <;> omega

theorem unicodeToLower_asciiToLower (caseTable : Char → Char) (c : Char) :
    unicodeToLower caseTable (asciiToLower c) = unicodeToLower caseTable c := by
  by_cases hu : 65 ≤ c.toNat ∧ c.toNat ≤ 90
  · have hle : c.toNat ≤ 127 := by omega
    have h1 := asciiToLower_toNat c
    rw [if_pos hu] at h1
    have hle2 : (asciiToLower c).toNat ≤ 127 := by omega
    apply char_eq_of_toNat_eq
    rw [unicodeToLower_toNat caseTable _ hle2, unicodeToLower_toNat caseTable _ hle, h1,
      if_pos hu]
    have : ¬ (65 ≤ c.toNat + 32 ∧ c.toNat + 32 ≤ 90) := by omega
    rw [if_neg this]
  · unfold asciiToLower
    rw [if_neg hu]

theorem stringsToLower_map_asciiToLower (caseTable : Char → Char) (s : Str) :
    stringsToLower caseTable (s.map asciiToLower) = stringsToLower caseTable s := by
  simp only [stringsToLower, List.map_map]
  exact List.map_congr_left (fun c _ => unicodeToLower_asciiToLower caseTable c)

theorem stringsToLower_of_map_eq (caseTable : Char → Char) (a b : Str)
    (h : a.map asciiToLower = b.map asciiToLower) :
    stringsToLower caseTable a = stringsToLower caseTable b := by
  rw [← stringsToLower_map_asciiToLower caseTable a, h, stringsToLower_map_asciiToLower]

theorem takeWhile_map_asciiToLower (s : Str) :
    (s.map asciiToLower).takeWhile isWordChar = (s.takeWhile isWordChar).map asciiToLower
    ∧ (s.map asciiToLower).dropWhile isWordChar
        = (s.dropWhile isWordChar).map asciiToLower := by
  induction s with
  | nil => exact ⟨rfl, rfl⟩
  | cons c cs ih =>
    simp only [List.map_cons, List.takeWhile_cons, List.dropWhile_cons,
      isWordChar_asciiToLower]
    cases isWordChar c
    · exact ⟨rfl, rfl⟩
    · simp [ih.1, ih.2]

theorem queryOptRegexAt_of_second_ne (c c2 : Char) (cs : Str) (h : c2 ≠ '<') :
    queryOptRegexAt (c :: c2 :: cs) = none := by
  unfold queryOptRegexAt
  split
  · next heq =>
    simp only [List.cons.injEq] at heq
    exact absurd heq.2.1 h
  · rfl

theorem queryOptRegexAt_singleton (c : Char) : queryOptRegexAt [c] = none := by
  unfold queryOptRegexAt
  split
  · next heq => simp at heq
  · rfl

theorem asciiToLower_symbols :
    asciiToLower '?' = '?' ∧ asciiToLower '<' = '<' ∧ asciiToLower '>' = '>'
      ∧ asciiToLower '|' = '|' := by
  decide

theorem queryOptRegexAt_map (s : Str) :
    queryOptRegexAt (s.map asciiToLower)
      = (queryOptRegexAt s).map
          (fun m => (m.1, m.2.1.map asciiToLower, m.2.2.map asciiToLower)) := by
  match s with
  | [] => rfl
  | [c] => simp [queryOptRegexAt_singleton]
  | c :: c2 :: rest =>
    by_cases h1 : c = '?'
    swap
    · have : asciiToLower c ≠ '?' := fun e =>
        h1 ((asciiToLower_eq_iff c '?' (by decide) (by decide)).mp e)
      rw [List.map_cons, queryOptRegexAt_of_head_ne _ _ this, queryOptRegexAt_of_head_ne _ _ h1]
      rfl
    by_cases h2 : c2 = '<'
    swap
    · have : asciiToLower c2 ≠ '<' := fun e =>
        h2 ((asciiToLower_eq_iff c2 '<' (by decide) (by decide)).mp e)
      rw [List.map_cons, List.map_cons, queryOptRegexAt_of_second_ne _ _ _ this,
        queryOptRegexAt_of_second_ne _ _ _ h2]
      rfl
    subst h1 h2
    have hm := takeWhile_map_asciiToLower rest
    simp only [List.map_cons, asciiToLower_symbols.1, asciiToLower_symbols.2.1, queryOptRegexAt,
      hm.1, hm.2, List.map_eq_nil_iff, List.length_map]
    by_cases hk : rest.takeWhile isWordChar = []
    · simp [hk]
    simp only [hk, if_false]
    generalize rest.dropWhile isWordChar = after
    generalize rest.takeWhile isWordChar = key
    cases after with
    | nil => simp
    | cons x xs =>
      by_cases hx : x = '>'
      · subst hx
        simp [asciiToLower_symbols.2.2.1]
      by_cases hx2 : x = '|'
      · subst hx2
        have hm2 := takeWhile_map_asciiToLower xs
        simp only [List.map_cons, asciiToLower_symbols.2.2.2, hm2.1, hm2.2, List.map_eq_nil_iff,
          List.length_map]
        by_cases ho : xs.takeWhile isWordChar = []
        · simp [ho]
        simp only [ho, if_false]
        generalize xs.dropWhile isWordChar = after2
        generalize xs.takeWhile isWordChar = opt
        cases after2 with
        | nil => simp
        | cons y ys =>
          by_cases hy : y = '>'
          · subst hy
            simp [asciiToLower_symbols.2.2.1]
          · have hy2 : asciiToLower y ≠ '>' := fun e =>
              hy ((asciiToLower_eq_iff y '>' (by decide) (by decide)).mp e)
            simp [hy, hy2]
      · have hx3 : asciiToLower x ≠ '>' := fun e =>
          hx ((asciiToLower_eq_iff x '>' (by decide) (by decide)).mp e)
        have hx4 : asciiToLower x ≠ '|' := fun e =>
          hx2 ((asciiToLower_eq_iff x '|' (by decide) (by decide)).mp e)
        simp [hx, hx2, hx3, hx4]

theorem findStringSubmatch_map (s : Str) :
    queryOptRegexFindStringSubmatch (s.map asciiToLower)
      = (queryOptRegexFindStringSubmatch s).map
          (fun g => (g.1.map asciiToLower, g.2.map asciiToLower)) := by
  induction s with
  | nil => rfl
  | cons c cs ih =>
    have hm := queryOptRegexAt_map (c :: cs)
    rw [List.map_cons] at hm ⊢
    unfold queryOptRegexFindStringSubmatch
    rw [hm]
    cases queryOptRegexAt (c :: cs) with
    | none => simpa using ih
    | some m => rfl

/-- Two placeholders that agree up to letter case parse alike: both are rejected as not
well-formed, or both give the same result. -/
theorem parseToken_sameUpToCase (caseTable : Char → Char) (t1 t2 : Str)
    (h : t1.map asciiToLower = t2.map asciiToLower) :
    (parseToken caseTable t1 = .error (.invalidTokenFormat t1)
      ∧ parseToken caseTable t2 = .error (.invalidTokenFormat t2))
    ∨ parseToken caseTable t1 = parseToken caseTable t2 := by
  have h1 := findStringSubmatch_map t1
  have h2 := findStringSubmatch_map t2
  rw [h, h2] at h1
  unfold parseToken
  cases hf1 : queryOptRegexFindStringSubmatch t1 with
  | none =>
    rw [hf1] at h1
    cases hf2 : queryOptRegexFindStringSubmatch t2 with
    | none => exact Or.inl ⟨rfl, rfl⟩
    | some g2 => rw [hf2] at h1; simp at h1
  | some g1 =>
    rw [hf1] at h1
    cases hf2 : queryOptRegexFindStringSubmatch t2 with
    | none => rw [hf2] at h1; simp at h1
    | some g2 =>
      rw [hf2] at h1
      simp only [Option.map_some', Option.some.injEq, Prod.mk.injEq] at h1
      right
      obtain ⟨k1, o1⟩ := g1
      obtain ⟨k2, o2⟩ := g2
      simp only at h1 ⊢
      rw [stringsToLower_of_map_eq caseTable k2 k1 h1.1,
        stringsToLower_of_map_eq caseTable o2 o1 h1.2]

/-- The relation between the states of the callback on two queries that agree up to the
letter case of their placeholders. -/
theorem substituteValue_related (d : DbEngine) (opts : queryTokenOpts) (v : Value)
    (st1 st2 : ParseState) (hq : st1.qArgs = st2.qArgs)
    (hs : st1.paginationOptSet = st2.paginationOptSet) (hp : st1.panicked = st2.panicked)
    (he : st1.parseErr = [] ↔ st2.parseErr = []) :
    (substituteValue d opts v st1).1 = (substituteValue d opts v st2).1
    ∧ (substituteValue d opts v st1).2.qArgs = (substituteValue d opts v st2).2.qArgs
    ∧ (substituteValue d opts v st1).2.paginationOptSet
        = (substituteValue d opts v st2).2.paginationOptSet
    ∧ (substituteValue d opts v st1).2.panicked = (substituteValue d opts v st2).2.panicked
    ∧ ((substituteValue d opts v st1).2.parseErr = []
        ↔ (substituteValue d opts v st2).2.parseErr = []) := by
  unfold substituteValue
  cases opts.Unquoted
  · simp [hq, hs, hp, he]
  · simp [hq, hs, hp, he]

theorem parseQueryOptsReplace_related (caseTable : Char → Char) (d : DbEngine)
    (pCtx : Option paginationContext) (vars : Str → Option Value) (t1 t2 : Str)
    (h : t1.map asciiToLower = t2.map asciiToLower)
    (st1 st2 : ParseState) (hq : st1.qArgs = st2.qArgs)
    (hs : st1.paginationOptSet = st2.paginationOptSet) (hp : st1.panicked = st2.panicked)
    (he : st1.parseErr = [] ↔ st2.parseErr = []) :
    ((parseQueryOptsReplace caseTable d pCtx vars st1 t1).2.qArgs
        = (parseQueryOptsReplace caseTable d pCtx vars st2 t2).2.qArgs
      ∧ (parseQueryOptsReplace caseTable d pCtx vars st1 t1).2.paginationOptSet
          = (parseQueryOptsReplace caseTable d pCtx vars st2 t2).2.paginationOptSet
      ∧ (parseQueryOptsReplace caseTable d pCtx vars st1 t1).2.panicked
          = (parseQueryOptsReplace caseTable d pCtx vars st2 t2).2.panicked
      ∧ ((parseQueryOptsReplace caseTable d pCtx vars st1 t1).2.parseErr = []
          ↔ (parseQueryOptsReplace caseTable d pCtx vars st2 t2).2.parseErr = []))
    ∧ ((parseQueryOptsReplace caseTable d pCtx vars st1 t1).2.panicked = false →
        (parseQueryOptsReplace caseTable d pCtx vars st1 t1).2.parseErr = [] →
        (parseQueryOptsReplace caseTable d pCtx vars st1 t1).1
          = (parseQueryOptsReplace caseTable d pCtx vars st2 t2).1) := by
  obtain ⟨qa1, pe1, ps1, pn1⟩ := st1
  obtain ⟨qa2, pe2, ps2, pn2⟩ := st2
  simp only at hq hs hp he
  subst hq hs hp
  unfold parseQueryOptsReplace
  cases pn1 with
  | true => simp [he]
  | false =>
    simp only [Bool.false_eq_true, if_false]
    rcases parseToken_sameUpToCase caseTable t1 t2 h with ⟨e1, e2⟩ | heq
    · rw [e1, e2]
      simp
    · rw [← heq]
      cases parseToken caseTable t1 with
      | error err => simp
      | ok opts =>
        simp only
        have n1 : ¬ offsetKey = limitKey := by decide
        have n2 : ¬ cursorKey = limitKey := by decide
        have n3 : ¬ cursorKey = offsetKey := by decide
        by_cases k1 : opts.Key = limitKey
        · simp only [k1, if_true]
          cases pCtx with
          | none => simp [he]
          | some p => cases hu : opts.Unquoted <;> simp [substituteValue, hu, he]
        · by_cases k2 : opts.Key = offsetKey
          · simp only [k2, n1, if_true, if_false]
            cases pCtx with
            | none => simp [he]
            | some p => cases hu : opts.Unquoted <;> simp [substituteValue, hu, he]
          · by_cases k3 : opts.Key = cursorKey
            · simp only [k3, n2, n3, if_true, if_false]
              cases pCtx with
              | none => simp [he]
              | some p => cases hu : opts.Unquoted <;> simp [substituteValue, hu, he]
            · simp only [k1, k2, k3, if_false]
              cases vars opts.Key with
              | none => simp
              | some v => cases hu : opts.Unquoted <;> simp [substituteValue, hu, he]

theorem applyPieces_related (caseTable : Char → Char) (d : DbEngine)
    (pCtx : Option paginationContext) (vars : Str → Option Value) :
    ∀ (ps1 ps2 : List Piece), piecesSameUpToCase ps1 ps2 = true →
    ∀ (st1 st2 : ParseState), st1.qArgs = st2.qArgs →
      st1.paginationOptSet = st2.paginationOptSet → st1.panicked = st2.panicked →
      (st1.parseErr = [] ↔ st2.parseErr = []) →
      ((applyPieces (parseQueryOptsReplace caseTable d pCtx vars) ps1 st1).2.qArgs
          = (applyPieces (parseQueryOptsReplace caseTable d pCtx vars) ps2 st2).2.qArgs
        ∧ (applyPieces (parseQueryOptsReplace caseTable d pCtx vars) ps1 st1).2.paginationOptSet
            = (applyPieces (parseQueryOptsReplace caseTable d pCtx vars) ps2 st2).2.paginationOptSet
        ∧ (applyPieces (parseQueryOptsReplace caseTable d pCtx vars) ps1 st1).2.panicked
            = (applyPieces (parseQueryOptsReplace caseTable d pCtx vars) ps2 st2).2.panicked
        ∧ ((applyPieces (parseQueryOptsReplace caseTable d pCtx vars) ps1 st1).2.parseErr = []
            ↔ (applyPieces (parseQueryOptsReplace caseTable d pCtx vars) ps2 st2).2.parseErr = []))
      ∧ ((applyPieces (parseQueryOptsReplace caseTable d pCtx vars) ps1 st1).2.panicked = false →
          (applyPieces (parseQueryOptsReplace caseTable d pCtx vars) ps1 st1).2.parseErr = [] →
          (applyPieces (parseQueryOptsReplace caseTable d pCtx vars) ps1 st1).1
            = (applyPieces (parseQueryOptsReplace caseTable d pCtx vars) ps2 st2).1) := by
  intro ps1
  induction ps1 with
  | nil =>
    intro ps2 h st1 st2 hq hs hp he
    cases ps2 with
    | nil => exact ⟨⟨hq, hs, hp, he⟩, fun _ _ => rfl⟩
    | cons q qs => simp [piecesSameUpToCase] at h
  | cons p ps ih =>
    intro ps2 h st1 st2 hq hs hp he
    cases ps2 with
    | nil => simp [piecesSameUpToCase] at h
    | cons q qs =>
      simp only [piecesSameUpToCase, Bool.and_eq_true] at h
      obtain ⟨hpq, hrest⟩ := h
      cases p with
      | lit c =>
        cases q with
        | tok t2 => simp [Piece.sameUpToCase] at hpq
        | lit c2 =>
          simp only [Piece.sameUpToCase, decide_eq_true_eq] at hpq
          subst hpq
          simp only [applyPieces]
          obtain ⟨i1, i2⟩ := ih qs hrest st1 st2 hq hs hp he
          exact ⟨i1, fun h1 h2 => by rw [i2 h1 h2]⟩
      | tok t1 =>
        cases q with
        | lit c2 => simp [Piece.sameUpToCase] at hpq
        | tok t2 =>
          simp only [Piece.sameUpToCase, decide_eq_true_eq] at hpq
          simp only [applyPieces]
          obtain ⟨⟨s1, s2, s3, s4⟩, s5⟩ :=
            parseQueryOptsReplace_related caseTable d pCtx vars t1 t2 hpq st1 st2 hq hs hp he
          obtain ⟨i1, i2⟩ := ih qs hrest _ _ s1 s2 s3 s4
          refine ⟨i1, fun h1 h2 => ?_⟩
          obtain ⟨f1, f2, _⟩ := applyPieces_flag caseTable d pCtx vars ps _ h1 h2
          rw [s5 f1 f2, i2 h1 h2]

/-- C12: for two queries that differ only in the letter case of the key and option parts of
their placeholders, `parseQueryOpts` with the same dialect, pagination context and `vars`
behaves alike: both calls stop with the nil dereference, or both return, with the same SQL,
the same arguments, the same `paginationUsed` and an error in both or in neither; and the key
that `parseToken` returns is the lowercased key of the placeholder, as for `?<LIMIT|UNQUOTED>`,
which parses to the key `limit` with `Unquoted` set. -/
theorem parseQueryOpts_case_insensitive (caseTable : Char → Char) (d : DbEngine)
    (pCtx : Option paginationContext) (vars : Str → Option Value) (q1 q2 : Str)
    (h : sameUpToPlaceholderCase q1 q2 = true) :
    ((parseQueryOpts caseTable d pCtx q1 vars = .panics
        ∧ parseQueryOpts caseTable d pCtx q2 vars = .panics)
      ∨ ∃ r1 r2, parseQueryOpts caseTable d pCtx q1 vars = .returns r1
          ∧ parseQueryOpts caseTable d pCtx q2 vars = .returns r2
          ∧ r1.query = r2.query ∧ r1.args = r2.args
          ∧ r1.paginationUsed = r2.paginationUsed ∧ (r1.err = none ↔ r2.err = none))
    ∧ (∀ token opts, parseToken caseTable token = .ok opts →
        ∃ k o, queryOptRegexFindStringSubmatch token = some (k, o)
          ∧ opts.Key = stringsToLower caseTable k)
    ∧ (∀ k, k ≠ [] → (∀ c ∈ k, isWordChar c = true) →
        parseToken caseTable ("?<".toList ++ k ++ ">".toList)
          = .ok { Key := stringsToLower caseTable k, Unquoted := false })
    ∧ parseToken caseTable "?<LIMIT|UNQUOTED>".toList
        = .ok { Key := "limit".toList, Unquoted := true } := by
  refine ⟨?_, fun token opts ht => parseToken_key caseTable token opts ht,
    fun k hne hk => parseToken_plain caseTable k hne hk, by rfl⟩
  obtain ⟨⟨a1, a2, a3, a4⟩, a5⟩ := applyPieces_related caseTable d pCtx vars
    (regexpPieces queryOptRegex q1 0) (regexpPieces queryOptRegex q2 0) h
    { qArgs := [], parseErr := [], paginationOptSet := false, panicked := false }
    { qArgs := [], parseErr := [], paginationOptSet := false, panicked := false }
    rfl rfl rfl Iff.rfl
  unfold parseQueryOpts
  simp only [regexpReplaceAllStringFunc_eq_pieces]
  cases hp1 : (applyPieces (parseQueryOptsReplace caseTable d pCtx vars)
      (regexpPieces queryOptRegex q1 0)
      { qArgs := [], parseErr := [], paginationOptSet := false, panicked := false }).2.panicked with
  | true =>
    left
    rw [hp1] at a3
    simp [← a3]
  | false =>
    right
    rw [hp1] at a3
    simp only [← a3, Bool.false_eq_true, if_false]
    by_cases he1 : (applyPieces (parseQueryOptsReplace caseTable d pCtx vars)
        (regexpPieces queryOptRegex q1 0)
        { qArgs := [], parseErr := [], paginationOptSet := false, panicked := false }).2.parseErr
        = []
    · have he2 := a4.mp he1
      simp only [he1, he2, ne_eq, not_true_eq_false, if_false]
      exact ⟨_, _, rfl, rfl, a5 hp1 he1, a1, a2, Iff.rfl⟩
    · have he2 : ¬ _ := fun e => he1 (a4.mpr e)
      simp only [he1, he2, ne_eq, not_false_eq_true, if_true]
      exact ⟨_, _, rfl, rfl, rfl, rfl, rfl, by simp⟩

theorem parseQueryOpts_case_insensitive_witness :
    sameUpToPlaceholderCase "a ?<LIMIT> ?<Name|UNQUOTED>".toList
        "a ?<limit> ?<name|unquoted>".toList = true
    ∧ sameUpToPlaceholderCase "A ?<limit>".toList "a ?<limit>".toList = false
    ∧ ((parseQueryOpts id .MySQL
          (some { Strategy := offsetKey, Limit := 10, Offset := 0, Cursor := [], PrimaryKey := [] })
          "a ?<LIMIT> ?<Name|UNQUOTED>".toList
          (fun k => if k = "name".toList then some (.str "x".toList) else none) = .panics
        ∧ parseQueryOpts id .MySQL
          (some { Strategy := offsetKey, Limit := 10, Offset := 0, Cursor := [], PrimaryKey := [] })
          "a ?<limit> ?<name|unquoted>".toList
          (fun k => if k = "name".toList then some (.str "x".toList) else none) = .panics)
      ∨ ∃ r1 r2, parseQueryOpts id .MySQL
          (some { Strategy := offsetKey, Limit := 10, Offset := 0, Cursor := [], PrimaryKey := [] })
          "a ?<LIMIT> ?<Name|UNQUOTED>".toList
          (fun k => if k = "name".toList then some (.str "x".toList) else none) = .returns r1
        ∧ parseQueryOpts id .MySQL
          (some { Strategy := offsetKey, Limit := 10, Offset := 0, Cursor := [], PrimaryKey := [] })
          "a ?<limit> ?<name|unquoted>".toList
          (fun k => if k = "name".toList then some (.str "x".toList) else none) = .returns r2
        ∧ r1.query = r2.query ∧ r1.args = r2.args
        ∧ r1.paginationUsed = r2.paginationUsed ∧ (r1.err = none ↔ r2.err = none)) :=
  ⟨by decide, by decide,
    (parseQueryOpts_case_insensitive id .MySQL
      (some { Strategy := offsetKey, Limit := 10, Offset := 0, Cursor := [], PrimaryKey := [] })
      (fun k => if k = "name".toList then some (.str "x".toList) else none)
      "a ?<LIMIT> ?<Name|UNQUOTED>".toList "a ?<limit> ?<name|unquoted>".toList
      (by decide)).1⟩

/-! ### The round trip of the serialization format -/

theorem phpReadNat_digits (n : Nat) (c : Char) (rest : Str)
    (hc : ¬ (48 ≤ c.toNat ∧ c.toNat ≤ 57)) :
    phpReadNat (Nat.toDigits 10 n ++ c :: rest) = some (n, c :: rest) := by
  obtain ⟨hne, hall, hval⟩ := toDigits_decimal n
  have tw := takeWhile_append_stop (fun c => decide (48 ≤ c.toNat) && decide (c.toNat ≤ 57))
    (Nat.toDigits 10 n) c rest
    (by
      intro x hx
      have := hall x hx
      simp [this.1, this.2])
    (by
      simp only [Bool.and_eq_false_iff, decide_eq_false_iff_not]
      by_cases h1 : 48 ≤ c.toNat
      · exact Or.inr (fun h2 => hc ⟨h1, h2⟩)
      · exact Or.inl h1)
  unfold phpReadNat
  simp only [tw.1, hne, if_false, hval, List.drop_left]

theorem phpReadBytes_append (s rest : Str) :
    phpReadBytes (s ++ rest) (s.map Char.utf8Size).sum = some (s, rest) := by
  induction s with
  | nil =>
    cases rest <;> simp [phpReadBytes]
  | cons c cs ih =>
    have hpos : 0 < c.utf8Size := Char.utf8Size_pos c
    obtain ⟨k, hk⟩ : ∃ k, (List.map Char.utf8Size (c :: cs)).sum = k + 1 :=
      ⟨c.utf8Size + (cs.map Char.utf8Size).sum - 1, by simp only [List.map_cons, List.sum_cons]; omega⟩
    have hsum : k + 1 - c.utf8Size = (cs.map Char.utf8Size).sum := by
      simp only [List.map_cons, List.sum_cons] at hk
      omega
    have hle : c.utf8Size ≤ k + 1 := by
      simp only [List.map_cons, List.sum_cons] at hk
      omega
    rw [hk, List.cons_append]
    simp only [phpReadBytes, hle, if_true, hsum, ih]

theorem phpDecodeValue_str (s rest : Str) :
    phpDecodeValue (phpEncodeValue (.str s) ++ rest) = some (.str s, rest) := by
  have hshape : phpEncodeValue (.str s) ++ rest
      = 's' :: ':' :: (Nat.toDigits 10 (s.map Char.utf8Size).sum
          ++ ':' :: '"' :: (s ++ '"' :: ';' :: rest)) := by
    simp [phpEncodeValue]
  rw [hshape]
  simp only [phpDecodeValue, phpReadNat_digits _ ':' _ (by decide), phpReadBytes_append]

theorem phpDecodeValue_bool (b : Bool) (rest : Str) :
    phpDecodeValue (phpEncodeValue (.bool b) ++ rest) = some (.bool b, rest) := by
  cases b <;> simp [phpEncodeValue, phpDecodeValue]

theorem phpDecodeEntries_encode :
    ∀ (m : PhpMap) (rest : Str), (∀ e ∈ m, ∃ s b, e = (PhpValue.str s, PhpValue.bool b)) →
      phpDecodeEntries m.length
          ((m.map (fun e => phpEncodeValue e.1 ++ phpEncodeValue e.2)).flatten ++ rest)
        = some (m, rest) := by
  intro m
  induction m with
  | nil => intro rest _; simp [phpDecodeEntries]
  | cons e es ih =>
    intro rest h
    obtain ⟨s, b, he⟩ := h e (List.mem_cons_self _ _)
    subst he
    have ih2 := ih rest (fun e2 h2 => h e2 (List.mem_cons_of_mem _ h2))
    simp only [List.map_cons, List.flatten_cons, List.length_cons, List.append_assoc,
      phpDecodeEntries, phpDecodeValue_str, phpDecodeValue_bool, ih2]

theorem phpUnmarshal_phpMarshal (m : PhpMap)
    (h : ∀ e ∈ m, ∃ s b, e = (PhpValue.str s, PhpValue.bool b)) :
    ∃ s, phpMarshal m = .ok s ∧ phpUnmarshal s = .ok m := by
  refine ⟨_, rfl, ?_⟩
  have hshape : "a:".toList ++ Nat.toDigits 10 m.length ++ ":\x7b".toList
      ++ (m.map (fun e => phpEncodeValue e.1 ++ phpEncodeValue e.2)).flatten ++ "\x7d".toList
      = 'a' :: ':' :: (Nat.toDigits 10 m.length ++ ':' :: '\x7b'
          :: ((m.map (fun e => phpEncodeValue e.1 ++ phpEncodeValue e.2)).flatten
            ++ ['\x7d'])) := by
    simp
  rw [hshape]
  simp only [phpUnmarshal, phpReadNat_digits _ ':' _ (by decide),
    phpDecodeEntries_encode m ['\x7d'] h]

theorem PhpMap.mem_set (m : PhpMap) (k v : PhpValue) :
    ∀ e ∈ m.set k v, e ∈ m ∨ e = (k, v) := by
  intro e he
  unfold PhpMap.set at he
  split at he
  · obtain ⟨e0, h0, h1⟩ := List.mem_map.mp he
    by_cases hk : e0.1 = k
    · simp only [hk, if_true] at h1
      exact Or.inr h1.symm
    · simp only [hk, if_false] at h1
      exact Or.inl (h1 ▸ h0)
  · rcases List.mem_append.mp he with h0 | h0
    · exact Or.inl h0
    · exact Or.inr (List.mem_singleton.mp h0)

theorem stringKeyMap_entries (input : List Str) :
    ∀ e ∈ stringKeyMap input, ∃ s b, e = (PhpValue.str s, PhpValue.bool b) := by
  unfold stringKeyMap
  have key : ∀ (l : List Str) (m : PhpMap),
      (∀ e ∈ m, ∃ s b, e = (PhpValue.str s, PhpValue.bool b)) →
      ∀ e ∈ l.foldl (fun data str => data.set (.str str) (.bool true)) m,
        ∃ s b, e = (PhpValue.str s, PhpValue.bool b) := by
    intro l
    induction l with
    | nil => intro m hm; simpa using hm
    | cons x xs ih =>
      intro m hm
      simp only [List.foldl_cons]
      apply ih
      intro e he
      rcases PhpMap.mem_set m _ _ e he with h0 | h0
      · exact hm e h0
      · exact ⟨x, true, h0⟩
  exact key input [] (fun e he => by cases he)

/-- The repository code on a codec that decodes what it encoded for the map built from `L`:
the result is the sorted list of the distinct elements of `L`. -/
theorem PHPDeserialize_Serialize_of_codec (lib : PhpSerialize) (L : List Str)
    (hlib : ∃ s, lib.Marshal (stringKeyMap L) = .ok s ∧
      ∃ m, lib.Unmarshal s = .ok m ∧ m.Perm (stringKeyMap L)) :
    ∃ s r, PHPSerializeStringArray lib L = .ok s ∧
      PHPDeserializeStringArray lib s = .ok r ∧
      r = sortStrings L.dedup ∧ r.Sorted (fun a b => a < b) ∧ ∀ x, x ∈ r ↔ x ∈ L := by
  obtain ⟨s, hs, m, hm, hperm⟩ := hlib
  obtain ⟨hnd, hmem⟩ := stringKeyMap_strings L
  have hp := List.Perm.filterMap (fun e : PhpValue × PhpValue => e.1.asString) hperm
  have hnd2 := (List.Perm.nodup_iff hp).mpr hnd
  refine ⟨s, sortStrings (m.filterMap (fun e => e.1.asString)), by simp [PHPSerializeStringArray, hs],
    by simp only [PHPDeserializeStringArray, hm], ?_, ?_, ?_⟩
  · apply sortStrings_congr
    apply (List.perm_ext_iff_of_nodup hnd2 (List.nodup_dedup L)).mpr
    intro x
    rw [List.Perm.mem_iff hp, hmem x, List.mem_dedup]
  · apply List.Sorted.lt_of_le (sortStrings_sorted _)
    exact (List.Perm.nodup_iff (sortStrings_perm _)).mpr hnd2
  · intro x
    rw [List.Perm.mem_iff (sortStrings_perm _), List.Perm.mem_iff hp, hmem x]

theorem phpUnescape_of_no_backslash (s : Str) (h : '\\' ∉ s) : phpUnescape s = s := by
  induction s with
  | nil => rfl
  | cons c cs ih =>
    have hc : c ≠ '\\' := fun e => h (by simp [e])
    have hcs : '\\' ∉ cs := fun hm => h (List.mem_cons_of_mem _ hm)
    unfold phpUnescape
    split
    · next heq =>
      simp only [List.cons.injEq] at heq
      exact absurd heq.1 hc
    · next heq =>
      simp only [List.cons.injEq] at heq
      obtain ⟨h1, h2⟩ := heq
      subst h1 h2
      rw [ih hcs]
    · next heq => cases heq

theorem stringKeyMap_entries_mem (input : List Str) :
    ∀ e ∈ stringKeyMap input, ∃ s b, s ∈ input ∧ e = (PhpValue.str s, PhpValue.bool b) := by
  intro e he
  obtain ⟨s, b, hsb⟩ := stringKeyMap_entries input e he
  have hk : e.1 ∈ (stringKeyMap input).map Prod.fst := List.mem_map.mpr ⟨e, he, rfl⟩
  obtain ⟨s2, hs2, hk2⟩ := ((stringKeyMap_keys input).2 e.1).mp hk
  rw [hsb] at hk2
  simp only [PhpValue.str.injEq] at hk2
  exact ⟨s, b, hk2 ▸ hs2, hsb⟩

theorem phpEscapeDecoding_roundtrip (L : List Str) (h : ∀ s ∈ L, '\\' ∉ s) :
    ∃ s, phpEscapeDecodingLibrary.Marshal (stringKeyMap L) = .ok s
      ∧ phpEscapeDecodingLibrary.Unmarshal s = .ok (stringKeyMap L) := by
  obtain ⟨s, hs, hu⟩ := phpUnmarshal_phpMarshal (stringKeyMap L) (stringKeyMap_entries L)
  refine ⟨s, hs, ?_⟩
  simp only [phpEscapeDecodingLibrary, hu]
  congr 1
  have : ∀ e ∈ stringKeyMap L, (e.1.unescape, e.2.unescape) = e := by
    intro e he
    obtain ⟨s, b, hsL, rfl⟩ := stringKeyMap_entries_mem L e he
    simp only [PhpValue.unescape, phpUnescape_of_no_backslash s (h s hsL)]
  calc (stringKeyMap L).map (fun e => (e.1.unescape, e.2.unescape))
      = (stringKeyMap L).map id := List.map_congr_left this
    _ = stringKeyMap L := List.map_id _

/-- C6 (counterexample): with a library whose decoder interprets escape sequences, the list
that holds the one string `a`, backslash, `n`, `b` is serialized as it is and deserialized
to the string `a`, line feed, `b`, which is not an element of the list. -/
theorem PHPDeserialize_Serialize_backslash :
    PHPSerializeStringArray phpEscapeDecodingLibrary ["a\\nb".toList]
      = .ok "a:1:\x7bs:4:\"a\\nb\";b:1;\x7d".toList
    ∧ PHPDeserializeStringArray phpEscapeDecodingLibrary
        "a:1:\x7bs:4:\"a\\nb\";b:1;\x7d".toList
      = .ok ["a\nb".toList]
    ∧ ["a\nb".toList] ≠ sortStrings ["a\\nb".toList].dedup := by
  refine ⟨by rfl, by rfl, by decide⟩

/-- C6 (amended): for every list `L` of strings and every serialization library that decodes
the map it encoded for `L`, `PHPDeserializeStringArray` applied to the output of
`PHPSerializeStringArray L` succeeds and returns the elements of `L` without duplicates in
ascending order: the sorted deduplicated list, strictly increasing, with exactly the members
of `L`. The format of the specification is decoded so for every `L`, and a decoder that
interprets escape sequences decodes so every `L` whose strings hold no backslash. -/
theorem PHPDeserialize_Serialize (lib : PhpSerialize) (L : List Str)
    (hlib : ∃ s, lib.Marshal (stringKeyMap L) = .ok s ∧
      ∃ m, lib.Unmarshal s = .ok m ∧ m.Perm (stringKeyMap L)) :
    (∃ s r, PHPSerializeStringArray lib L = .ok s ∧
      PHPDeserializeStringArray lib s = .ok r ∧
      r = sortStrings L.dedup ∧ r.Sorted (fun a b => a < b) ∧ ∀ x, x ∈ r ↔ x ∈ L)
    ∧ (∃ s, phpSerializeLibrary.Marshal (stringKeyMap L) = .ok s
        ∧ phpSerializeLibrary.Unmarshal s = .ok (stringKeyMap L))
    ∧ (∃ s r, PHPSerializeStringArray phpSerializeLibrary L = .ok s ∧
        PHPDeserializeStringArray phpSerializeLibrary s = .ok r ∧
        r = sortStrings L.dedup ∧ r.Sorted (fun a b => a < b) ∧ ∀ x, x ∈ r ↔ x ∈ L)
    ∧ ((∀ s ∈ L, '\\' ∉ s) →
        ∃ s r, PHPSerializeStringArray phpEscapeDecodingLibrary L = .ok s ∧
          PHPDeserializeStringArray phpEscapeDecodingLibrary s = .ok r ∧
          r = sortStrings L.dedup ∧ r.Sorted (fun a b => a < b) ∧ ∀ x, x ∈ r ↔ x ∈ L) := by
  obtain ⟨s, hs, hu⟩ := phpUnmarshal_phpMarshal (stringKeyMap L) (stringKeyMap_entries L)
  refine ⟨PHPDeserialize_Serialize_of_codec lib L hlib, ⟨s, hs, hu⟩,
    PHPDeserialize_Serialize_of_codec phpSerializeLibrary L
      ⟨s, hs, stringKeyMap L, hu, List.Perm.refl _⟩, fun hb => ?_⟩
  obtain ⟨s2, hs2, hu2⟩ := phpEscapeDecoding_roundtrip L hb
  exact PHPDeserialize_Serialize_of_codec phpEscapeDecodingLibrary L
    ⟨s2, hs2, stringKeyMap L, hu2, List.Perm.refl _⟩

theorem PHPDeserialize_Serialize_witness :
    ∃ s r, PHPSerializeStringArray phpSerializeLibrary
        ["editor".toList, "admin".toList, "editor".toList] = .ok s ∧
      PHPDeserializeStringArray phpSerializeLibrary s = .ok r ∧
      r = sortStrings ["editor".toList, "admin".toList, "editor".toList].dedup ∧
      r.Sorted (fun a b => a < b) ∧
      ∀ x, x ∈ r ↔ x ∈ ["editor".toList, "admin".toList, "editor".toList] :=
  (PHPDeserialize_Serialize phpSerializeLibrary
    ["editor".toList, "admin".toList, "editor".toList]
    ⟨"a:2:\x7bs:6:\"editor\";b:1;s:5:\"admin\";b:1;\x7d".toList, by rfl,
      [(.str "editor".toList, .bool true), (.str "admin".toList, .bool true)], by rfl,
      by rfl⟩).1

/-- C13 (counterexample): without a pagination context the query `?<nokey> ?<limit>`, whose
first placeholder names a key that is not bound, makes `parseQueryOpts` stop with the nil
dereference at `?<limit>`: no error is returned. -/
theorem parseQueryOpts_nil_context_panics :
    parseQueryOpts id .MySQL none "?<nokey> ?<limit>".toList (fun _ => none) = .panics
    ∧ placeholderFailures id (fun _ => none) "?<nokey> ?<limit>".toList
        = [.unknownToken "?<nokey>".toList]
    ∧ "?<nokey>".toList ∈ placeholders "?<nokey> ?<limit>".toList := by
  decide

/-- C13 (amended): when there is a pagination context, or the query has no placeholder whose
key is `limit`, `offset` or `cursor`, `parseQueryOpts` returns, and it fails for every query
with a failing placeholder (its key is not `limit`, `offset` or `cursor` and is not bound in
`vars`, or its option is not `unquoted`): it returns the empty query, no arguments,
`paginationUsed = false` and the error that joins the failures of the placeholders in their
order, one for each failing placeholder; every error result has this form. A placeholder
`?<k>` whose lowercased key is not reserved and not bound fails with `unknown token`, and a
placeholder `?<k|o>` whose lowercased option is not `unquoted` fails with `unknown option`. -/
theorem parseQueryOpts_failures (caseTable : Char → Char) (d : DbEngine)
    (pCtx : Option paginationContext) (query : Str) (vars : Str → Option Value)
    (hctx : pCtx = none →
      ∀ t ∈ placeholders query, isPaginationPlaceholder caseTable t = false) :
    (placeholderFailures caseTable vars query ≠ [] →
      parseQueryOpts caseTable d pCtx query vars
        = .returns { query := [], args := [], paginationUsed := false,
                     err := some (.joined (placeholderFailures caseTable vars query)) })
    ∧ (∃ r, parseQueryOpts caseTable d pCtx query vars = .returns r
        ∧ (r.err ≠ none →
            placeholderFailures caseTable vars query ≠ []
            ∧ r = { query := [], args := [], paginationUsed := false,
                    err := some (.joined (placeholderFailures caseTable vars query)) })
        ∧ (placeholderFailures caseTable vars query = [] → r.err = none))
    ∧ (placeholderFailures caseTable vars query).length
        = ((placeholders query).filter
            (fun t => (placeholderFailure caseTable vars t).isSome)).length
    ∧ (∀ k, k ≠ [] → (∀ c ∈ k, isWordChar c = true) →
        "?<".toList ++ k ++ ">".toList ∈ placeholders query →
        stringsToLower caseTable k ≠ limitKey → stringsToLower caseTable k ≠ offsetKey →
        stringsToLower caseTable k ≠ cursorKey → vars (stringsToLower caseTable k) = none →
        QueryError.unknownToken ("?<".toList ++ k ++ ">".toList)
          ∈ placeholderFailures caseTable vars query)
    ∧ (∀ k o, k ≠ [] → o ≠ [] → (∀ c ∈ k, isWordChar c = true) →
        (∀ c ∈ o, isWordChar c = true) →
        "?<".toList ++ k ++ "|".toList ++ o ++ ">".toList ∈ placeholders query →
        stringsToLower caseTable o ≠ unquotedKey →
        QueryError.inToken ("?<".toList ++ k ++ "|".toList ++ o ++ ">".toList)
            (.unknownOption (stringsToLower caseTable o))
          ∈ placeholderFailures caseTable vars query) := by
  obtain ⟨r, hr⟩ := parseQueryOpts_does_return caseTable d pCtx query vars hctx
  have h2 := parseQueryOpts_returns caseTable d pCtx query vars r hr
  refine ⟨?_, ⟨r, hr, ?_, h2.2⟩, length_filterMap_eq_filter _ _, ?_, ?_⟩
  · intro hne
    rw [hr, h2.1 hne]
  · intro herr
    by_cases hne : placeholderFailures caseTable vars query = []
    · exact absurd (h2.2 hne) herr
    · exact ⟨hne, h2.1 hne⟩
  · intro k hne hk hmem h1 h2 h3 hv
    exact List.mem_filterMap.mpr ⟨_, hmem,
      placeholderFailure_plain caseTable vars k hne hk h1 h2 h3 hv⟩
  · intro k o hne hno hk ho hmem hbad
    exact List.mem_filterMap.mpr ⟨_, hmem,
      placeholderFailure_option caseTable vars k o hne hno hk ho hbad⟩

theorem parseQueryOpts_failures_witness :
    parseQueryOpts id .MySQL
        (some { Strategy := offsetKey, Limit := 10, Offset := 0, Cursor := [], PrimaryKey := [] })
        "?<nokey> ?<limit|bad>".toList (fun _ => none)
      = .returns { query := [], args := [], paginationUsed := false,
                   err := some (.joined [.unknownToken "?<nokey>".toList,
                     .inToken "?<limit|bad>".toList (.unknownOption "bad".toList)]) } :=
  (parseQueryOpts_failures id .MySQL
    (some { Strategy := offsetKey, Limit := 10, Offset := 0, Cursor := [], PrimaryKey := [] })
    "?<nokey> ?<limit|bad>".toList (fun _ => none) (fun h => by cases h)).1 (by decide)

end BatonSQL
